import Mathlib

/-!
# Consensus core of the chain (`chaincore/chain/protocol_block.go`)

A shallow embedding of the notarization and finalization code of the chain
package, followed by theorems about it. Further sections embed the update
request of the storage contract (`smartcontract/storagesc/allocation.go`), the
pour of the faucet contract (`smartcontract/faucetsc/sc.go`) and the block
statistics of the conductor (`conductor/conductrpc/stats/stats.go`).

Conventions of the embedding

* Go `int` / `int64` values are `Int`; where the source adds or multiplies
  them the result is reduced with `wrapInt64` (two's complement, 64 bit).
* A `*block.Block` is a `Ptr` into the block heap `Chain.blocks`; a nil
  pointer is `none`. Pointer equality is equality of `Ptr`.
* A Go `error` result is `Option GoError` (`none` is `nil`).
* A run-time panic (nil dereference, failed type assertion) is the `error`
  side of `Except Abort`.
* Calls that leave this file of the source (persisting, handlers, pruning of
  the store) are recorded, in order, in `Chain.log`.
* Logging and latency timers have no effect on the modelled state and are
  left out.
-/

namespace ZeroChain

/-! ## Machine integers -/

/-- Reduction of an integer to the range of a Go `int64` (two's complement). -/
def wrapInt64 (x : Int) : Int :=
  (x + 9223372036854775808) % 18446744073709551616 - 9223372036854775808

/-! ## Data model -/

/-- A pointer to a block (`*block.Block`, non-nil). -/
abbrev Ptr := Nat

/-- A pointer to a node (`*node.Node`, non-nil). -/
abbrev NodePtr := Nat

/-- An error value: `common.Error` with its code and the text of its message
(format arguments are not rendered). A context error has an empty code. -/
structure GoError where
  Code : String
  Msg : String
deriving DecidableEq, Repr

/-- The constructor `common.NewError(code, msg)`. -/
def NewError (code msg : String) : GoError := ⟨code, msg⟩

/-- The constructor `common.InvalidRequest(msg)`. -/
def InvalidRequest (msg : String) : GoError := ⟨"invalid_request", msg⟩

/-- The ways a call can fail to return: Go panics (`invariantViolation` is a
panic raised by the code itself through the logger), and exhaustion of the
fuel that bounds the pointer walks of the model. -/
inductive Abort where
  | nilDereference
  | typeAssertion
  | indexOutOfRange
  | invariantViolation
  | outOfFuel
deriving DecidableEq, Repr

/-- The struct `block.VerificationTicket`. -/
structure VerificationTicket where
  VerifierID : String
  Signature : String
deriving DecidableEq, Repr

/-- A node pool (`*node.Pool`): lookup of a member by id, and its size. -/
structure Pool where
  GetNode : String → Option NodePtr
  Size : Int

/-- The struct `block.MagicBlock`, as far as the chain code reads it. -/
structure MagicBlock where
  StartingRound : Int
  Miners : Pool

/-- A transaction, as far as the chain code reads it. -/
structure Transaction where
  Fee : Int
deriving DecidableEq, Repr

/-- The struct `block.Block`, as far as the chain code reads and writes it.
`UniqueBlockExtensions` lists the keys of the Go map of that name. -/
structure Block where
  Hash : String
  PrevHash : String
  Round : Int
  MinerID : String
  RoundRank : Int
  LatestFinalizedMagicBlockRound : Int
  MagicBlock : Option MagicBlock
  Txns : List Transaction
  VerificationTickets : List VerificationTicket
  UniqueBlockExtensions : List String
  PrevBlock : Option Ptr
  isNotarized : Bool
  stateComputed : Bool

/-- The struct `MinerStats` of the chain package. -/
structure MinerStats where
  FinalizationCountByRank : List Int
  GenerationCountByRank : List Int
deriving DecidableEq, Repr

/-- The dynamic value of the `ProtocolStats interface{}` field of a node. -/
inductive ProtocolStats where
  | minerStats (ms : MinerStats)
  | foreign
deriving DecidableEq, Repr

/-- The struct `node.Node`, as far as the chain code reads and writes it. -/
structure Node where
  ID : String
  PublicKey : String
  ProtocolStats : Option ProtocolStats
deriving DecidableEq, Repr

/-- A round object (`round.RoundI`), as far as the chain code reads it. -/
structure Round where
  Number : Int
deriving DecidableEq, Repr

/-- Modelled from the spec: `block.BlockSummary`, the value `GetSummary`
returns; the block package is not among the sources. The spec only says that
the chain keeps "a ring-buffer summary of recent finalized blocks". -/
structure BlockSummary where
  Hash : String
  Round : Int
  MinerID : String
  NumTxns : Nat
deriving DecidableEq, Repr

/-- The ring `c.BlockChain` (`*ring.Ring`): its slots and the current one.
A ring without slots is the nil ring. -/
structure Ring where
  Values : List (Option BlockSummary)
  Cur : Nat
deriving DecidableEq, Repr

/-- The struct `FeeStats` of the chain. -/
structure FeeStats where
  MeanFees : Int
  MaxFees : Int
  MinFees : Int
deriving DecidableEq, Repr

/-- A call that leaves the modelled code, as recorded in `Chain.log`. -/
inductive Event where
  | verifyTickets (blockHash : String) (bvts : List VerificationTicket) (round : Int)
  | updateChainInfo (fb : Ptr)
  | saveChanges (fb : Ptr)
  | rebaseState (fb : Ptr)
  | updateMagicBlock (fb : Ptr)
  | updateFinalizedBlock (fb : Ptr)
  | deleteBlocks (dead : List Ptr)
  | pullNotarizedBlocks (b : Ptr) (num : Int)
  | getBlockStateChange (b : Ptr)
  | computeStateLocal (b : Ptr)
  | updateBlocks (blocks : List Ptr)
deriving DecidableEq, Repr

/-- A cancellation handle as one call of `VerifyTickets` observes it: for each
of its two `select` statements, whether `ctx.Done()` is the case taken, and
the value of `ctx.Err()` then. -/
structure Context where
  doneAtAcquire : Option GoError
  doneAtJoin : Option GoError
deriving DecidableEq, Repr

/-- The chain (`*Chain`): configuration, head pointers, the heaps of blocks
and nodes, the block store, and the collaborators whose code is outside the
sources (as functions). `LFBTicketAhead` is `config.GetLFBTicketAhead()`;
`pullNotarizedBlocks b num` lists the blocks a pull of `num` ancestors of `b`
delivers, oldest first; `GetBlockStateChange` and `ComputeStateLocal` say
whether the remote fetch and the local computation of the state of a block
fail. -/
structure Chain where
  ThresholdByCount : Int
  ThresholdByStake : Int
  GeneratorsNum : Int
  CurrentRound : Int
  LatestFinalizedBlock : Option Ptr
  LatestOwnFinalizedBlockRound : Int
  LatestFinalizedMagicBlock : Option Ptr
  LatestDeterministicBlock : Option Ptr
  BlockChain : Ring
  FeeStats : FeeStats
  blocks : Ptr → Block
  store : List Ptr
  nodes : NodePtr → Node
  GetNode : String → Option NodePtr
  GetRound : Int → Option Round
  GetGenerators : Round → List NodePtr
  GetMagicBlock : Int → MagicBlock
  GetMiners : Int → Pool
  GetNotarizationThresholdCount : Int → Int
  getMiningStake : String → Int
  BLS0ChainAggregateSignatures : List String → Except GoError String
  GetMinersPublicKeys : List String → Except GoError (List String)
  VerifyAggregate : String → List String → List String → Bool
  SaveChanges : Block → Option GoError
  UpdateMagicBlock : (Int → MagicBlock) → MagicBlock → Option GoError × (Int → MagicBlock)
  LFBTicketAhead : Int
  pullNotarizedBlocks : Ptr → Int → List Ptr
  GetBlockStateChange : Ptr → Option GoError
  ComputeStateLocal : Ptr → Option GoError
  log : List Event

namespace Chain

/-! ## Accessors of the block and of the chain head

Their code is outside the sources; they are the plain getters and setters
the spec describes. -/

/-- Modelled from the spec: `b.SetBlockNotarized()` of the block package,
the guarded operation "set-notarized" on the block's `notarized` flag. -/
def SetBlockNotarized (c : Chain) (b : Ptr) : Chain :=
  { c with blocks := Function.update c.blocks b { c.blocks b with isNotarized := true } }

/-- Modelled from the spec: `c.SetCurrentRound(r)`, the setter of
`current_round`. -/
def SetCurrentRound (c : Chain) (r : Int) : Chain :=
  { c with CurrentRound := r }

/-- Modelled from the spec: `c.SetLatestOwnFinalizedBlockRound(r)`, the
setter of `latest_own_finalized_block_round`, as an assignment. The spec adds
that the pointer only advances; `HeadSetters.advance` has that reading. -/
def SetLatestOwnFinalizedBlockRound (c : Chain) (r : Int) : Chain :=
  { c with LatestOwnFinalizedBlockRound := r }

/-- Modelled from the spec: `c.SetLatestFinalizedBlock(b)`, the setter of
`latest_finalized_block`, as an assignment. The spec adds that the pointer
only advances; `HeadSetters.advance` has that reading. -/
def SetLatestFinalizedBlock (c : Chain) (b : Ptr) : Chain :=
  { c with LatestFinalizedBlock := some b }

/-- Modelled from the spec: `c.SetLatestFinalizedMagicBlock(b)`, which sets
the latest finalized magic block to the block carrying it. -/
def SetLatestFinalizedMagicBlock (c : Chain) (b : Ptr) : Chain :=
  { c with LatestFinalizedMagicBlock := some b }

/-- Modelled from the spec: `c.SetLatestDeterministicBlock(b)`, which
promotes the latest deterministic block to `b`, as an assignment. The spec
adds that the block is never demoted; `HeadSetters.advance` has that
reading. -/
def SetLatestDeterministicBlock (c : Chain) (b : Ptr) : Chain :=
  { c with LatestDeterministicBlock := some b }

/-- Modelled from the spec: `b.GetSummary()` of the block package. -/
def GetSummary (b : Block) : BlockSummary :=
  { Hash := b.Hash, Round := b.Round, MinerID := b.MinerID, NumTxns := b.Txns.length }

/-- Modelled from the spec: `c.GetRoundBlocks(round)`, which "returns all
blocks ever seen at that round regardless of fork", here those of the
store. -/
def GetRoundBlocks (c : Chain) (round : Int) : List Ptr :=
  c.store.filter fun p => decide ((c.blocks p).Round = round)

/-- Modelled from the spec: `c.DeleteBlocks(set)`, which "removes entries and
frees child→parent links": the store drops the entries under the hashes of
the given blocks, and those blocks lose their previous-block link. The call
is recorded. -/
def DeleteBlocks (c : Chain) (dead : List Ptr) : Chain :=
  let hashes := dead.map fun p => (c.blocks p).Hash
  { c with
    store := c.store.filter fun p => decide ((c.blocks p).Hash ∉ hashes)
    blocks := fun p => if p ∈ dead then { c.blocks p with PrevBlock := none } else c.blocks p
    log := c.log ++ [Event.deleteBlocks dead] }

/-! ## Notarization (`protocol_block.go`, lines 18 to 227) -/

/-- The stake loop of `reachedNotarization`:
`verifiersStake += c.getMiningStake(ticket.VerifierID)` for each ticket. -/
def verifiersStake (c : Chain) (bvt : List VerificationTicket) : Int :=
  bvt.foldl (fun acc ticket => wrapInt64 (acc + c.getMiningStake ticket.VerifierID)) 0

/-- The method `reachedNotarization`. The tickets are non-nil pointers:
`VerifyNotarization` has rejected a null ticket before it calls the method,
and a block holds none. The hash is only logged. -/
def reachedNotarization (c : Chain) (round : Int) (_hash : String)
    (bvt : List VerificationTicket) : Bool :=
  let mb := c.GetMagicBlock round
  let num := mb.Miners.Size
  let threshold := c.GetNotarizationThresholdCount num
  let countShort :=
    if c.ThresholdByCount > 0 then
      let numSignatures : Int := bvt.length
      decide (numSignatures < threshold)
    else false
  if countShort then
    false
  else
    let stakeShort :=
      if c.ThresholdByStake > 0 then
        decide (c.verifiersStake bvt < c.ThresholdByStake)
      else false
    if stakeShort then
      false
    else
      true

/-- The method `VerifyRelatedMagicBlockPresence`. -/
def VerifyRelatedMagicBlockPresence (c : Chain) (b : Ptr) : Except Abort (Option GoError) :=
  let lfb := c.LatestFinalizedBlock
  let relatedmbr := (c.blocks b).LatestFinalizedMagicBlockRound
  let mb := c.GetMagicBlock (c.blocks b).Round
  if mb.StartingRound ≠ relatedmbr then
    .ok (some (NewError "verify_related_mb_presence" "no corresponding MB, want_mb_sr: %d, got_mb_sr: %d"))
  else
    match lfb with
    | none => .error .nilDereference
    | some l =>
      if (c.blocks b).Round < (c.blocks l).Round then
        .ok none
      else
        .ok none

/-- The method `ticketsVerifier`, for one resolution of its `select`: either
the context is done first, or a slot is taken and `f` runs. -/
def ticketsVerifier (ctx : Context) (f : Unit → Option GoError) : Option GoError :=
  match ctx.doneAtAcquire with
  | some e => some e
  | none => f ()

/-- The first loop of `VerifyTickets`: the public keys of the tickets'
senders, or the error of the first ticket whose verifier is not a miner of
the round. -/
def senderKeys (c : Chain) (round : Int) : List VerificationTicket → Except GoError (List String)
  | [] => .ok []
  | bvt :: rest =>
    let pl := c.GetMiners round
    match pl.GetNode bvt.VerifierID with
    | none => .error (InvalidRequest "Verifier unknown or not authorized at this time: %v, pool size: %d")
    | some sender =>
      match senderKeys c round rest with
      | .error e => .error e
      | .ok pks => .ok ((c.nodes sender).PublicKey :: pks)

/-- The worker goroutine of `VerifyTickets`: `none` when it closes `doneC`,
the error it sends on `errC` otherwise. -/
def aggregateWorker (c : Chain) (sigs pks hashes : List String) : Option GoError :=
  match c.BLS0ChainAggregateSignatures sigs with
  | .error _ => some (NewError "verify_tickets" "failed to aggregate signatures: %v")
  | .ok aggSig =>
    match c.GetMinersPublicKeys pks with
    | .error _ => some (NewError "verify_tickets" "failed to decode public keys: %v")
    | .ok pubKeys =>
      if !c.VerifyAggregate aggSig pubKeys hashes then
        some (NewError "verify_tickets" "failed to verify aggregate signatures: %v")
      else
        none

/-- The result of `VerifyTickets`. -/
def verifyTicketsResult (c : Chain) (ctx : Context) (blockHash : String)
    (bvts : List VerificationTicket) (round : Int) : Option GoError :=
  ticketsVerifier ctx fun _ =>
    let sigs := bvts.map fun bvt => bvt.Signature
    let hashes := bvts.map fun _ => blockHash
    match c.senderKeys round bvts with
    | .error e => some e
    | .ok pks =>
      match ctx.doneAtJoin with
      | some e => some e
      | none => c.aggregateWorker sigs pks hashes

/-- The method `VerifyTickets`: its result, and the chain with the call
recorded. -/
def VerifyTickets (c : Chain) (ctx : Context) (blockHash : String)
    (bvts : List VerificationTicket) (round : Int) : Option GoError × Chain :=
  (c.verifyTicketsResult ctx blockHash bvts round,
   { c with log := c.log ++ [Event.verifyTickets blockHash bvts round] })

/-- The ticket loop of `VerifyNotarization`: the null and duplicate checks,
with `seen` the keys of `ticketsMap`. On success the tickets, all non-nil. -/
def checkTickets (seen : List String) :
    List (Option VerificationTicket) → Except GoError (List VerificationTicket)
  | [] => .ok []
  | none :: _ => .error (NewError "null_ticket" "Verification ticket is null")
  | some vt :: rest =>
    if vt.VerifierID ∈ seen then
      .error (NewError "duplicate_ticket_signature"
        "Found duplicate signatures in the notarization of the block")
    else
      match checkTickets (vt.VerifierID :: seen) rest with
      | .error e => .error e
      | .ok ts => .ok (vt :: ts)

/-- The method `VerifyNotarization`. The ticket slice may be nil and may hold
nil tickets. -/
def VerifyNotarization (c : Chain) (ctx : Context) (b : Ptr)
    (bvt : Option (List (Option VerificationTicket))) (round : Int) :
    Except Abort (Option GoError × Chain) :=
  match bvt with
  | none => .ok (some (NewError "no_verification_tickets" "No verification tickets for this block"), c)
  | some bvt =>
    match c.VerifyRelatedMagicBlockPresence b with
    | .error p => .error p
    | .ok (some err) => .ok (some err, c)
    | .ok none =>
      match checkTickets [] bvt with
      | .error err => .ok (some err, c)
      | .ok tickets =>
        if !c.reachedNotarization round (c.blocks b).Hash tickets then
          .ok (some (NewError "block_not_notarized"
            "Verification tickets not sufficient to reach notarization"), c)
        else
          match c.VerifyTickets ctx (c.blocks b).Hash tickets round with
          | (some err, c1) => .ok (some err, c1)
          | (none, c1) =>
            let c2 := c1.SetBlockNotarized b
            let c3 := if (c2.blocks b).Round > c2.CurrentRound then
              c2.SetCurrentRound (c2.blocks b).Round else c2
            .ok (none, c3)

/-- The method `IsBlockNotarized`. -/
def IsBlockNotarized (c : Chain) (b : Ptr) : Except Abort (Bool × Chain) :=
  if (c.blocks b).isNotarized then
    .ok (true, c)
  else
    match c.VerifyRelatedMagicBlockPresence b with
    | .error p => .error p
    | .ok (some _) => .ok (false, c)
    | .ok none =>
      let notarized := c.reachedNotarization (c.blocks b).Round (c.blocks b).Hash
        (c.blocks b).VerificationTickets
      if notarized then
        .ok (notarized, c.SetBlockNotarized b)
      else
        .ok (notarized, c)

/-- The method `Chain.IsFinalizedDeterministically`. -/
def IsFinalizedDeterministically (c : Chain) (b : Ptr) : Except Abort Bool :=
  let mb := c.GetMagicBlock (c.blocks b).Round
  match c.LatestFinalizedBlock with
  | none => .error .nilDereference
  | some lfb =>
    if (c.blocks lfb).Round < (c.blocks b).Round then
      .ok false
    else if wrapInt64 (((c.blocks b).UniqueBlockExtensions.length : Int) * 100)
        ≥ wrapInt64 (mb.Miners.Size * c.ThresholdByCount) then
      .ok true
    else
      .ok false

/-! ## Tickets of a block (`protocol_block.go`, lines 263 to 279) -/

/-- Modelled from the spec: `b.AddVerificationTicket(t)` of the block package,
which "rejects duplicates by `verifier_id`" and otherwise inserts the ticket.
The result is the block afterwards and whether the ticket was inserted. -/
def blockAddVerificationTicket (b : Block) (bvt : VerificationTicket) : Block × Bool :=
  if b.VerificationTickets.any (fun t => t.VerifierID == bvt.VerifierID) then
    (b, false)
  else
    ({ b with VerificationTickets := b.VerificationTickets ++ [bvt] }, true)

/-- Modelled from the spec: `b.MergeVerificationTickets(ts)` of the block
package, the union of the block's ticket set with `ts`, "deduplicated by
verifier". -/
def blockMergeVerificationTickets (b : Block) (vts : List VerificationTicket) : Block :=
  vts.foldl (fun acc t => (blockAddVerificationTicket acc t).1) b

/-- The method `Chain.AddVerificationTicket`. -/
def AddVerificationTicket (c : Chain) (b : Ptr) (bvt : VerificationTicket) :
    Except Abort (Bool × Chain) :=
  let r := blockAddVerificationTicket (c.blocks b) bvt
  let c1 := { c with blocks := Function.update c.blocks b r.1 }
  let added := r.2
  if added then
    match c1.IsBlockNotarized b with
    | .error p => .error p
    | .ok (_, c2) => .ok (added, c2)
  else
    .ok (added, c1)

/-- The method `Chain.MergeVerificationTickets`. -/
def MergeVerificationTickets (c : Chain) (b : Ptr) (vts : List VerificationTicket) :
    Except Abort Chain :=
  let vtlen := (c.blocks b).VerificationTickets.length
  let merged := blockMergeVerificationTickets (c.blocks b) vts
  let c1 := { c with blocks := Function.update c.blocks b merged }
  if (c1.blocks b).VerificationTickets.length ≠ vtlen then
    match c1.IsBlockNotarized b with
    | .error p => .error p
    | .ok (_, c2) => .ok c2
  else
    .ok c1

/-! ## Finalization (`protocol_block.go`, lines 281 to 405 and 644 to 661) -/

/-- The slice `make([]int64, n)` after `copy` of `xs` into it, for `n` above
the length of `xs`. -/
def grownTo (n : Int) (xs : List Int) : List Int :=
  xs ++ List.replicate (n.toNat - xs.length) 0

/-- The statement `xs[i]++` on a slice of `int64`. -/
def incrementAt (xs : List Int) (i : Int) : Except Abort (List Int) :=
  if 0 ≤ i ∧ i < xs.length then
    .ok (xs.set i.toNat (wrapInt64 (xs.getD i.toNat 0 + 1)))
  else
    .error .indexOutOfRange

/-- The first part of `finalizeBlock`: the finalization count, by rank, of the
miner of the block. -/
def updateFinalizationCount (c : Chain) (fb : Ptr) : Except Abort Chain :=
  let numGenerators := c.GeneratorsNum
  if (c.blocks fb).RoundRank ≥ numGenerators ∨ (c.blocks fb).RoundRank < 0 then
    .ok c
  else
    match c.GetNode (c.blocks fb).MinerID with
    | none => .ok c
    | some bNode =>
      match (c.nodes bNode).ProtocolStats with
      | none => .ok c
      | some .foreign => .error .typeAssertion
      | some (.minerStats ms) =>
        let counts :=
          if numGenerators > ms.FinalizationCountByRank.length then
            grownTo numGenerators ms.FinalizationCountByRank
          else ms.FinalizationCountByRank
        match incrementAt counts (c.blocks fb).RoundRank with
        | .error p => .error p
        | .ok counts1 =>
          let ms1 := { ms with FinalizationCountByRank := counts1 }
          let node1 := { c.nodes bNode with ProtocolStats := some (.minerStats ms1) }
          .ok { c with nodes := Function.update c.nodes bNode node1 }

/-- The loop of `finalizeBlock` over the generators of the round: the
generation count of each, by its index. `total` is `len(generators)`. -/
def updateGenerationCounts (total : Nat) :
    Nat → List NodePtr → (NodePtr → Node) → Except Abort (NodePtr → Node)
  | _, [], nodes => .ok nodes
  | idx, g :: rest, nodes =>
    match (nodes g).ProtocolStats with
    | some (.minerStats ms) =>
      let counts :=
        if total > ms.GenerationCountByRank.length then
          grownTo total ms.GenerationCountByRank
        else ms.GenerationCountByRank
      match incrementAt counts idx with
      | .error p => .error p
      | .ok counts1 =>
        let ms1 := { ms with GenerationCountByRank := counts1 }
        updateGenerationCounts total (idx + 1) rest
          (Function.update nodes g { nodes g with ProtocolStats := some (.minerStats ms1) })
    | _ => .error .typeAssertion

/-- The statistics part of `finalizeBlock` (up to the timers): the entry log
line reads the round of the latest finalized block, then the finalization
count and the generation counts are updated. -/
def updateMinerStats (c : Chain) (fb : Ptr) : Except Abort Chain :=
  match c.LatestFinalizedBlock with
  | none => .error .nilDereference
  | some _ =>
    match c.updateFinalizationCount fb with
    | .error p => .error p
    | .ok c1 =>
      match c1.GetRound (c1.blocks fb).Round with
      | none => .ok c1
      | some fr =>
        let generators := c1.GetGenerators fr
        match updateGenerationCounts generators.length 0 generators c1.nodes with
        | .error p => .error p
        | .ok nodes => .ok { c1 with nodes := nodes }

/-- The method `updateFeeStats`. -/
def updateFeeStats (c : Chain) (fb : Ptr) : Chain :=
  let txns := (c.blocks fb).Txns
  if txns.length = 0 then
    c
  else
    let totalFees := txns.foldl (fun acc txn => wrapInt64 (acc + txn.Fee)) 0
    let meanFees := Int.tdiv totalFees txns.length
    let s1 := { c.FeeStats with MeanFees := meanFees }
    let s2 := if meanFees > s1.MaxFees then { s1 with MaxFees := meanFees } else s1
    let s3 := if meanFees < s2.MinFees then { s2 with MinFees := meanFees } else s2
    { c with FeeStats := s3 }

/-- The statements `c.BlockChain.Value = v; c.BlockChain = c.BlockChain.Next()`. -/
def recordSummary (r : Ring) (v : BlockSummary) : Except Abort Ring :=
  if r.Values.length = 0 then
    .error .nilDereference
  else
    .ok { Values := r.Values.set r.Cur (some v), Cur := (r.Cur + 1) % r.Values.length }

/-- The loop `for pfb := fb; pfb != nil && pfb != c.LatestDeterministicBlock;
pfb = pfb.PrevBlock` of `finalizeBlock`, started at `pfb`. Each run of the
body uses one unit of fuel. -/
def promoteDeterministic (c : Chain) : Nat → Option Ptr → Except Abort Chain
  | _, none => .ok c
  | fuel, some pfb =>
    if some pfb = c.LatestDeterministicBlock then
      .ok c
    else
      match fuel with
      | 0 => .error .outOfFuel
      | fuel + 1 =>
        match c.IsFinalizedDeterministically pfb with
        | .error p => .error p
        | .ok true => .ok (c.SetLatestDeterministicBlock pfb)
        | .ok false => promoteDeterministic c fuel (c.blocks pfb).PrevBlock

/-- The loop `for idx := 0; idx < 10 && pfb != nil; idx, pfb = idx+1,
pfb.PrevBlock` of `finalizeBlock`, with `n` the iterations left. -/
def walkBack (c : Chain) : Nat → Option Ptr → Option Ptr
  | 0, pfb => pfb
  | _ + 1, none => none
  | n + 1, some pfb => walkBack c n (c.blocks pfb).PrevBlock

/-- The last part of `finalizeBlock`: deletion of the dead blocks of the round
ten blocks back. -/
def pruneDeadBlocks (c : Chain) (fb : Ptr) : Chain :=
  match c.walkBack 10 (some fb) with
  | none => c
  | some pfb =>
    let frb := c.GetRoundBlocks (c.blocks pfb).Round
    let deadBlocks := frb.filter fun b => decide ((c.blocks b).Hash ≠ (c.blocks pfb).Hash)
    c.DeleteBlocks deadBlocks

/-- The part of `finalizeBlock` after `SaveChanges` has succeeded. -/
def commitFinalized (fuel : Nat) (c : Chain) (fb : Ptr) : Except Abort Chain :=
  let c1 := { c with log := c.log ++ [Event.rebaseState fb] }
  let c2 := c1.updateFeeStats fb
  let c3 := c2.SetLatestOwnFinalizedBlockRound (c2.blocks fb).Round
  let c4 := c3.SetLatestFinalizedBlock fb
  let c5 :=
    match (c4.blocks fb).MagicBlock with
    | none => c4
    | some mb =>
      let r := c4.UpdateMagicBlock c4.GetMagicBlock mb
      let c4a := { c4 with GetMagicBlock := r.2, log := c4.log ++ [Event.updateMagicBlock fb] }
      match r.1 with
      | some _ => c4a
      | none => c4a.SetLatestFinalizedMagicBlock fb
  let c6 := { c5 with log := c5.log ++ [Event.updateFinalizedBlock fb] }
  match recordSummary c6.BlockChain (GetSummary (c6.blocks fb)) with
  | .error p => .error p
  | .ok ring =>
    let c7 := { c6 with BlockChain := ring }
    match c7.promoteDeterministic fuel (some fb) with
    | .error p => .error p
    | .ok c8 => .ok (c8.pruneDeadBlocks fb)

/-- The method `finalizeBlock`. `fuel` bounds the walk towards the latest
deterministic block. `UpdateChainInfo`, `SaveChanges` and `rebaseState` act on
the chain info and on the state database, which are outside the fields of
`Chain`; their calls are recorded, and `SaveChanges` returns what the
collaborator `Chain.SaveChanges` says. -/
def finalizeBlock (fuel : Nat) (c : Chain) (fb : Ptr) : Except Abort Chain :=
  match c.updateMinerStats fb with
  | .error p => .error p
  | .ok c1 =>
    let c2 := { c1 with log := c1.log ++ [Event.updateChainInfo fb, Event.saveChanges fb] }
    match c2.SaveChanges (c2.blocks fb) with
    | some _ => .ok c2
    | none => c2.commitFinalized fuel fb

/-! ## Sync and repair (`protocol_block.go`, lines 407 to 642) -/

/-- Modelled from the spec: `c.GetBlock(hash)`, the lookup in the block store,
a "mapping `hash → Block`". -/
def GetBlock (c : Chain) (hash : String) : Option Ptr :=
  c.store.find? fun p => decide ((c.blocks p).Hash = hash)

/-- Modelled from the spec: `b.SetPreviousBlock(pb)` of the block package.
"Previous-block linkage is set on first observation and is immutable
thereafter; attempting to set a different `prev` is a fatal invariant
violation." -/
def SetPreviousBlock (c : Chain) (b pb : Ptr) : Except Abort Chain :=
  match (c.blocks b).PrevBlock with
  | some q => if q = pb then .ok c else .error .invariantViolation
  | none =>
    .ok { c with blocks := Function.update c.blocks b { c.blocks b with PrevBlock := some pb } }

/-- Modelled from the spec: the effect of a successful `GetBlockStateChange`
or `ComputeStateLocal` on a block, which "obtain its post-state": the state of
the block is computed. -/
def stateObtained (c : Chain) (b : Ptr) : Chain :=
  { c with blocks := Function.update c.blocks b { c.blocks b with stateComputed := true } }

/-- Modelled from the spec: `c.UpdateBlocks(blocks)`, which puts the blocks
in the block store under their hashes (the store is a "mapping
`hash → Block`"). The call is recorded. -/
def UpdateBlocks (c : Chain) (blocks : List Ptr) : Chain :=
  { c with
    store := blocks.foldl
      (fun st b => st.filter (fun p => decide ((c.blocks p).Hash ≠ (c.blocks b).Hash)) ++ [b])
      c.store
    log := c.log ++ [Event.updateBlocks blocks] }

/-- The method `SyncStateOrComputeLocal`. -/
def SyncStateOrComputeLocal (c : Chain) (b : Ptr) : Option GoError × Chain :=
  let c1 := { c with log := c.log ++ [Event.getBlockStateChange b] }
  match c1.GetBlockStateChange b with
  | none => (none, c1.stateObtained b)
  | some _ =>
    let c2 := { c1 with log := c1.log ++ [Event.computeStateLocal b] }
    match c2.ComputeStateLocal b with
    | none => (none, c2.stateObtained b)
    | some _ =>
      (some (NewError "sync_blocks" "sync or compute state failed, round: %v, block: %v"), c2)

/-- The statement `if saveToDB { cb.SaveChanges(ctx, c) ... }` of `SyncBlocks`;
an error of `SaveChanges` is only logged. -/
def saveSynced (c : Chain) (saveToDB : Bool) (cb : Ptr) : Chain :=
  if saveToDB then { c with log := c.log ++ [Event.saveChanges cb] } else c

/-- The loop `for i := range blocks` of `SyncBlocks`, from index `i` on, with
the current value of `failedIndex`. `cb.SetStateDB` acts on the state
database only. -/
def syncLoop (saveToDB : Bool) : Nat → List Ptr → Int → Chain → Except Abort (Int × Chain)
  | _, [], failedIndex, c => .ok (failedIndex, c)
  | i, cb :: rest, failedIndex, c =>
    match (c.blocks cb).PrevBlock with
    | none =>
      if i > 0 then
        .error .invariantViolation
      else
        syncLoop saveToDB (i + 1) rest failedIndex c
    | some _ =>
      match c.SyncStateOrComputeLocal cb with
      | (some _, c1) => syncLoop saveToDB (i + 1) rest i c1
      | (none, c1) => syncLoop saveToDB (i + 1) rest failedIndex (c1.saveSynced saveToDB cb)

/-- The method `SyncBlocks`. -/
def SyncBlocks (c : Chain) (b : Ptr) (num : Int) (saveToDB : Bool) :
    Except Abort (List Ptr × Chain) :=
  let c0 := { c with log := c.log ++ [Event.pullNotarizedBlocks b num] }
  let blocks := c0.pullNotarizedBlocks b num
  match blocks with
  | [] => .ok ([], c0)
  | first :: _ =>
    let c1 :=
      match (c0.blocks first).PrevBlock with
      | none =>
        match c0.SyncStateOrComputeLocal first with
        | (some _, c0a) => c0a
        | (none, c0a) => c0a.saveSynced saveToDB first
      | some _ => c0
    match syncLoop saveToDB 0 blocks (-1) c1 with
    | .error p => .error p
    | .ok (failedIndex, c2) =>
      let blocks := blocks.drop (failedIndex + 1).toNat
      if blocks.length > 0 then
        .ok (blocks, c2.UpdateBlocks blocks)
      else
        .ok (blocks, c2)

/-- The value of `syncNum` in `GetPreviousBlock` when it turns to the remote
sync, before the test `syncNum <= 0`. -/
def syncNum (c : Chain) (b : Ptr) : Int :=
  let maxSyncDepth := wrapInt64 (c.LFBTicketAhead + 1)
  match c.LatestFinalizedBlock with
  | none => maxSyncDepth
  | some lfb =>
    let syncNum := wrapInt64 ((c.blocks b).Round - (c.blocks lfb).Round)
    let syncNum :=
      if syncNum > 0 ∧ syncNum < maxSyncDepth ∧ (c.blocks lfb).stateComputed = false then
        wrapInt64 (syncNum + 1)
      else syncNum
    if syncNum > maxSyncDepth then maxSyncDepth else syncNum

/-- The number of blocks `GetPreviousBlock` asks `SyncBlocks` for. -/
def requestedSyncNum (c : Chain) (b : Ptr) : Int :=
  if c.syncNum b ≤ 0 then 1 else c.syncNum b

/-- The remote sync of `GetPreviousBlock` (lines 450 to 515). -/
def syncPreviousBlock (c : Chain) (b : Ptr) : Except Abort (Option Ptr × Chain) :=
  if c.syncNum b ≤ 0 then
    match c.SyncBlocks b 1 false with
    | .error p => .error p
    | .ok ([], c1) =>
      match c1.LatestFinalizedBlock with
      | none => .error .nilDereference
      | some _ => .ok (none, c1)
    | .ok (pb :: _, c1) =>
      match c1.SetPreviousBlock b pb with
      | .error p => .error p
      | .ok c2 => .ok (some pb, c2)
  else
    match c.SyncBlocks b (c.syncNum b) false with
    | .error p => .error p
    | .ok ([], c1) => .ok (none, c1)
    | .ok (first :: rest, c1) =>
      if (c1.blocks first).stateComputed = false then
        .ok (none, c1)
      else
        let pb := (first :: rest).getLastD first
        if (c1.blocks pb).stateComputed = false then
          .ok (none, c1)
        else
          match c1.SetPreviousBlock b pb with
          | .error p => .error p
          | .ok c2 => .ok (some pb, c2)

/-- The part of `GetPreviousBlock` after the test of the existing link (lines
433 to 515): the local store, the latest finalized block, the remote sync. -/
def findPreviousBlock (c : Chain) (b : Ptr) : Except Abort (Option Ptr × Chain) :=
  let stored :=
    match c.GetBlock (c.blocks b).PrevHash with
    | some pb => if (c.blocks pb).stateComputed then some pb else none
    | none => none
  match stored with
  | some pb =>
    match c.SetPreviousBlock b pb with
    | .error p => .error p
    | .ok c1 => .ok (some pb, c1)
  | none =>
    let adopted :=
      match c.LatestFinalizedBlock with
      | some lfb =>
        if (c.blocks lfb).Round = wrapInt64 ((c.blocks b).Round - 1) ∧
            (c.blocks lfb).stateComputed = true then some lfb else none
      | none => none
    match adopted with
    | some lfb =>
      match c.SetPreviousBlock b lfb with
      | .error p => .error p
      | .ok c1 => .ok (some lfb, c1)
    | none => c.syncPreviousBlock b

/-- The method `GetPreviousBlock`. Modelled from the spec: the `DPanic` of
its first lines is fatal ("Fatal: `b.prev_block == b` or
`b.prev_hash == b.hash`"). -/
def GetPreviousBlock (c : Chain) (b : Ptr) : Except Abort (Option Ptr × Chain) :=
  if (c.blocks b).PrevBlock = some b ∨ (c.blocks b).PrevHash = (c.blocks b).Hash then
    .error .invariantViolation
  else
    let linked :=
      match (c.blocks b).PrevBlock with
      | some pb =>
        if (c.blocks pb).Hash = (c.blocks b).PrevHash ∧ (c.blocks pb).stateComputed = true then
          some pb else none
      | none => none
    match linked with
    | some pb => .ok (some pb, c)
    | none => c.findPreviousBlock b

/-- The loop `for b2.Round != b1.Round` of `commonAncestor`; each run of the
body uses one unit of fuel. The result is the block `b2` at the end, or nil
when a previous block could not be found. -/
def walkToRound (b1 : Ptr) : Nat → Chain → Ptr → Except Abort (Option Ptr × Chain)
  | 0, c, b2 =>
    if (c.blocks b2).Round ≠ (c.blocks b1).Round then .error .outOfFuel else .ok (some b2, c)
  | fuel + 1, c, b2 =>
    if (c.blocks b2).Round ≠ (c.blocks b1).Round then
      match c.GetPreviousBlock b2 with
      | .error p => .error p
      | .ok (none, c1) => .ok (none, c1)
      | .ok (some pb, c1) => walkToRound b1 fuel c1 pb
    else
      .ok (some b2, c)

/-- The loop `for b1 != b2` of `commonAncestor`; each run of the body uses one
unit of fuel. -/
def walkTogether : Nat → Chain → Ptr → Ptr → Except Abort (Option Ptr × Chain)
  | 0, c, b1, b2 => if b1 ≠ b2 then .error .outOfFuel else .ok (some b1, c)
  | fuel + 1, c, b1, b2 =>
    if b1 ≠ b2 then
      match c.GetPreviousBlock b1 with
      | .error p => .error p
      | .ok (none, c1) => .ok (none, c1)
      | .ok (some p1, c1) =>
        match c1.GetPreviousBlock b2 with
        | .error p => .error p
        | .ok (none, c2) => .ok (none, c2)
        | .ok (some p2, c2) => walkTogether fuel c2 p1 p2
    else
      .ok (some b1, c)

/-- The method `commonAncestor`; `fuel` bounds each of its two loops. -/
def commonAncestor (fuel : Nat) (c : Chain) (b1 b2 : Option Ptr) :
    Except Abort (Option Ptr × Chain) :=
  match b1, b2 with
  | none, _ => .ok (none, c)
  | some _, none => .ok (none, c)
  | some b1, some b2 =>
    if b1 = b2 ∨ (c.blocks b1).Hash = (c.blocks b2).Hash then
      .ok (some b1, c)
    else
      let lo := if (c.blocks b2).Round < (c.blocks b1).Round then b2 else b1
      let hi := if (c.blocks b2).Round < (c.blocks b1).Round then b1 else b2
      match walkToRound lo fuel c hi with
      | .error p => .error p
      | .ok (none, c1) => .ok (none, c1)
      | .ok (some hi1, c1) => walkTogether fuel c1 lo hi1

/-- The relation between the chain before and after steps of a sync that pull
no blocks: the collaborators that fetch and compute states and the latest
finalized block are the same, the blocks keep their links, their hashes and
their computed states, and the call log has grown by calls other than
pulls. -/
def syncFrame (c c' : Chain) : Prop :=
  c'.GetBlockStateChange = c.GetBlockStateChange ∧
  c'.ComputeStateLocal = c.ComputeStateLocal ∧
  c'.LatestFinalizedBlock = c.LatestFinalizedBlock ∧
  (∀ p, (c'.blocks p).PrevBlock = (c.blocks p).PrevBlock ∧
    (c'.blocks p).Hash = (c.blocks p).Hash ∧
    ((c.blocks p).stateComputed = true → (c'.blocks p).stateComputed = true)) ∧
  ∃ evs, c'.log = c.log ++ evs ∧ ∀ b n, Event.pullNotarizedBlocks b n ∉ evs

end Chain

/-! ## Sample data

A chain of four miners `A`, `B`, `C`, `D` with a stake of 100 each, and a few
blocks, used to evaluate the definitions at concrete inputs. -/

/-- The miners of the sample chain: node `0` to `3`. -/
def sampleMiners : Pool :=
  { GetNode := fun id =>
      if id = "A" then some 0 else if id = "B" then some 1
      else if id = "C" then some 2 else if id = "D" then some 3 else none
    Size := 4 }

/-- A ticket of the given verifier, signed `sig-` followed by its id. -/
def ticketOf (id : String) : VerificationTicket :=
  { VerifierID := id, Signature := "sig-" ++ id }

/-- A block of the sample chain at the given round, with the given hash and
tickets; its magic block round is `0`. -/
def sampleBlock (hash : String) (round : Int) (tickets : List VerificationTicket) : Block :=
  { Hash := hash, PrevHash := "", Round := round, MinerID := "A", RoundRank := 0
    LatestFinalizedMagicBlockRound := 0, MagicBlock := none, Txns := []
    VerificationTickets := tickets, UniqueBlockExtensions := [], PrevBlock := none
    isNotarized := false, stateComputed := true }

/-- The sample chain, with the given thresholds: block `0` is the latest
finalized block (round 5), block `1` is `B1` (round 10, hash `h1`, tickets of
`A`, `B`, `C`), block `2` is at round 3 and names magic block round 1. The
count threshold function asks for three tickets, every aggregate verifies. -/
def sampleChain (byCount byStake : Int) : Chain :=
  { ThresholdByCount := byCount, ThresholdByStake := byStake, GeneratorsNum := 2
    CurrentRound := 7, LatestFinalizedBlock := some 0, LatestOwnFinalizedBlockRound := 5
    LatestFinalizedMagicBlock := none, LatestDeterministicBlock := none
    BlockChain := { Values := [none, none, none], Cur := 0 }
    FeeStats := { MeanFees := 0, MaxFees := 0, MinFees := 0 }
    blocks := fun p =>
      if p = 0 then sampleBlock "h0" 5 []
      else if p = 1 then sampleBlock "h1" 10 [ticketOf "A", ticketOf "B", ticketOf "C"]
      else if p = 2 then { sampleBlock "h2" 3 [] with LatestFinalizedMagicBlockRound := 1 }
      else sampleBlock "" 0 []
    store := [0, 1, 2]
    nodes := fun _ => { ID := "", PublicKey := "pk", ProtocolStats := none }
    GetNode := sampleMiners.GetNode
    GetRound := fun _ => none
    GetGenerators := fun _ => []
    GetMagicBlock := fun _ => { StartingRound := 0, Miners := sampleMiners }
    GetMiners := fun _ => sampleMiners
    GetNotarizationThresholdCount := fun _ => 3
    getMiningStake := fun _ => 100
    BLS0ChainAggregateSignatures := fun _ => .ok "agg"
    GetMinersPublicKeys := fun pks => .ok pks
    VerifyAggregate := fun _ _ _ => true
    SaveChanges := fun _ => none
    UpdateMagicBlock := fun view _ => (none, view)
    LFBTicketAhead := 5
    pullNotarizedBlocks := fun _ _ => []
    GetBlockStateChange := fun _ => none
    ComputeStateLocal := fun _ => none
    log := [] }

/-- The sample chain with a count threshold of three on which no aggregate
signature verifies. -/
def unverifiedChain : Chain :=
  { sampleChain 3 0 with VerifyAggregate := fun _ _ _ => false }

/-- A chain of ten miners with `ThresholdByCount = 67`: block `0` is the latest
finalized block (round 5), every other block is at round 4 and has the given
extensions. -/
def finalityChain (extensions : List String) : Chain :=
  { sampleChain 67 0 with
    GetMagicBlock := fun _ => { StartingRound := 0, Miners := { sampleMiners with Size := 10 } }
    blocks := fun p =>
      if p = 0 then sampleBlock "h0" 5 []
      else { sampleBlock "b" 4 [] with UniqueBlockExtensions := extensions } }

/-- The sample chain with a count threshold of three on which persisting the
changes of a block fails. -/
def failingSaveChain : Chain :=
  { sampleChain 3 0 with SaveChanges := fun _ => some (NewError "save_changes" "failed") }

/-- The sample chain with block `0` (round 5) as latest finalized and as
latest deterministic block. -/
def settledChain : Chain :=
  { sampleChain 3 0 with LatestDeterministicBlock := some 0 }

/-- Block `100 + k` of a chain of linked blocks: its round is `k`, its previous
block is block `100 + k - 1` (none for `k = 0`), and only the block of round 1
has an extension. -/
def chainBlock (k : Nat) : Block :=
  { sampleBlock (String.mk (List.replicate (k + 1) 'c')) k [] with
    PrevBlock := if k = 0 then none else some (100 + k - 1)
    UniqueBlockExtensions := if k = 1 then ["x"] else [] }

/-- A chain with the linked blocks `100` to `112` (rounds 0 to 12), block `111`
as latest finalized block, a block `120` of round 2 off the chain, and the
latest deterministic block `121` of round 0, off the chain too. The store
holds blocks `102`, `120`, `112` and `121`. -/
def linkedChain : Chain :=
  { sampleChain 3 0 with
    LatestFinalizedBlock := some 111, LatestOwnFinalizedBlockRound := 11
    LatestDeterministicBlock := some 121
    blocks := fun p =>
      if 100 ≤ p ∧ p ≤ 112 then chainBlock (p - 100)
      else if p = 120 then sampleBlock "dead" 2 []
      else if p = 121 then sampleBlock "ldb" 0 []
      else sampleBlock "" 0 []
    store := [102, 120, 112, 121] }

/-- The sample chain whose block `1` carries a magic block; the update of the
magic block fails when `fails` is set. -/
def magicChain (fails : Bool) : Chain :=
  { sampleChain 3 0 with
    blocks := fun p =>
      if p = 0 then sampleBlock "h0" 5 []
      else { sampleBlock "h1" 10 [] with
        MagicBlock := some { StartingRound := 10, Miners := sampleMiners } }
    UpdateMagicBlock := fun view _ =>
      (if fails then some (NewError "update_magic_block" "failed") else none, view) }

/-- A block of round `round` whose previous block, of hash `prev`, is not
linked. -/
def orphanBlock (hash prev : String) (round : Int) : Block :=
  { sampleBlock hash round [] with PrevHash := prev }

/-- The sample chain with an unlinked block `6` of round 6 that names a
previous block of hash `x`, unknown to the store; the latest finalized block
is block `0` of round 5 and hash `h0`. -/
def orphanChain : Chain :=
  { sampleChain 3 0 with
    blocks := fun p => if p = 0 then sampleBlock "h0" 5 [] else orphanBlock "h6" "x" 6
    store := [0] }

/-- The sample chain with `lfb_ticket_ahead = -1` and an unlinked block `6` of
round 8, three rounds above the latest finalized block; a pull delivers
nothing. -/
def negativeAheadChain : Chain :=
  { sampleChain 3 0 with
    LFBTicketAhead := -1
    blocks := fun p => if p = 0 then sampleBlock "h0" 5 [] else orphanBlock "h8" "x" 8
    store := [0] }

/-- The sample chain on which a pull delivers the single block `7`, which has
no previous-block link and no computed state, and on which both the remote
fetch and the local computation of a state fail. -/
def staleChain : Chain :=
  { sampleChain 3 0 with
    blocks := fun p =>
      if p = 0 then sampleBlock "h0" 5 []
      else if p = 7 then { orphanBlock "h7" "h6" 7 with stateComputed := false }
      else orphanBlock "h8" "h7" 8
    store := [0]
    pullNotarizedBlocks := fun _ _ => [7]
    GetBlockStateChange := fun _ => some (NewError "state_change" "not found")
    ComputeStateLocal := fun _ => some (NewError "compute_state" "failed") }

/-- A block of the diamond chain: linked to block `prev`, of hash `prevHash`. -/
def linkedBlock (hash prevHash : String) (round : Int) (prev : Ptr) : Block :=
  { sampleBlock hash round [] with PrevHash := prevHash, PrevBlock := some prev }

/-- A chain with two tips, block `11` (hash `a`) and block `12` (hash `b`) of
round 2; their previous blocks `13` and `14` are two block objects of round 1
with the same hash `p`, both linked to block `10` of round 0 and hash `g`. -/
def diamondChain : Chain :=
  { sampleChain 3 0 with
    blocks := fun p =>
      if p = 11 then linkedBlock "a" "p" 2 13
      else if p = 12 then linkedBlock "b" "p" 2 14
      else if p = 13 then linkedBlock "p" "g" 1 10
      else if p = 14 then linkedBlock "p" "g" 1 10
      else orphanBlock "g" "-" 0
    store := [10, 11, 12, 13, 14] }

/-- The stale chain on which a pull delivers the blocks `7` and `8`, block `8`
linked to block `7`. -/
def stalePairChain : Chain :=
  { staleChain with
    blocks := fun p =>
      if p = 0 then sampleBlock "h0" 5 []
      else if p = 7 then { orphanBlock "h7" "h6" 7 with stateComputed := false }
      else { linkedBlock "h8" "h7" 8 7 with stateComputed := false }
    pullNotarizedBlocks := fun _ _ => [7, 8] }

/-- A context that is never done. -/
def background : Context := { doneAtAcquire := none, doneAtJoin := none }

/-- The sample chain on which no signatures aggregate, no public keys decode
and no aggregate verifies. -/
def brokenKeysChain : Chain :=
  { sampleChain 3 0 with
    BLS0ChainAggregateSignatures := fun _ => .error (NewError "bls" "no")
    GetMinersPublicKeys := fun _ => .error (NewError "bls" "no")
    VerifyAggregate := fun _ _ _ => false }

/-- The sample chain whose block `1` carries three transactions, of fees 5, 2
and 9, with the fee statistics mean 1, maximum 4, minimum 0. -/
def feeChain : Chain :=
  { sampleChain 3 0 with
    FeeStats := { MeanFees := 1, MaxFees := 4, MinFees := 0 }
    blocks := fun _ => { sampleBlock "h1" 10 [] with Txns := [⟨5⟩, ⟨2⟩, ⟨9⟩] } }

/-- The sample chain with two generators, whose nodes carry miner statistics
with the single finalization count 4, and whose block `1` has rank 1. -/
def statsChain : Chain :=
  { sampleChain 3 0 with
    nodes := fun _ =>
      { ID := "A", PublicKey := "pk"
        ProtocolStats := some (.minerStats ⟨[4], []⟩) }
    blocks := fun _ => { sampleBlock "h1" 10 [] with RoundRank := 1 } }

/-! ## Concurrent calls of `VerifyTickets` (`protocol_block.go`, lines 18 to 81)

Several goroutines call `VerifyTickets`, and so `ticketsVerifier`, at once.
The model below interleaves their steps. A call stands at the `select` of
`ticketsVerifier`; or it has a slot and `f` stands at its own `select` while
the worker goroutine it started verifies; or the worker has finished and `f`
has not returned yet; or `f` has returned and the deferred receive is
pending; or the call has returned. The worker goroutine is not stopped when
`f` returns through `<-ctx.Done()`: the states after the return of `f` record
whether it is still verifying. -/

/-- The arguments of one call of `VerifyTickets`. -/
structure TicketsRequest where
  blockHash : String
  bvts : List VerificationTicket
  round : Int
deriving DecidableEq, Repr

/-- Where one call of `VerifyTickets` stands. In `releasing r worker` and
`returned r worker`, `r` is the value `f` returned (or `ctx.Err()` of the
outer `select`) and `worker` says whether the worker goroutine of the call is
still verifying. -/
inductive VerifierCall where
  | waiting
  | verifying
  | settled
  | releasing (r : Option GoError) (worker : Bool)
  | returned (r : Option GoError) (worker : Bool)
deriving DecidableEq, Repr

/-- Whether the call has sent on `ticketsVerifyRequestC` and not yet received
from it. -/
def VerifierCall.holdsSlot : VerifierCall → Bool
  | .verifying => true
  | .settled => true
  | .releasing _ _ => true
  | _ => false

/-- Whether `f` is running in the call. -/
def VerifierCall.isRunning : VerifierCall → Bool
  | .verifying => true
  | .settled => true
  | _ => false

/-- Whether the worker goroutine of the call is verifying. -/
def VerifierCall.workerRuns : VerifierCall → Bool
  | .verifying => true
  | .releasing _ worker => worker
  | .returned _ worker => worker
  | _ => false

/-- The calls of `VerifyTickets` in flight and the channel they share.
Modelled from the spec: the channel `ticketsVerifyRequestC` is "a semaphore
of configurable capacity (`tickets_verifier_slots`)", here `slots`; the field
`ticketsVerifyRequestC` is the number of values the channel holds. `ctxErr i`
is `ctx.Err()` of call `i` (nil while its context is not done), `request i`
are the arguments of call `i`, and `started` lists the calls in which `f` has
been invoked. -/
structure Verifiers where
  chain : Chain
  slots : Nat
  ticketsVerifyRequestC : Nat
  ctxErr : Nat → Option GoError
  request : Nat → TicketsRequest
  calls : List VerifierCall
  started : List Nat

/-- One step of the interleaving: the context of a call becomes done; a call
at the `select` of `ticketsVerifier` sends on the channel and invokes `f`,
which runs its loop and starts the worker; a call at that `select` takes the
case `<-ctx.Done()` and returns `ctx.Err()`; the worker goroutine of a call
finishes; `f` takes the case `<-doneC` or `<-errC`; `f` takes the case
`<-ctx.Done()`; the deferred function receives from the channel and the call
returns. -/
inductive VerifierStep where
  | cancel (i : Nat) (e : GoError)
  | acquire (i : Nat)
  | giveUp (i : Nat)
  | workerDone (i : Nat)
  | join (i : Nat)
  | joinDone (i : Nat)
  | release (i : Nat)
deriving DecidableEq, Repr

namespace Verifiers

/-- What call `i` of `VerifyTickets` returns when its two `select` statements
resolve as `ctx` says. -/
def outcome (s : Verifiers) (i : Nat) (ctx : Context) : Option GoError :=
  s.chain.verifyTicketsResult ctx (s.request i).blockHash (s.request i).bvts (s.request i).round

/-- The state after a step, or `none` when the step is not enabled: a send on
the channel needs a free place in its buffer, a case `<-ctx.Done()` needs a
context that is done, the cases `<-doneC` and `<-errC` need a worker that has
finished. When the loop of `f` finds an unknown verifier, `f` returns before
it starts a worker. -/
def step (s : Verifiers) : VerifierStep → Option Verifiers
  | .cancel i e =>
    if s.ctxErr i = none then
      some { s with ctxErr := Function.update s.ctxErr i (some e) }
    else none
  | .acquire i =>
    if s.calls[i]? = some .waiting ∧ s.ticketsVerifyRequestC < s.slots then
      some { s with
        ticketsVerifyRequestC := s.ticketsVerifyRequestC + 1
        calls := s.calls.set i
          (match s.chain.senderKeys (s.request i).round (s.request i).bvts with
           | .error _ => .releasing (s.outcome i ⟨none, none⟩) false
           | .ok _ => .verifying)
        started := s.started ++ [i] }
    else none
  | .giveUp i =>
    match s.calls[i]?, s.ctxErr i with
    | some .waiting, some e =>
      some { s with calls := s.calls.set i (.returned (s.outcome i ⟨some e, none⟩) false) }
    | _, _ => none
  | .workerDone i =>
    match s.calls[i]? with
    | some .verifying => some { s with calls := s.calls.set i .settled }
    | some (.releasing r true) => some { s with calls := s.calls.set i (.releasing r false) }
    | some (.returned r true) => some { s with calls := s.calls.set i (.returned r false) }
    | _ => none
  | .join i =>
    if s.calls[i]? = some .settled then
      some { s with calls := s.calls.set i (.releasing (s.outcome i ⟨none, none⟩) false) }
    else none
  | .joinDone i =>
    match s.calls[i]?, s.ctxErr i with
    | some .verifying, some e =>
      some { s with calls := s.calls.set i (.releasing (s.outcome i ⟨none, some e⟩) true) }
    | some .settled, some e =>
      some { s with calls := s.calls.set i (.releasing (s.outcome i ⟨none, some e⟩) false) }
    | _, _ => none
  | .release i =>
    match s.calls[i]? with
    | some (.releasing r worker) =>
      some { s with
        ticketsVerifyRequestC := s.ticketsVerifyRequestC - 1
        calls := s.calls.set i (.returned r worker) }
    | _ => none

/-- The state after a schedule of steps, or `none` when one of them is not
enabled. -/
def run (s : Verifiers) : List VerifierStep → Option Verifiers
  | [] => some s
  | a :: rest =>
    match s.step a with
    | none => none
    | some s1 => run s1 rest

/-- The number of calls in which `f` is running. -/
def runningCount (s : Verifiers) : Nat :=
  s.calls.countP VerifierCall.isRunning

/-- The number of worker goroutines that are verifying. -/
def workerCount (s : Verifiers) : Nat :=
  s.calls.countP VerifierCall.workerRuns

/-- The invariant of the interleaving: the channel holds one value for each
call that has a slot, at most `slots` of them; `f` has not been invoked in a
call that waits and has been invoked in a call that has a slot; a call whose
`f` stands at its `select` found all its verifiers; a call that has returned
without `f` invoked has returned the error of its context and has no worker;
a worker that verifies after `f` has returned belongs to a call that returned
the error of its context. -/
def invariant (s : Verifiers) : Prop :=
  s.ticketsVerifyRequestC = s.calls.countP VerifierCall.holdsSlot ∧
  s.ticketsVerifyRequestC ≤ s.slots ∧
  (∀ i, s.calls[i]? = some .waiting → i ∉ s.started) ∧
  (∀ i c, s.calls[i]? = some c → c.holdsSlot = true → i ∈ s.started) ∧
  (∀ i c, s.calls[i]? = some c → c.isRunning = true →
    ∃ pks, s.chain.senderKeys (s.request i).round (s.request i).bvts = .ok pks) ∧
  (∀ i r worker, s.calls[i]? = some (.returned r worker) → i ∉ s.started →
    worker = false ∧ r ≠ none ∧ s.ctxErr i = r) ∧
  (∀ i r, s.calls[i]? = some (.releasing r true) ∨ s.calls[i]? = some (.returned r true) →
    r ≠ none ∧ s.ctxErr i = r)

end Verifiers

/-- Two calls of `VerifyTickets` for the ticket of miner `A` on the sample
chain, on a verifier with one slot; no context is done. -/
def twoCalls : Verifiers :=
  { chain := sampleChain 3 0, slots := 1, ticketsVerifyRequestC := 0, ctxErr := fun _ => none
    request := fun _ => { blockHash := "h1", bvts := [ticketOf "A"], round := 10 }
    calls := [.waiting, .waiting], started := [] }

/-! ## Conductor statistics (`conductor/conductrpc/stats/stats.go`)

The mutex of `BlockRequests` serialises the calls; a call is modelled as a
function of the list it finds. -/

namespace stats

/-- The struct `BlockRequest`. -/
structure BlockRequest where
  NodeID : String
  Hash : String
  Round : Int
  Handler : String
  SenderID : String
deriving DecidableEq, Repr

/-- The struct `BlockRequests`: the list of the recorded requests (non-nil
pointers, in the order of their recording). -/
structure BlockRequests where
  list : List BlockRequest
deriving DecidableEq, Repr

namespace BlockRequests

/-- The test of the loop body of `GetByHashOrRound`:
`onlyHash || onlyRound || hashAndRound`. -/
def matchesHashOrRound (stats : BlockRequest) (hash : String) (round : Int) : Bool :=
  let onlyHash := stats.Hash == hash && stats.Round == 0
  let onlyRound := stats.Round == round && stats.Hash == ""
  let hashAndRound := stats.Hash == hash && stats.Round == round
  onlyHash || onlyRound || hashAndRound

/-- The loop of `GetByHashOrRound` over the rest of the list. -/
def getByHashOrRoundFrom (hash : String) (round : Int) : List BlockRequest → Option BlockRequest
  | [] => none
  | stats :: rest =>
    if matchesHashOrRound stats hash round then some stats
    else getByHashOrRoundFrom hash round rest

/-- The method `GetByHashOrRound`; nil is `none`. -/
def GetByHashOrRound (bi : BlockRequests) (hash : String) (round : Int) : Option BlockRequest :=
  getByHashOrRoundFrom hash round bi.list

end BlockRequests

end stats

/-- A recorded request of hash `h` and round 5. -/
def recordedRequest : stats.BlockRequest :=
  { NodeID := "m1", Hash := "h", Round := 5, Handler := "/v1/block/get", SenderID := "" }

/-! ## Storage smart contract (`smartcontract/storagesc/allocation.go`)

The error values of this file are built with `errors.New` and `fmt.Errorf`;
they are `GoError`s with an empty code. -/

namespace storagesc

/-- The struct `Config`, as far as `validate` reads it. -/
structure Config where
  MinAllocSize : Int
deriving DecidableEq, Repr

/-- The struct `BlobberAllocation`, as far as the update code reads it. -/
structure BlobberAllocation where
  BlobberID : String
  Size : Int
deriving DecidableEq, Repr

/-- The struct `StorageAllocation`, as far as the update code reads it.
`FileOptions` is a `uint16`; `BlobberAllocsMap` is the Go map of that name, as
its lookup. -/
structure StorageAllocation where
  DataShards : Int
  ParityShards : Int
  Size : Int
  Owner : String
  ThirdPartyExtendable : Bool
  FileOptions : Nat
  BlobberAllocs : List BlobberAllocation
  BlobberAllocsMap : String → Option BlobberAllocation

/-- The struct `updateAllocationRequest`. `Size` and `Expiration` are
differences; `FileOptions` is a `uint16`. -/
structure updateAllocationRequest where
  ID : String
  Name : String
  OwnerID : String
  OwnerPublicKey : String
  Size : Int
  Expiration : Int
  UpdateTerms : Bool
  AddBlobberId : String
  RemoveBlobberId : String
  SetThirdPartyExtendable : Bool
  FileOptionsChanged : Bool
  FileOptions : Nat
deriving DecidableEq, Repr

namespace updateAllocationRequest

/-- The condition of the first `if` of `validate`: the request changes
nothing. `len(s) == 0` is `s = ""`. -/
def changesNothing (uar : updateAllocationRequest) (alloc : StorageAllocation) : Bool :=
  decide (uar.Size = 0) &&
  decide (uar.Expiration = 0) &&
  decide (uar.AddBlobberId = "") &&
  decide (uar.Name = "") &&
  (!uar.SetThirdPartyExtendable || (uar.SetThirdPartyExtendable && alloc.ThirdPartyExtendable)) &&
  (!uar.FileOptionsChanged || decide (uar.FileOptions = alloc.FileOptions)) &&
  decide (alloc.Owner = uar.OwnerID)

/-- The method `validate`; nil is `none`. -/
def validate (uar : updateAllocationRequest) (conf : Config) (alloc : StorageAllocation) :
    Option GoError :=
  if uar.changesNothing alloc then
    some ⟨"", "update allocation changes nothing"⟩
  else if wrapInt64 (alloc.Size + uar.Size) < conf.MinAllocSize then
    some ⟨"", "new allocation size is too small: %d < %d"⟩
  else if uar.Expiration < 0 then
    some ⟨"", "duration of an allocation cannot be reduced"⟩
  else if alloc.BlobberAllocs.length = 0 then
    some ⟨"", "invalid allocation for updating: no blobbers"⟩
  else if uar.AddBlobberId ≠ "" ∧ (alloc.BlobberAllocsMap uar.AddBlobberId).isSome then
    some ⟨"", "cannot add blobber %s, already in allocation"⟩
  else if uar.AddBlobberId = "" ∧ uar.RemoveBlobberId ≠ "" then
    some ⟨"", "cannot remove a blobber without adding one"⟩
  else if uar.RemoveBlobberId ≠ "" ∧ (alloc.BlobberAllocsMap uar.RemoveBlobberId).isNone then
    some ⟨"", "cannot remove blobber %s, not in allocation"⟩
  else if uar.FileOptions > 63 then
    some ⟨"", "FileOptions %d incorrect"⟩
  else
    none

end updateAllocationRequest

end storagesc

/-- The size unit `GB` of the storage contract. -/
def GB : Int := 1024 * 1024 * 1024

/-- An allocation of 10 GB with two data and two parity shards and one
blobber. -/
def sampleAllocation : storagesc.StorageAllocation :=
  { DataShards := 2, ParityShards := 2, Size := 10 * GB, Owner := "", ThirdPartyExtendable := false
    FileOptions := 0, BlobberAllocs := [⟨"b1", 5 * GB⟩]
    BlobberAllocsMap := fun id => if id = "b1" then some ⟨"b1", 5 * GB⟩ else none }

/-- The request that changes the size by `size` and nothing else. -/
def sizeRequest (size : Int) : storagesc.updateAllocationRequest :=
  { ID := "", Name := "", OwnerID := "", OwnerPublicKey := "", Size := size, Expiration := 0
    UpdateTerms := false, AddBlobberId := "", RemoveBlobberId := ""
    SetThirdPartyExtendable := false, FileOptionsChanged := false, FileOptions := 0 }

/-! ## Faucet smart contract (`smartcontract/faucetsc/sc.go`)

Amounts are `currency.Coin` values, unsigned 64-bit integers: `Nat` with sums
reduced by `wrapUint64`. The state context `balances` is a collaborator: its
answers are function fields, and its writes are recorded. -/

/-- Reduction of a natural number to the range of a Go `uint64`. -/
def wrapUint64 (x : Nat) : Nat := x % 18446744073709551616

namespace faucetsc

/-- The struct `GlobalNode` with its embedded `FaucetConfig`, as far as the
pour code reads and writes it. Durations are in nanoseconds; a `time.Time` is
its number of nanoseconds since the Unix epoch, an unbounded integer (the
zero `time.Time` is `zeroTime`, far below the `int64` range of durations). -/
structure GlobalNode where
  ID : String
  PourAmount : Nat
  MaxPourAmount : Nat
  PeriodicLimit : Nat
  GlobalLimit : Nat
  IndividualReset : Int
  GlobalReset : Int
  Used : Nat
  StartTime : Int
deriving DecidableEq, Repr

/-- The struct `UserNode`. -/
structure UserNode where
  ID : String
  StartTime : Int
  Used : Nat
deriving DecidableEq, Repr

/-- The struct `transaction.Transaction`, as far as the pour code reads it. -/
structure Transaction where
  ClientID : String
  ToClientID : String
  ValueZCN : Int
  CreationDate : Int
deriving DecidableEq, Repr

/-- The struct `state.Transfer`. -/
structure Transfer where
  ClientID : String
  ToClientID : String
  Amount : Nat
deriving DecidableEq, Repr

/-- The result of `balances.GetClientBalance`: a balance, the error
`util.ErrValueNotPresent`, or another error. -/
inductive BalanceResult where
  | balance (b : Nat)
  | valueNotPresent
  | failed (e : GoError)
deriving DecidableEq, Repr

/-- A write to the state through `balances.InsertTrieNode`. -/
inductive TrieWrite where
  | user (key : String) (un : UserNode)
  | globalNode (key : String) (gn : GlobalNode)
deriving DecidableEq, Repr

/-- The state context `balances` (`c_state.StateContextI`): what its reads
answer, whether its writes fail, and the transfers and trie nodes written so
far. `GetTrieNode key un` is the node `un` as the read leaves it, and the
error of the read. -/
structure StateContext where
  GetClientBalance : String → BalanceResult
  GetTrieNode : String → UserNode → UserNode × Option GoError
  AddTransfer : Transfer → Option GoError
  InsertTrieNode : String → Option GoError
  transfers : List Transfer
  written : List TrieWrite

/-- The constructor `state.NewTransfer(from, to, amount)`. -/
def NewTransfer (fromClient toClient : String) (amount : Nat) : Transfer :=
  { ClientID := fromClient, ToClientID := toClient, Amount := amount }

/-- The conversion `common.ToTime(ts)` of a timestamp in seconds, which is
`time.Unix(ts, 0)`. -/
def ToTime (ts : Int) : Int := ts * 1000000000

/-- The method `time.Time.Sub`: the difference as a `time.Duration`, which
saturates at the ends of the `int64` range. -/
def timeSub (t u : Int) : Int :=
  if t - u > 9223372036854775807 then 9223372036854775807
  else if t - u < -9223372036854775808 then -9223372036854775808
  else t - u

/-- The key of a user node, `un.GetKey(globalKey)`; it is only passed on to
the trie. -/
def UserNode.GetKey (un : UserNode) (globalKey : String) : String := globalKey ++ un.ID

/-- The key of the global node, `gn.GetKey()`; it is only passed on to the
trie. -/
def GlobalNode.GetKey (gn : GlobalNode) : String := gn.ID ++ gn.ID

/-- The zero value of `time.Time`, January 1 of year 1, 00:00:00 UTC, which is
62135596800 seconds before the Unix epoch. It is the `StartTime` of a struct
literal that does not set the field. -/
def zeroTime : Int := -62135596800000000000

/-- The method `getUserNode`. The literal `&UserNode{ID: id}` leaves `StartTime`
at the zero `time.Time` and `Used` at 0. -/
def getUserNode (id globalKey : String) (balances : StateContext) : UserNode × Option GoError :=
  let un : UserNode := { ID := id, StartTime := zeroTime, Used := 0 }
  balances.GetTrieNode (un.GetKey globalKey) un

/-- The method `getUserVariables`. -/
def getUserVariables (t : Transaction) (gn : GlobalNode) (balances : StateContext) : UserNode :=
  let r := getUserNode t.ClientID gn.ID balances
  let un := r.1
  let un :=
    if r.2 ≠ none then { un with StartTime := ToTime t.CreationDate, Used := 0 } else un
  if timeSub (ToTime t.CreationDate) un.StartTime ≥ gn.IndividualReset ∨
      timeSub (ToTime t.CreationDate) un.StartTime ≥ gn.GlobalReset then
    { un with StartTime := ToTime t.CreationDate, Used := 0 }
  else un

/-- The method `UserNode.validPourRequest`. -/
def UserNode.validPourRequest (un : UserNode) (_t : Transaction) (balances : StateContext)
    (gn : GlobalNode) : Bool × Option GoError :=
  match balances.GetClientBalance gn.ID with
  | .valueNotPresent =>
    (false, some (NewError "invalid_request" "faucet has no tokens and needs to be refilled"))
  | .failed _ =>
    (false, some (NewError "invalid_request" "getting faucet balance resulted in an error: %v"))
  | .balance smartContractBalance =>
    if gn.PourAmount > smartContractBalance then
      (false, some (NewError "invalid_request"
        "amount asked to be poured (%v) exceeds contract's wallet ballance (%v)"))
    else if wrapUint64 (gn.PourAmount + un.Used) > gn.PeriodicLimit then
      (false, some (NewError "invalid_request"
        "amount asked to be poured (%v) plus previous amounts (%v) exceeds allowed periodic limit (%v/%vhr)"))
    else if wrapUint64 (gn.PourAmount + gn.Used) > gn.GlobalLimit then
      (false, some (NewError "invalid_request"
        "amount asked to be poured (%v) plus global used amount (%v) exceeds allowed global limit (%v/%vhr)"))
    else
      (true, none)

/-- What a call of `pour` leaves: the transfer it returns (encoded, in the
source) or its error, and the global node, the user node and the state
context afterwards. -/
structure PourResult where
  transfer : Option Transfer
  err : Option GoError
  gn : GlobalNode
  user : UserNode
  balances : StateContext

/-- The method `pour`. The histogram of poured tokens is a metric and is left
out. -/
def pour (t : Transaction) (balances : StateContext) (gn : GlobalNode) : PourResult :=
  let user := getUserVariables t gn balances
  let r := user.validPourRequest t balances gn
  if r.1 then
    let pourAmount :=
      if t.ValueZCN > 0 ∧ t.ValueZCN < wrapInt64 gn.MaxPourAmount then
        wrapUint64 t.ValueZCN.toNat
      else gn.PourAmount
    let transfer := NewTransfer t.ToClientID t.ClientID pourAmount
    match balances.AddTransfer transfer with
    | some e => { transfer := none, err := some e, gn := gn, user := user, balances := balances }
    | none =>
      let balances1 := { balances with transfers := balances.transfers ++ [transfer] }
      let user1 := { user with Used := wrapUint64 (user.Used + transfer.Amount) }
      let gn1 := { gn with Used := wrapUint64 (gn.Used + transfer.Amount) }
      match balances1.InsertTrieNode (user1.GetKey gn1.ID) with
      | some e =>
        { transfer := none, err := some e, gn := gn1, user := user1, balances := balances1 }
      | none =>
        let balances2 :=
          { balances1 with written := balances1.written ++ [TrieWrite.user (user1.GetKey gn1.ID) user1] }
        match balances2.InsertTrieNode gn1.GetKey with
        | some e =>
          { transfer := none, err := some e, gn := gn1, user := user1, balances := balances2 }
        | none =>
          let balances3 :=
            { balances2 with written := balances2.written ++ [TrieWrite.globalNode gn1.GetKey gn1] }
          { transfer := some transfer, err := none, gn := gn1, user := user1,
            balances := balances3 }
  else
    { transfer := none, err := r.2, gn := gn, user := user, balances := balances }

end faucetsc

/-- A state context in which the faucet holds `balance` tokens, the read of
the user node leaves the fresh node as it is (so `getUserVariables` takes the
reset branch: the difference to the zero time saturates), and every write
succeeds. -/
def faucetContext (balance : Nat) : faucetsc.StateContext :=
  { GetClientBalance := fun _ => .balance balance
    GetTrieNode := fun _ un => (un, none)
    AddTransfer := fun _ => none
    InsertTrieNode := fun _ => none
    transfers := []
    written := [] }

/-- A faucet that pours 1 token by default and at most 10 on request, with a
periodic limit and a global limit of 5 tokens, none used yet. -/
def smallFaucet : faucetsc.GlobalNode :=
  { ID := "faucet", PourAmount := 1, MaxPourAmount := 10, PeriodicLimit := 5, GlobalLimit := 5
    IndividualReset := 3600000000000, GlobalReset := 7200000000000, Used := 0
    StartTime := 0 }

/-- A pour transaction of the client `u` that asks for `value` tokens. -/
def pourRequest (value : Int) : faucetsc.Transaction :=
  { ClientID := "u", ToClientID := "faucet", ValueZCN := value, CreationDate := 10 }

/-! ## The size difference of a blobber (`allocation.go`, lines 533 to 537)

`getBlobbersSizeDiff` computes in `float64`. A finite `float64` is modelled by
its value `mant * 2 ^ exp`; conversion and division round to 53 significant
bits, ties to even, as IEEE 754 prescribes (all quotients of two `int64`
values are in the normal range). A result that is not finite, or that the
`int64` cannot hold, makes the conversion `int64(...)` implementation
dependent; it is `none`. -/

namespace storagesc

/-- A finite `float64`: the value `mant * 2 ^ exp`. -/
structure Float64 where
  mant : Int
  exp : Int
deriving DecidableEq, Repr

namespace Float64

/-- The quotient `n / d` rounded to the nearest integer, ties to even. -/
def roundDiv (n d : Nat) : Nat :=
  let q := n / d
  let r := n % d
  if 2 * r > d ∨ (2 * r = d ∧ q % 2 = 1) then q + 1 else q

/-- The least `k`, from `k` on, with `2 ^ 52 <= n * 2 ^ k / d`. -/
def upShift : Nat → Nat → Nat → Nat → Nat
  | 0, _, _, k => k
  | fuel + 1, n, d, k => if 2 ^ 52 * d ≤ n * 2 ^ k then k else upShift fuel n d (k + 1)

/-- The least `s`, from `s` on, with `n / (d * 2 ^ s) < 2 ^ 53`. -/
def downShift : Nat → Nat → Nat → Nat → Nat
  | 0, _, _, s => s
  | fuel + 1, n, d, s => if n < 2 ^ 53 * d * 2 ^ s then s else downShift fuel n d (s + 1)

/-- The positive quotient `n / d` rounded to 53 significant bits, ties to
even: the mantissa and the exponent. The numbers are below `2 ^ 64`, so 128
steps find the shift. -/
def round (n d : Nat) : Nat × Int :=
  if 2 ^ 53 * d ≤ n then
    let s := downShift 128 n d 1
    (roundDiv n (d * 2 ^ s), s)
  else
    let k := upShift 128 n d 0
    (roundDiv (n * 2 ^ k) d, -(k : Int))

/-- The conversion `float64(a)` of an integer. -/
def ofInt (a : Int) : Float64 :=
  if a.natAbs < 2 ^ 53 then ⟨a, 0⟩
  else
    let r := round a.natAbs 1
    ⟨a.sign * r.1, r.2⟩

/-- The quotient `x / y`; `none` when `y` is zero (the quotient is then an
infinity or not a number). -/
def div (x y : Float64) : Option Float64 :=
  if y.mant = 0 then none
  else if x.mant = 0 then some ⟨0, 0⟩
  else
    let r := round x.mant.natAbs y.mant.natAbs
    some ⟨x.mant.sign * y.mant.sign * r.1, x.exp - y.exp + r.2⟩

/-- The function `math.Ceil`, as an integer. -/
def ceil (x : Float64) : Int :=
  if 0 ≤ x.exp then x.mant * 2 ^ x.exp.toNat
  else -((-x.mant) / 2 ^ (-x.exp).toNat)

/-- The conversion `int64(v)` of an integer-valued `float64`; `none` when the
value is outside the range of an `int64`. -/
def toInt64 (v : Int) : Option Int :=
  if -9223372036854775808 ≤ v ∧ v < 9223372036854775808 then some v else none

end Float64

/-- The method `getBlobbersSizeDiff`:
`int64(math.Ceil(float64(uar.Size) / float64(alloc.DataShards)))`. -/
def updateAllocationRequest.getBlobbersSizeDiff (uar : updateAllocationRequest)
    (alloc : StorageAllocation) : Option Int :=
  match Float64.div (Float64.ofInt uar.Size) (Float64.ofInt alloc.DataShards) with
  | none => none
  | some q => Float64.toInt64 (Float64.ceil q)

end storagesc

/-- The size unit `MB` of the storage contract. -/
def MB : Int := 1024 * 1024

/-! ## `finalizeBlock` over the head setters (`protocol_block.go`, lines 281 to 392)

The setters `SetLatestOwnFinalizedBlockRound`, `SetLatestFinalizedBlock` and
`SetLatestDeterministicBlock` are outside the sources; `finalizeBlock` calls
them without comparing rounds itself. Here `finalizeBlock` takes the three
setters as parameters, so that what it does to the heads can be stated for
every setter that behaves as the spec says. With the plain assignments it is
`Chain.finalizeBlock`. -/

/-- The three head setters of the chain, whose code is outside the sources. -/
structure HeadSetters where
  SetLatestOwnFinalizedBlockRound : Chain → Int → Chain
  SetLatestFinalizedBlock : Chain → Ptr → Chain
  SetLatestDeterministicBlock : Chain → Ptr → Chain

/-- Modelled from the spec: what the spec says of the head setters. "Atomically
set `latest_finalized_block = b` and `latest_own_finalized_block_round =
b.round`; both pointers only advance", and "`latest_deterministic_block` is
never demoted": a setter changes its own head only, sets it to its argument
or leaves it as it is, and does not lower its round. -/
def HeadSetters.advance (hs : HeadSetters) : Prop :=
  (∀ (c : Chain) (r : Int), ∃ r',
    hs.SetLatestOwnFinalizedBlockRound c r = { c with LatestOwnFinalizedBlockRound := r' } ∧
    (r' = r ∨ r' = c.LatestOwnFinalizedBlockRound) ∧ c.LatestOwnFinalizedBlockRound ≤ r') ∧
  (∀ (c : Chain) (b : Ptr), ∃ l',
    hs.SetLatestFinalizedBlock c b = { c with LatestFinalizedBlock := some l' } ∧
    (l' = b ∨ c.LatestFinalizedBlock = some l') ∧
    ∀ l, c.LatestFinalizedBlock = some l → (c.blocks l).Round ≤ (c.blocks l').Round) ∧
  (∀ (c : Chain) (b : Ptr), ∃ d',
    hs.SetLatestDeterministicBlock c b = { c with LatestDeterministicBlock := some d' } ∧
    (d' = b ∨ c.LatestDeterministicBlock = some d') ∧
    ∀ d, c.LatestDeterministicBlock = some d → (c.blocks d).Round ≤ (c.blocks d').Round)

/-- The head setters as plain assignments. -/
def plainSetters : HeadSetters :=
  { SetLatestOwnFinalizedBlockRound := Chain.SetLatestOwnFinalizedBlockRound
    SetLatestFinalizedBlock := Chain.SetLatestFinalizedBlock
    SetLatestDeterministicBlock := Chain.SetLatestDeterministicBlock }

/-- Modelled from the spec: head setters that "only advance": each assigns
unless that would lower the round of its head. -/
def advancingSetters : HeadSetters :=
  { SetLatestOwnFinalizedBlockRound := fun c r =>
      if c.LatestOwnFinalizedBlockRound ≤ r then c.SetLatestOwnFinalizedBlockRound r else c
    SetLatestFinalizedBlock := fun c b =>
      match c.LatestFinalizedBlock with
      | none => c.SetLatestFinalizedBlock b
      | some l =>
        if (c.blocks l).Round ≤ (c.blocks b).Round then c.SetLatestFinalizedBlock b else c
    SetLatestDeterministicBlock := fun c b =>
      match c.LatestDeterministicBlock with
      | none => c.SetLatestDeterministicBlock b
      | some d =>
        if (c.blocks d).Round ≤ (c.blocks b).Round then c.SetLatestDeterministicBlock b else c }

namespace Chain

/-- The loop `for pfb := fb; pfb != nil && pfb != c.LatestDeterministicBlock;
pfb = pfb.PrevBlock` of `finalizeBlock`, started at `pfb`, over the setters
`hs`. Each run of the body uses one unit of fuel. -/
def promoteDeterministicWith (hs : HeadSetters) (c : Chain) :
    Nat → Option Ptr → Except Abort Chain
  | _, none => .ok c
  | fuel, some pfb =>
    if some pfb = c.LatestDeterministicBlock then
      .ok c
    else
      match fuel with
      | 0 => .error .outOfFuel
      | fuel + 1 =>
        match c.IsFinalizedDeterministically pfb with
        | .error p => .error p
        | .ok true => .ok (hs.SetLatestDeterministicBlock c pfb)
        | .ok false => promoteDeterministicWith hs c fuel (c.blocks pfb).PrevBlock

/-- The part of `finalizeBlock` after `SaveChanges` has succeeded, over the
setters `hs`. -/
def commitFinalizedWith (hs : HeadSetters) (fuel : Nat) (c : Chain) (fb : Ptr) :
    Except Abort Chain :=
  let c1 := { c with log := c.log ++ [Event.rebaseState fb] }
  let c2 := c1.updateFeeStats fb
  let c3 := hs.SetLatestOwnFinalizedBlockRound c2 (c2.blocks fb).Round
  let c4 := hs.SetLatestFinalizedBlock c3 fb
  let c5 :=
    match (c4.blocks fb).MagicBlock with
    | none => c4
    | some mb =>
      let r := c4.UpdateMagicBlock c4.GetMagicBlock mb
      let c4a := { c4 with GetMagicBlock := r.2, log := c4.log ++ [Event.updateMagicBlock fb] }
      match r.1 with
      | some _ => c4a
      | none => c4a.SetLatestFinalizedMagicBlock fb
  let c6 := { c5 with log := c5.log ++ [Event.updateFinalizedBlock fb] }
  match recordSummary c6.BlockChain (GetSummary (c6.blocks fb)) with
  | .error p => .error p
  | .ok ring =>
    let c7 := { c6 with BlockChain := ring }
    match c7.promoteDeterministicWith hs fuel (some fb) with
    | .error p => .error p
    | .ok c8 => .ok (c8.pruneDeadBlocks fb)

/-- The method `finalizeBlock` over the setters `hs`. -/
def finalizeBlockWith (hs : HeadSetters) (fuel : Nat) (c : Chain) (fb : Ptr) :
    Except Abort Chain :=
  match c.updateMinerStats fb with
  | .error p => .error p
  | .ok c1 =>
    let c2 := { c1 with log := c1.log ++ [Event.updateChainInfo fb, Event.saveChanges fb] }
    match c2.SaveChanges (c2.blocks fb) with
    | some _ => .ok c2
    | none => c2.commitFinalizedWith hs fuel fb

end Chain

/-! ## Lemmas on machine integers -/

theorem wrapInt64_add_left (a b : Int) : wrapInt64 (wrapInt64 a + b) = wrapInt64 (a + b) := by
  unfold wrapInt64
  omega

theorem wrapInt64_of_inRange (a : Int) (h₁ : -9223372036854775808 ≤ a)
    (h₂ : a < 9223372036854775808) : wrapInt64 a = a := by
  unfold wrapInt64
  omega

theorem verifiersStake_foldl (c : Chain) (bvt : List VerificationTicket) (acc : Int) :
    bvt.foldl (fun acc ticket => wrapInt64 (acc + c.getMiningStake ticket.VerifierID))
        (wrapInt64 acc)
      = wrapInt64 (acc + (bvt.map fun t => c.getMiningStake t.VerifierID).sum) := by
  induction bvt generalizing acc with
  | nil => simp
  | cons t rest ih =>
    simp only [List.foldl_cons, List.map_cons, List.sum_cons]
    rw [wrapInt64_add_left, ih, Int.add_assoc]

theorem verifiersStake_eq (c : Chain) (bvt : List VerificationTicket) :
    c.verifiersStake bvt = wrapInt64 (bvt.map fun t => c.getMiningStake t.VerifierID).sum := by
  have h := verifiersStake_foldl c bvt 0
  have h0 : wrapInt64 0 = 0 := by decide
  rw [h0, Int.zero_add] at h
  exact h

/-! ## Notarization threshold -/

/-- C1. `reachedNotarization` is true exactly when (the count threshold is not
enabled, or there are at least `GetNotarizationThresholdCount(miners)`
tickets) and (the stake threshold is not enabled, or the stake of the
tickets' verifiers, summed as a Go `int`, is at least `ThresholdByStake`);
that sum is the plain sum whenever the plain sum is in the `int` range.
With only the count threshold enabled, exactly the required number of
tickets notarizes and one fewer does not; with only the stake threshold
enabled, a stake sum equal to the bound notarizes. -/
theorem reachedNotarization_iff (c : Chain) (round : Int) (hash : String)
    (bvt : List VerificationTicket) :
    (c.reachedNotarization round hash bvt = true ↔
      (c.ThresholdByCount ≤ 0 ∨
        c.GetNotarizationThresholdCount (c.GetMagicBlock round).Miners.Size ≤ bvt.length) ∧
      (c.ThresholdByStake ≤ 0 ∨
        c.ThresholdByStake ≤ wrapInt64 (bvt.map fun t => c.getMiningStake t.VerifierID).sum)) ∧
    (-9223372036854775808 ≤ (bvt.map fun t => c.getMiningStake t.VerifierID).sum →
      (bvt.map fun t => c.getMiningStake t.VerifierID).sum < 9223372036854775808 →
      (c.reachedNotarization round hash bvt = true ↔
        (c.ThresholdByCount ≤ 0 ∨
          c.GetNotarizationThresholdCount (c.GetMagicBlock round).Miners.Size ≤ bvt.length) ∧
        (c.ThresholdByStake ≤ 0 ∨
          c.ThresholdByStake ≤ (bvt.map fun t => c.getMiningStake t.VerifierID).sum))) ∧
    (0 < c.ThresholdByCount → c.ThresholdByStake ≤ 0 →
      ((bvt.length : Int) = c.GetNotarizationThresholdCount (c.GetMagicBlock round).Miners.Size →
        c.reachedNotarization round hash bvt = true) ∧
      ((bvt.length : Int) + 1 = c.GetNotarizationThresholdCount (c.GetMagicBlock round).Miners.Size →
        c.reachedNotarization round hash bvt = false)) ∧
    (c.ThresholdByCount ≤ 0 → 0 < c.ThresholdByStake → c.ThresholdByStake < 9223372036854775808 →
      (bvt.map fun t => c.getMiningStake t.VerifierID).sum = c.ThresholdByStake →
        c.reachedNotarization round hash bvt = true) := by
  have key : c.reachedNotarization round hash bvt = true ↔
      (c.ThresholdByCount ≤ 0 ∨
        c.GetNotarizationThresholdCount (c.GetMagicBlock round).Miners.Size ≤ bvt.length) ∧
      (c.ThresholdByStake ≤ 0 ∨
        c.ThresholdByStake ≤ wrapInt64 (bvt.map fun t => c.getMiningStake t.VerifierID).sum) := by
    rw [← verifiersStake_eq]
    unfold Chain.reachedNotarization
    by_cases h1 : c.ThresholdByCount > 0 <;> by_cases h2 : c.ThresholdByStake > 0 <;>
      simp [h1, h2] <;> omega
  refine ⟨key, ?_, ?_, ?_⟩
  · intro hlo hhi
    rw [key, wrapInt64_of_inRange _ hlo hhi]
  · intro h1 h2
    constructor
    · intro h
      exact key.2 ⟨Or.inr (by omega), Or.inl h2⟩
    · intro h
      cases hr : c.reachedNotarization round hash bvt with
      | false => rfl
      | true =>
        have := (key.1 hr).1
        omega
  · intro h1 h2 h3 h
    refine key.2 ⟨Or.inl h1, Or.inr ?_⟩
    rw [h, wrapInt64_of_inRange _ (by omega) h3]

/-- Witness of C1 on the sample chain with only the count threshold enabled:
three tickets reach the required three. -/
theorem reachedNotarization_iff_witness :
    (sampleChain 3 0).reachedNotarization 10 "h1" [ticketOf "A", ticketOf "B", ticketOf "C"]
      = true :=
  ((reachedNotarization_iff (sampleChain 3 0) 10 "h1"
      [ticketOf "A", ticketOf "B", ticketOf "C"]).2.2.1 (by decide) (by decide)).1 (by decide)

/-! ## The ticket loop of `VerifyNotarization` -/

theorem checkTickets_ok_iff (seen : List String) (l : List (Option VerificationTicket))
    (ts : List VerificationTicket) :
    Chain.checkTickets seen l = .ok ts ↔
      l = ts.map some ∧ (ts.map fun t => t.VerifierID).Nodup ∧
        ∀ t ∈ ts, t.VerifierID ∉ seen := by
  induction l generalizing seen ts with
  | nil =>
    cases ts with
    | nil => simp [Chain.checkTickets]
    | cons t ts => simp [Chain.checkTickets]
  | cons x rest ih =>
    cases x with
    | none =>
      cases ts with
      | nil => simp [Chain.checkTickets]
      | cons t ts => simp [Chain.checkTickets]
    | some vt =>
      by_cases hseen : vt.VerifierID ∈ seen
      · cases ts with
        | nil => simp [Chain.checkTickets, hseen]
        | cons t ts =>
          simp only [Chain.checkTickets, hseen, if_true, List.map_cons, List.cons.injEq,
            Option.some.injEq]
          refine ⟨(fun h => nomatch h), ?_⟩
          rintro ⟨⟨rfl, _⟩, _, h⟩
          exact absurd hseen (h vt (List.mem_cons_self _ _))
      · cases hrec : Chain.checkTickets (vt.VerifierID :: seen) rest with
        | error e =>
          cases ts with
          | nil => simp [Chain.checkTickets, hseen, hrec]
          | cons t ts =>
            simp only [Chain.checkTickets, hseen, if_false, hrec, List.map_cons,
              List.cons.injEq, Option.some.injEq]
            refine ⟨(fun h => nomatch h), ?_⟩
            rintro ⟨⟨rfl, hrest⟩, hnd, h⟩
            have : Chain.checkTickets (vt.VerifierID :: seen) rest = .ok ts := by
              rw [ih]
              refine ⟨hrest, (List.nodup_cons.1 hnd).2, ?_⟩
              intro t ht hmem
              rcases List.mem_cons.1 hmem with heq | hmem
              · exact (List.nodup_cons.1 hnd).1 (heq ▸ List.mem_map_of_mem _ ht)
              · exact h t (List.mem_cons_of_mem _ ht) hmem
            rw [hrec] at this
            cases this
        | ok ts0 =>
          have h0 := (ih (vt.VerifierID :: seen) ts0).1 hrec
          simp only [Chain.checkTickets, hseen, if_false, hrec, Except.ok.injEq]
          constructor
          · rintro rfl
            refine ⟨by simp [h0.1], ?_, ?_⟩
            · simp only [List.map_cons, List.nodup_cons]
              refine ⟨?_, h0.2.1⟩
              intro hmem
              obtain ⟨t, ht, heq⟩ := List.mem_map.1 hmem
              exact h0.2.2 t ht (heq ▸ List.mem_cons_self _ _)
            · intro t ht
              rcases List.mem_cons.1 ht with rfl | ht
              · exact hseen
              · exact fun hmem => h0.2.2 t ht (List.mem_cons_of_mem _ hmem)
          · rintro ⟨hl, _, _⟩
            cases ts with
            | nil => simp at hl
            | cons t ts =>
              simp only [List.map_cons, List.cons.injEq, Option.some.injEq] at hl
              obtain ⟨rfl, hrest⟩ := hl
              rw [h0.1] at hrest
              have : ts0 = ts := List.map_injective_iff.2 (Option.some_injective _) hrest
              rw [this]

theorem checkTickets_duplicate (seen : List String) (pre : List VerificationTicket)
    (rest : List (Option VerificationTicket))
    (h : ¬ (pre.map fun t => t.VerifierID).Nodup ∨ ∃ t ∈ pre, t.VerifierID ∈ seen) :
    Chain.checkTickets seen (pre.map some ++ rest) =
      .error (NewError "duplicate_ticket_signature"
        "Found duplicate signatures in the notarization of the block") := by
  induction pre generalizing seen with
  | nil =>
    rcases h with h | ⟨t, ht, _⟩
    · exact absurd List.nodup_nil h
    · cases ht
  | cons t pre ih =>
    by_cases hseen : t.VerifierID ∈ seen
    · simp [Chain.checkTickets, hseen]
    · have hrec : ¬ (pre.map fun t => t.VerifierID).Nodup ∨
          ∃ u ∈ pre, u.VerifierID ∈ t.VerifierID :: seen := by
        rcases h with h | ⟨u, hu, hmem⟩
        · by_cases hnd : (pre.map fun t => t.VerifierID).Nodup
          · right
            have hin : t.VerifierID ∈ pre.map fun t => t.VerifierID := by
              by_contra hnot
              exact h (List.nodup_cons.2 ⟨hnot, hnd⟩)
            obtain ⟨u, hu, heq⟩ := List.mem_map.1 hin
            exact ⟨u, hu, heq ▸ List.mem_cons_self _ _⟩
          · exact Or.inl hnd
        · rcases List.mem_cons.1 hu with rfl | hu
          · exact absurd hmem hseen
          · exact Or.inr ⟨u, hu, List.mem_cons_of_mem _ hmem⟩
      simp [Chain.checkTickets, hseen, ih _ hrec]

/-! ## `VerifyNotarization` -/

/-- The state `VerifyNotarization` leaves when every stage passes. -/
theorem VerifyNotarization_pass (c : Chain) (ctx : Context) (b : Ptr)
    (l : List (Option VerificationTicket)) (round : Int) (tickets : List VerificationTicket)
    (hmb : c.VerifyRelatedMagicBlockPresence b = .ok none)
    (hck : Chain.checkTickets [] l = .ok tickets)
    (hr : c.reachedNotarization round (c.blocks b).Hash tickets = true)
    (hv : c.verifyTicketsResult ctx (c.blocks b).Hash tickets round = none) :
    ∃ c', c.VerifyNotarization ctx b (some l) round = .ok (none, c') ∧
      (c'.blocks b).isNotarized = true ∧
      c'.CurrentRound = max c.CurrentRound (c.blocks b).Round ∧
      c'.log = c.log ++ [Event.verifyTickets (c.blocks b).Hash tickets round] := by
  simp only [Chain.VerifyNotarization, hmb, hck, hr, Chain.VerifyTickets, hv]
  by_cases hgt : (c.blocks b).Round > c.CurrentRound
  · refine ⟨_, rfl, ?_⟩
    simp [Chain.SetBlockNotarized, Chain.SetCurrentRound, hgt]
    omega
  · refine ⟨_, rfl, ?_⟩
    simp [Chain.SetBlockNotarized, Chain.SetCurrentRound, hgt]
    omega

/-- The stages a call of `VerifyNotarization` that returns has gone through:
either it returns an error and leaves the blocks and the current round as they
were, or every stage passed. -/
theorem VerifyNotarization_inv (c : Chain) (ctx : Context) (b : Ptr)
    (bvt : Option (List (Option VerificationTicket))) (round : Int)
    (r : Option GoError) (c' : Chain)
    (h : c.VerifyNotarization ctx b bvt round = .ok (r, c')) :
    (∃ e, r = some e ∧ c'.blocks = c.blocks ∧ c'.CurrentRound = c.CurrentRound) ∨
    (r = none ∧ ∃ tickets, bvt = some (tickets.map some) ∧
      c.VerifyRelatedMagicBlockPresence b = .ok none ∧
      (tickets.map fun t => t.VerifierID).Nodup ∧
      c.reachedNotarization round (c.blocks b).Hash tickets = true ∧
      c.verifyTicketsResult ctx (c.blocks b).Hash tickets round = none ∧
      (c'.blocks b).isNotarized = true ∧
      c'.CurrentRound = max c.CurrentRound (c.blocks b).Round ∧
      c'.log = c.log ++ [Event.verifyTickets (c.blocks b).Hash tickets round]) := by
  cases bvt with
  | none =>
    simp only [Chain.VerifyNotarization, Except.ok.injEq, Prod.mk.injEq] at h
    exact Or.inl ⟨_, h.1.symm, by rw [← h.2], by rw [← h.2]⟩
  | some l =>
    cases hmb : c.VerifyRelatedMagicBlockPresence b with
    | error p => simp [Chain.VerifyNotarization, hmb] at h
    | ok res =>
      cases res with
      | some err =>
        simp only [Chain.VerifyNotarization, hmb, Except.ok.injEq, Prod.mk.injEq] at h
        exact Or.inl ⟨_, h.1.symm, by rw [← h.2], by rw [← h.2]⟩
      | none =>
        cases hck : Chain.checkTickets [] l with
        | error err =>
          simp only [Chain.VerifyNotarization, hmb, hck, Except.ok.injEq, Prod.mk.injEq] at h
          exact Or.inl ⟨_, h.1.symm, by rw [← h.2], by rw [← h.2]⟩
        | ok tickets =>
          cases hr : c.reachedNotarization round (c.blocks b).Hash tickets with
          | false =>
            simp only [Chain.VerifyNotarization, hmb, hck, hr, Bool.not_false, if_true,
              Except.ok.injEq, Prod.mk.injEq] at h
            exact Or.inl ⟨_, h.1.symm, by rw [← h.2], by rw [← h.2]⟩
          | true =>
            cases hv : c.verifyTicketsResult ctx (c.blocks b).Hash tickets round with
            | some err =>
              simp only [Chain.VerifyNotarization, hmb, hck, hr, Chain.VerifyTickets, hv,
                Bool.not_true, Except.ok.injEq, Prod.mk.injEq] at h
              simp only [Bool.false_eq_true, if_false, Except.ok.injEq, Prod.mk.injEq] at h
              exact Or.inl ⟨_, h.1.symm, by rw [← h.2], by rw [← h.2]⟩
            | none =>
              obtain ⟨c0, h0, hflag, hround, hlog⟩ :=
                VerifyNotarization_pass c ctx b l round tickets hmb hck hr hv
              rw [h0] at h
              simp only [Except.ok.injEq, Prod.mk.injEq] at h
              obtain ⟨hr0, rfl⟩ := h
              have hl := (checkTickets_ok_iff [] l tickets).1 hck
              exact Or.inr ⟨hr0.symm, tickets, by rw [hl.1], rfl, hl.2.1, hr, hv, hflag,
                hround, hlog⟩

/-- C2. `VerifyNotarization` returns nil exactly when the ticket slice is
non-nil and holds no null ticket, `VerifyRelatedMagicBlockPresence(b)`
succeeds, the verifier ids are pairwise distinct, `reachedNotarization` is
true and `VerifyTickets` returns nil. When it returns nil the block is flagged
notarized; when it returns an error the blocks (so the flag) and the current
round are as before. -/
theorem VerifyNotarization_nil_iff (c : Chain) (ctx : Context) (b : Ptr)
    (bvt : Option (List (Option VerificationTicket))) (round : Int) :
    ((∃ c', c.VerifyNotarization ctx b bvt round = .ok (none, c')) ↔
      ∃ tickets : List VerificationTicket, bvt = some (tickets.map some) ∧
        c.VerifyRelatedMagicBlockPresence b = .ok none ∧
        (tickets.map fun t => t.VerifierID).Nodup ∧
        c.reachedNotarization round (c.blocks b).Hash tickets = true ∧
        (c.VerifyTickets ctx (c.blocks b).Hash tickets round).1 = none) ∧
    (∀ r c', c.VerifyNotarization ctx b bvt round = .ok (r, c') →
      (r = none → (c'.blocks b).isNotarized = true) ∧
      (r ≠ none → c'.blocks = c.blocks ∧ (c'.blocks b).isNotarized = (c.blocks b).isNotarized ∧
        c'.CurrentRound = c.CurrentRound)) := by
  refine ⟨⟨?_, ?_⟩, ?_⟩
  · rintro ⟨c', h⟩
    rcases VerifyNotarization_inv c ctx b bvt round none c' h with ⟨e, he, _⟩ | ⟨_, t, h1, h2, h3, h4, h5, _⟩
    · cases he
    · exact ⟨t, h1, h2, h3, h4, h5⟩
  · rintro ⟨tickets, rfl, hmb, hnd, hr, hv⟩
    have hck : Chain.checkTickets [] (tickets.map some) = .ok tickets :=
      (checkTickets_ok_iff [] _ tickets).2 ⟨rfl, hnd, fun _ _ h => by cases h⟩
    obtain ⟨c', h, _⟩ := VerifyNotarization_pass c ctx b _ round tickets hmb hck hr hv
    exact ⟨c', h⟩
  · intro r c' h
    rcases VerifyNotarization_inv c ctx b bvt round r c' h with
      ⟨e, he, hb, hc⟩ | ⟨hn, t, _, _, _, _, _, hflag, _⟩
    · exact ⟨fun hr => (by rw [he] at hr; cases hr), fun _ => ⟨hb, (by rw [hb]), hc⟩⟩
    · exact ⟨fun _ => hflag, fun hr => absurd hn hr⟩

/-- Witness of C2 (scenario S1): on the sample chain with a count threshold of
three, the tickets of `A`, `B`, `C` notarize block `B1`. -/
theorem VerifyNotarization_nil_iff_witness :
    ∃ c', (sampleChain 3 0).VerifyNotarization background 1
      (some [some (ticketOf "A"), some (ticketOf "B"), some (ticketOf "C")]) 10 = .ok (none, c') :=
  (VerifyNotarization_nil_iff (sampleChain 3 0) background 1
    (some [some (ticketOf "A"), some (ticketOf "B"), some (ticketOf "C")]) 10).1.2
    ⟨[ticketOf "A", ticketOf "B", ticketOf "C"], rfl, rfl, by decide, by decide, rfl⟩

/-- C3, as the code has it. For a non-nil ticket slice the error of the
first failing stage is returned, in the order magic block presence, null or
duplicate ticket, threshold, aggregate verification. An error of the magic
block check is returned as it is. When the related magic block is present:
when two tickets carry the same verifier id
and no null ticket stands before the second of them, the result is the error
`duplicate_ticket_signature`, whatever the thresholds and signatures; when no
ticket is null, the ids are distinct and the threshold is not reached, the
result is the error `block_not_notarized`, a code other than `verify_tickets`,
and the chain is left as it was, its call log included (`VerifyTickets` is not
called); when the threshold is reached, an error of `VerifyTickets` is
returned as it is and the blocks are left as they were. -/
theorem VerifyNotarization_stage_errors (c : Chain) (ctx : Context) (b : Ptr) (round : Int) :
    (∀ (l : List (Option VerificationTicket)) (e : GoError),
      c.VerifyRelatedMagicBlockPresence b = .ok (some e) →
      c.VerifyNotarization ctx b (some l) round = .ok (some e, c)) ∧
    (∀ (pre : List VerificationTicket) (rest : List (Option VerificationTicket)),
      c.VerifyRelatedMagicBlockPresence b = .ok none →
      ¬ (pre.map fun t => t.VerifierID).Nodup →
      c.VerifyNotarization ctx b (some (pre.map some ++ rest)) round =
        .ok (some (NewError "duplicate_ticket_signature"
          "Found duplicate signatures in the notarization of the block"), c)) ∧
    (∀ tickets : List VerificationTicket,
      c.VerifyRelatedMagicBlockPresence b = .ok none →
      (tickets.map fun t => t.VerifierID).Nodup →
      c.reachedNotarization round (c.blocks b).Hash tickets = false →
      ∃ e, c.VerifyNotarization ctx b (some (tickets.map some)) round = .ok (some e, c) ∧
        e.Code = "block_not_notarized" ∧ e.Code ≠ "verify_tickets") ∧
    (∀ (tickets : List VerificationTicket) (e : GoError),
      c.VerifyRelatedMagicBlockPresence b = .ok none →
      (tickets.map fun t => t.VerifierID).Nodup →
      c.reachedNotarization round (c.blocks b).Hash tickets = true →
      (c.VerifyTickets ctx (c.blocks b).Hash tickets round).1 = some e →
      ∃ c', c.VerifyNotarization ctx b (some (tickets.map some)) round = .ok (some e, c') ∧
        c'.blocks = c.blocks) := by
  refine ⟨?_, ?_, ?_, ?_⟩
  · intro l e hmb
    simp [Chain.VerifyNotarization, hmb]
  · intro pre rest hmb hdup
    simp [Chain.VerifyNotarization, hmb, checkTickets_duplicate [] pre rest (Or.inl hdup)]
  · intro tickets hmb hnd hr
    have hck : Chain.checkTickets [] (tickets.map some) = .ok tickets :=
      (checkTickets_ok_iff [] _ tickets).2 ⟨rfl, hnd, fun _ _ h => by cases h⟩
    refine ⟨NewError "block_not_notarized"
      "Verification tickets not sufficient to reach notarization", ?_, rfl, by decide⟩
    simp [Chain.VerifyNotarization, hmb, hck, hr]
  · intro tickets e hmb hnd hr hv
    have hck : Chain.checkTickets [] (tickets.map some) = .ok tickets :=
      (checkTickets_ok_iff [] _ tickets).2 ⟨rfl, hnd, fun _ _ h => by cases h⟩
    have hv' : c.verifyTicketsResult ctx (c.blocks b).Hash tickets round = some e := hv
    refine ⟨{ c with log := c.log ++ [Event.verifyTickets (c.blocks b).Hash tickets round] },
      ?_, rfl⟩
    simp [Chain.VerifyNotarization, hmb, hck, hr, Chain.VerifyTickets, hv']

/-- Witness of C3 (scenario S2): tickets of `A`, `A`, `B` are rejected as
duplicate, and the block stays as it was. -/
theorem VerifyNotarization_stage_errors_witness :
    (sampleChain 3 0).VerifyNotarization background 1
        (some ([ticketOf "A", ticketOf "A", ticketOf "B"].map some ++ [])) 10 =
      .ok (some (NewError "duplicate_ticket_signature"
        "Found duplicate signatures in the notarization of the block"), sampleChain 3 0) :=
  (VerifyNotarization_stage_errors (sampleChain 3 0) background 1 10).2.1
    [ticketOf "A", ticketOf "A", ticketOf "B"] [] rfl (by decide)

/-- Counterexample to C3 as stated: the related magic block of `B1` is
present and the first and third ticket carry the same verifier id `A`, but a
null ticket stands between them, and the result is the error `null_ticket`,
not `duplicate_ticket_signature`. -/
theorem VerifyNotarization_null_before_duplicate :
    (sampleChain 3 0).VerifyRelatedMagicBlockPresence 1 = .ok none ∧
    (sampleChain 3 0).VerifyNotarization background 1
        (some [some (ticketOf "A"), none, some (ticketOf "A")]) 10 =
      .ok (some (NewError "null_ticket" "Verification ticket is null"), sampleChain 3 0) ∧
    (NewError "null_ticket" "Verification ticket is null").Code ≠ "duplicate_ticket_signature" :=
  ⟨rfl, rfl, by decide⟩

/-- C4. `VerifyNotarization` never moves the current round backward: after a
call that returns nil the current round is the maximum of the previous
current round and the round of the block, so at least the round of the block;
after a call that returns an error it is unchanged. -/
theorem VerifyNotarization_currentRound (c : Chain) (ctx : Context) (b : Ptr)
    (bvt : Option (List (Option VerificationTicket))) (round : Int)
    (r : Option GoError) (c' : Chain)
    (h : c.VerifyNotarization ctx b bvt round = .ok (r, c')) :
    (r = none → c'.CurrentRound = max c.CurrentRound (c.blocks b).Round ∧
      (c.blocks b).Round ≤ c'.CurrentRound) ∧
    (r ≠ none → c'.CurrentRound = c.CurrentRound) ∧
    c.CurrentRound ≤ c'.CurrentRound := by
  rcases VerifyNotarization_inv c ctx b bvt round r c' h with
    ⟨e, he, _, hc⟩ | ⟨hn, t, _, _, _, _, _, _, hround, _⟩
  · refine ⟨fun hr => (by rw [he] at hr; cases hr), fun _ => hc, by omega⟩
  · refine ⟨fun _ => ⟨hround, by omega⟩, fun hr => absurd hn hr, by omega⟩

/-- Witness of C4 (scenario S1): block `B1` of round 10 is notarized on a
chain whose current round is 7, and the current round becomes 10. -/
theorem VerifyNotarization_currentRound_witness :
    ∃ c', (sampleChain 3 0).VerifyNotarization background 1
        (some [some (ticketOf "A"), some (ticketOf "B"), some (ticketOf "C")]) 10 = .ok (none, c') ∧
      c'.CurrentRound = 10 :=
  ⟨_, rfl, ((VerifyNotarization_currentRound (sampleChain 3 0) background 1
    (some [some (ticketOf "A"), some (ticketOf "B"), some (ticketOf "C")]) 10 none _ rfl).1 rfl).1⟩

/-! ## `VerifyRelatedMagicBlockPresence` -/

theorem VerifyRelatedMagicBlockPresence_ok_iff (c : Chain) (b : Ptr) :
    c.VerifyRelatedMagicBlockPresence b = .ok none ↔
      (c.GetMagicBlock (c.blocks b).Round).StartingRound =
          (c.blocks b).LatestFinalizedMagicBlockRound ∧
        c.LatestFinalizedBlock ≠ none := by
  unfold Chain.VerifyRelatedMagicBlockPresence
  by_cases hsr : (c.GetMagicBlock (c.blocks b).Round).StartingRound =
      (c.blocks b).LatestFinalizedMagicBlockRound
  · cases hl : c.LatestFinalizedBlock with
    | none => simp [hsr]
    | some l => simp [hsr]
  · simp [hsr]

/-- C5, what the code does: when the starting round of the magic block of
the block's round differs from the block's `LatestFinalizedMagicBlockRound`,
`VerifyRelatedMagicBlockPresence` returns the error
`verify_related_mb_presence`, whatever the rounds of the block and of the
latest finalized block: the mismatch is tested before the rounds are
compared. -/
theorem VerifyRelatedMagicBlockPresence_mismatch (c : Chain) (b : Ptr)
    (hsr : (c.GetMagicBlock (c.blocks b).Round).StartingRound ≠
      (c.blocks b).LatestFinalizedMagicBlockRound) :
    c.VerifyRelatedMagicBlockPresence b =
      .ok (some (NewError "verify_related_mb_presence"
        "no corresponding MB, want_mb_sr: %d, got_mb_sr: %d")) := by
  simp [Chain.VerifyRelatedMagicBlockPresence, hsr]

/-- The failing input of C5: block `2` of the sample chain has round 3, below
the round 5 of the latest finalized block `0`, and names magic block round 1
while the magic block of its round starts at 0; the check fails. -/
theorem VerifyRelatedMagicBlockPresence_mismatch_witness :
    (sampleChain 3 0).LatestFinalizedBlock = some 0 ∧
    ((sampleChain 3 0).blocks 2).Round < ((sampleChain 3 0).blocks 0).Round ∧
    (sampleChain 3 0).VerifyRelatedMagicBlockPresence 2 =
      .ok (some (NewError "verify_related_mb_presence"
        "no corresponding MB, want_mb_sr: %d, got_mb_sr: %d")) :=
  ⟨rfl, by decide, VerifyRelatedMagicBlockPresence_mismatch (sampleChain 3 0) 2 (by decide)⟩

/-! ## `IsBlockNotarized` -/

theorem SetBlockNotarized_block (c : Chain) (b p : Ptr) :
    ((c.SetBlockNotarized b).blocks p).Round = (c.blocks p).Round ∧
    ((c.SetBlockNotarized b).blocks p).Hash = (c.blocks p).Hash ∧
    ((c.SetBlockNotarized b).blocks p).LatestFinalizedMagicBlockRound =
      (c.blocks p).LatestFinalizedMagicBlockRound ∧
    ((c.SetBlockNotarized b).blocks p).VerificationTickets = (c.blocks p).VerificationTickets := by
  unfold Chain.SetBlockNotarized
  by_cases h : p = b
  · subst h
    simp
  · simp [Function.update_noteq h]

theorem SetBlockNotarized_presence (c : Chain) (b p : Ptr) :
    (c.SetBlockNotarized b).VerifyRelatedMagicBlockPresence p =
      c.VerifyRelatedMagicBlockPresence p := by
  have hp := SetBlockNotarized_block c b p
  unfold Chain.VerifyRelatedMagicBlockPresence
  rw [hp.1, hp.2.2.1]
  have h1 : (c.SetBlockNotarized b).GetMagicBlock = c.GetMagicBlock := rfl
  have h2 : (c.SetBlockNotarized b).LatestFinalizedBlock = c.LatestFinalizedBlock := rfl
  rw [h1, h2]
  cases c.LatestFinalizedBlock with
  | none => rfl
  | some l => simp

theorem SetBlockNotarized_reached (c : Chain) (b : Ptr) (round : Int) (hash : String)
    (bvt : List VerificationTicket) :
    (c.SetBlockNotarized b).reachedNotarization round hash bvt =
      c.reachedNotarization round hash bvt := rfl

/-- A call of `IsBlockNotarized` on a block that is not flagged: what it
returns and the state it leaves. -/
theorem IsBlockNotarized_unflagged (c : Chain) (b : Ptr)
    (hflag : (c.blocks b).isNotarized = false) (r : Option GoError)
    (hmb : c.VerifyRelatedMagicBlockPresence b = .ok r) :
    c.IsBlockNotarized b =
      .ok (r.isNone && c.reachedNotarization (c.blocks b).Round (c.blocks b).Hash
          (c.blocks b).VerificationTickets,
        if (r.isNone && c.reachedNotarization (c.blocks b).Round (c.blocks b).Hash
          (c.blocks b).VerificationTickets) = true then c.SetBlockNotarized b else c) := by
  cases r with
  | some e => simp [Chain.IsBlockNotarized, hflag, hmb]
  | none =>
    cases hr : c.reachedNotarization (c.blocks b).Round (c.blocks b).Hash
        (c.blocks b).VerificationTickets <;>
      simp [Chain.IsBlockNotarized, hflag, hmb, hr]

/-- When `IsBlockNotarized` sets the flag, the related magic block is present
and the thresholds are met by the tickets of the block. -/
theorem IsBlockNotarized_sets (c : Chain) (b : Ptr) (r : Bool) (c' : Chain)
    (h : c.IsBlockNotarized b = .ok (r, c'))
    (hbefore : (c.blocks b).isNotarized = false)
    (hafter : (c'.blocks b).isNotarized = true) :
    c' = c.SetBlockNotarized b ∧ c.VerifyRelatedMagicBlockPresence b = .ok none ∧
      c.reachedNotarization (c.blocks b).Round (c.blocks b).Hash
        (c.blocks b).VerificationTickets = true := by
  cases hmb : c.VerifyRelatedMagicBlockPresence b with
  | error p => simp [Chain.IsBlockNotarized, hbefore, hmb] at h
  | ok res =>
    rw [IsBlockNotarized_unflagged c b hbefore res hmb] at h
    simp only [Except.ok.injEq, Prod.mk.injEq] at h
    obtain ⟨_, hc⟩ := h
    cases res with
    | some e =>
      simp only [Option.isNone_some, Bool.false_and, Bool.false_eq_true, if_false] at hc
      rw [← hc, hbefore] at hafter
      cases hafter
    | none =>
      cases hr : c.reachedNotarization (c.blocks b).Round (c.blocks b).Hash
          (c.blocks b).VerificationTickets with
      | false =>
        simp only [hr, Bool.and_false, Bool.false_eq_true, if_false] at hc
        rw [← hc, hbefore] at hafter
        cases hafter
      | true =>
        simp only [hr, Option.isNone_none, Bool.and_self, if_true] at hc
        exact ⟨hc.symm, rfl, rfl⟩

/-- C6. On a block already flagged notarized `IsBlockNotarized` returns true
and leaves the chain as it is, whatever the magic block and the tickets. On a
block not flagged it returns (the related magic block check succeeds and
`reachedNotarization(b.Round, b.Hash, tickets of b)` is true), the flag
afterwards is that result, and no other block changes; a panic of the magic
block check (no latest finalized block) is a panic of the call. No call
changes the call log: `VerifyTickets` is never called. -/
theorem IsBlockNotarized_spec (c : Chain) (b : Ptr) :
    ((c.blocks b).isNotarized = true → c.IsBlockNotarized b = .ok (true, c)) ∧
    ((c.blocks b).isNotarized = false → ∀ r, c.VerifyRelatedMagicBlockPresence b = .ok r →
      ∃ c', c.IsBlockNotarized b =
          .ok (r.isNone && c.reachedNotarization (c.blocks b).Round (c.blocks b).Hash
            (c.blocks b).VerificationTickets, c') ∧
        (c'.blocks b).isNotarized =
          (r.isNone && c.reachedNotarization (c.blocks b).Round (c.blocks b).Hash
            (c.blocks b).VerificationTickets) ∧
        ∀ p, p ≠ b → c'.blocks p = c.blocks p) ∧
    ((c.blocks b).isNotarized = false → ∀ p, c.VerifyRelatedMagicBlockPresence b = .error p →
      c.IsBlockNotarized b = .error p) ∧
    (∀ r c', c.IsBlockNotarized b = .ok (r, c') → c'.log = c.log) := by
  refine ⟨?_, ?_, ?_, ?_⟩
  · intro h
    simp [Chain.IsBlockNotarized, h]
  · intro hflag r hmb
    refine ⟨_, IsBlockNotarized_unflagged c b hflag r hmb, ?_, ?_⟩
    · split
      · next h => simp [h, Chain.SetBlockNotarized]
      · next h => simp [h, hflag]
    · intro p hp
      split
      · simp [Chain.SetBlockNotarized, Function.update_noteq hp]
      · rfl
  · intro hflag p hmb
    simp [Chain.IsBlockNotarized, hflag, hmb]
  · intro r c' h
    cases hflag : (c.blocks b).isNotarized with
    | true =>
      simp only [Chain.IsBlockNotarized, hflag, if_true, Except.ok.injEq, Prod.mk.injEq] at h
      rw [← h.2]
    | false =>
      cases hmb : c.VerifyRelatedMagicBlockPresence b with
      | error p => simp [Chain.IsBlockNotarized, hflag, hmb] at h
      | ok res =>
        rw [IsBlockNotarized_unflagged c b hflag res hmb] at h
        simp only [Except.ok.injEq, Prod.mk.injEq] at h
        rw [← h.2]
        split <;> rfl

/-- Witness of C6: block `B1` of the sample chain is not flagged, its magic
block is present and its three tickets reach the threshold of three, so the
call returns true. -/
theorem IsBlockNotarized_spec_witness :
    ∃ c', (sampleChain 3 0).IsBlockNotarized 1 = .ok (true, c') ∧
      (c'.blocks 1).isNotarized = true ∧ ∀ p, p ≠ 1 → c'.blocks p = (sampleChain 3 0).blocks p :=
  (IsBlockNotarized_spec (sampleChain 3 0) 1).2.1 rfl none rfl

/-- C7. `IsBlockNotarized` is idempotent and monotone: a second call right
after a call that returned `r` returns `r` again and changes nothing; and once
a call has returned true, a call on that block returns true after any change
of the thresholds, of the magic blocks and of the tickets of the block. -/
theorem IsBlockNotarized_idempotent (c : Chain) (b : Ptr) (r : Bool) (c' : Chain)
    (h : c.IsBlockNotarized b = .ok (r, c')) :
    c'.IsBlockNotarized b = .ok (r, c') ∧
    (r = true → ∀ (byCount byStake : Int) (mbs : Int → MagicBlock)
        (tickets : List VerificationTicket),
      ∃ c'', ({ c' with
          ThresholdByCount := byCount, ThresholdByStake := byStake, GetMagicBlock := mbs,
          blocks := Function.update c'.blocks b
            { c'.blocks b with VerificationTickets := tickets } }).IsBlockNotarized b
        = .ok (true, c'')) := by
  have hflagged : ∀ d : Chain, (d.blocks b).isNotarized = true →
      d.IsBlockNotarized b = .ok (true, d) := fun d hd => by
    simp [Chain.IsBlockNotarized, hd]
  have hres : (r = true → (c'.blocks b).isNotarized = true) ∧
      (r = false → c' = c ∧ (c.blocks b).isNotarized = false) := by
    cases hflag : (c.blocks b).isNotarized with
    | true =>
      rw [hflagged c hflag] at h
      simp only [Except.ok.injEq, Prod.mk.injEq] at h
      obtain ⟨rfl, rfl⟩ := h
      exact ⟨fun _ => hflag, fun hr => by cases hr⟩
    | false =>
      cases hmb : c.VerifyRelatedMagicBlockPresence b with
      | error p => simp [Chain.IsBlockNotarized, hflag, hmb] at h
      | ok res =>
        rw [IsBlockNotarized_unflagged c b hflag res hmb] at h
        simp only [Except.ok.injEq, Prod.mk.injEq] at h
        obtain ⟨rfl, rfl⟩ := h
        constructor
        · intro hr
          simp [hr, Chain.SetBlockNotarized]
        · intro hr
          simp [hr]
  cases r with
  | true =>
    have hf := hres.1 rfl
    refine ⟨hflagged c' hf, fun _ byCount byStake mbs tickets => ⟨_, hflagged _ ?_⟩⟩
    simp [hf]
  | false =>
    obtain ⟨rfl, _⟩ := hres.2 rfl
    exact ⟨h, fun hr => by cases hr⟩

/-- Witness of C7: the call on block `B1` of the sample chain returns true,
and so does a second call on the state it leaves. -/
theorem IsBlockNotarized_idempotent_witness :
    (sampleChain 3 0).IsBlockNotarized 1 = .ok (true, (sampleChain 3 0).SetBlockNotarized 1) ∧
    ((sampleChain 3 0).SetBlockNotarized 1).IsBlockNotarized 1 =
      .ok (true, (sampleChain 3 0).SetBlockNotarized 1) :=
  ⟨rfl, (IsBlockNotarized_idempotent (sampleChain 3 0) 1 true
    ((sampleChain 3 0).SetBlockNotarized 1) rfl).1⟩

/-! ## The notarized flag -/

theorem blockAddVerificationTicket_flag (b : Block) (t : VerificationTicket) :
    (Chain.blockAddVerificationTicket b t).1.isNotarized = b.isNotarized := by
  unfold Chain.blockAddVerificationTicket
  split <;> rfl

theorem blockMergeVerificationTickets_flag (b : Block) (vts : List VerificationTicket) :
    (Chain.blockMergeVerificationTickets b vts).isNotarized = b.isNotarized := by
  unfold Chain.blockMergeVerificationTickets
  induction vts generalizing b with
  | nil => rfl
  | cons t rest ih =>
    rw [List.foldl_cons, ih, blockAddVerificationTicket_flag]

/-- After `IsBlockNotarized` has set the flag of a block, in the state it
leaves the related magic block is present and the tickets of the block meet
the thresholds. -/
theorem IsBlockNotarized_sets_after (c : Chain) (b : Ptr) (r : Bool) (c' : Chain)
    (h : c.IsBlockNotarized b = .ok (r, c'))
    (hbefore : (c.blocks b).isNotarized = false)
    (hafter : (c'.blocks b).isNotarized = true) :
    c'.VerifyRelatedMagicBlockPresence b = .ok none ∧
      c'.reachedNotarization (c'.blocks b).Round (c'.blocks b).Hash
        (c'.blocks b).VerificationTickets = true ∧
      c'.log = c.log := by
  obtain ⟨rfl, hmb, hr⟩ := IsBlockNotarized_sets c b r c' h hbefore hafter
  have hp := SetBlockNotarized_block c b b
  rw [SetBlockNotarized_presence, SetBlockNotarized_reached, hp.1, hp.2.1, hp.2.2.2]
  exact ⟨hmb, hr, rfl⟩

/-- Counterexample to C8 as stated: on the sample chain where no aggregate
signature verifies, `IsBlockNotarized` sets the notarized flag of block `B1`,
records no call of `VerifyTickets`, and `VerifyTickets` on the tickets of the
block fails under every context. -/
theorem IsBlockNotarized_without_verification :
    (unverifiedChain.blocks 1).isNotarized = false ∧
    unverifiedChain.IsBlockNotarized 1 = .ok (true, unverifiedChain.SetBlockNotarized 1) ∧
    ((unverifiedChain.SetBlockNotarized 1).blocks 1).isNotarized = true ∧
    (unverifiedChain.SetBlockNotarized 1).log = [] ∧
    ∀ ctx, (unverifiedChain.VerifyTickets ctx (unverifiedChain.blocks 1).Hash
      (unverifiedChain.blocks 1).VerificationTickets (unverifiedChain.blocks 1).Round).1 ≠ none := by
  refine ⟨rfl, rfl, rfl, rfl, ?_⟩
  intro ctx
  obtain ⟨a, j⟩ := ctx
  cases a with
  | some e => simp [Chain.VerifyTickets, Chain.verifyTicketsResult, Chain.ticketsVerifier]
  | none =>
    cases j with
    | some e =>
      have hk : unverifiedChain.senderKeys (unverifiedChain.blocks 1).Round
          (unverifiedChain.blocks 1).VerificationTickets = .ok ["pk", "pk", "pk"] := rfl
      simp [Chain.VerifyTickets, Chain.verifyTicketsResult, Chain.ticketsVerifier, hk]
    | none =>
      have hv : (unverifiedChain.VerifyTickets ⟨none, none⟩ (unverifiedChain.blocks 1).Hash
          (unverifiedChain.blocks 1).VerificationTickets (unverifiedChain.blocks 1).Round).1 =
          some (NewError "verify_tickets" "failed to verify aggregate signatures: %v") := rfl
      rw [hv]
      exact fun h => nomatch h

/-- C8, as the code has it. When `VerifyNotarization` sets the notarized flag
of a block, the tickets it was given are non-null with pairwise distinct
verifier ids, the related magic block is present, the thresholds are met and
`VerifyTickets` has returned nil on those tickets. When `IsBlockNotarized`,
`AddVerificationTicket` or `MergeVerificationTickets` sets the flag, the
related magic block is present and the thresholds are met by the tickets the
block then holds; `IsBlockNotarized` records no call of `VerifyTickets`. -/
theorem notarized_flag_set (c : Chain) (b : Ptr) :
    (∀ ctx bvt round r c', c.VerifyNotarization ctx b bvt round = .ok (r, c') →
      (c.blocks b).isNotarized = false → (c'.blocks b).isNotarized = true →
      ∃ tickets : List VerificationTicket, bvt = some (tickets.map some) ∧
        (tickets.map fun t => t.VerifierID).Nodup ∧
        c.VerifyRelatedMagicBlockPresence b = .ok none ∧
        c.reachedNotarization round (c.blocks b).Hash tickets = true ∧
        (c.VerifyTickets ctx (c.blocks b).Hash tickets round).1 = none) ∧
    (∀ r c', c.IsBlockNotarized b = .ok (r, c') →
      (c.blocks b).isNotarized = false → (c'.blocks b).isNotarized = true →
      c'.VerifyRelatedMagicBlockPresence b = .ok none ∧
        c'.reachedNotarization (c'.blocks b).Round (c'.blocks b).Hash
          (c'.blocks b).VerificationTickets = true ∧
        c'.log = c.log) ∧
    (∀ t r c', c.AddVerificationTicket b t = .ok (r, c') →
      (c.blocks b).isNotarized = false → (c'.blocks b).isNotarized = true →
      c'.VerifyRelatedMagicBlockPresence b = .ok none ∧
        c'.reachedNotarization (c'.blocks b).Round (c'.blocks b).Hash
          (c'.blocks b).VerificationTickets = true) ∧
    (∀ vts c', c.MergeVerificationTickets b vts = .ok c' →
      (c.blocks b).isNotarized = false → (c'.blocks b).isNotarized = true →
      c'.VerifyRelatedMagicBlockPresence b = .ok none ∧
        c'.reachedNotarization (c'.blocks b).Round (c'.blocks b).Hash
          (c'.blocks b).VerificationTickets = true) := by
  refine ⟨?_, ?_, ?_, ?_⟩
  · intro ctx bvt round r c' h hbefore hafter
    rcases VerifyNotarization_inv c ctx b bvt round r c' h with
      ⟨e, _, hb, _⟩ | ⟨_, t, h1, h2, h3, h4, h5, _⟩
    · rw [hb, hbefore] at hafter
      cases hafter
    · exact ⟨t, h1, h3, h2, h4, h5⟩
  · intro r c' h hbefore hafter
    exact IsBlockNotarized_sets_after c b r c' h hbefore hafter
  · intro t r c' h hbefore hafter
    unfold Chain.AddVerificationTicket at h
    have hflag : (Function.update c.blocks b (Chain.blockAddVerificationTicket (c.blocks b) t).1
        b).isNotarized = false := by
      rw [Function.update_same, blockAddVerificationTicket_flag, hbefore]
    simp only at h
    split at h
    · split at h
      · cases h
      · next r0 c2 hnot =>
        simp only [Except.ok.injEq, Prod.mk.injEq] at h
        obtain ⟨_, rfl⟩ := h
        exact (IsBlockNotarized_sets_after _ b _ _ hnot hflag hafter).imp_right And.left
    · simp only [Except.ok.injEq, Prod.mk.injEq] at h
      obtain ⟨_, rfl⟩ := h
      rw [hflag] at hafter
      cases hafter
  · intro vts c' h hbefore hafter
    unfold Chain.MergeVerificationTickets at h
    have hflag : (Function.update c.blocks b (Chain.blockMergeVerificationTickets (c.blocks b) vts)
        b).isNotarized = false := by
      rw [Function.update_same, blockMergeVerificationTickets_flag, hbefore]
    simp only at h
    split at h
    · split at h
      · cases h
      · next r0 c2 hnot =>
        simp only [Except.ok.injEq] at h
        subst h
        exact (IsBlockNotarized_sets_after _ b _ _ hnot hflag hafter).imp_right And.left
    · simp only [Except.ok.injEq] at h
      subst h
      rw [hflag] at hafter
      cases hafter

/-- Witness of C8: on the sample chain `IsBlockNotarized` sets the flag of
block `B1`, whose magic block is present and whose three tickets reach the
threshold of three. -/
theorem notarized_flag_set_witness :
    ((sampleChain 3 0).SetBlockNotarized 1).VerifyRelatedMagicBlockPresence 1 = .ok none ∧
    ((sampleChain 3 0).SetBlockNotarized 1).reachedNotarization 10 "h1"
      [ticketOf "A", ticketOf "B", ticketOf "C"] = true ∧
    ((sampleChain 3 0).SetBlockNotarized 1).log = (sampleChain 3 0).log :=
  (notarized_flag_set (sampleChain 3 0) 1).2.1 true ((sampleChain 3 0).SetBlockNotarized 1)
    rfl rfl rfl

/-! ## Deterministic finality -/

/-- C9. `IsFinalizedDeterministically(b)` is true exactly when the round of
the latest finalized block is at least `b.Round` and
`len(b.UniqueBlockExtensions) * 100 >= miners * ThresholdByCount`, the products
taken as Go `int`s; with a latest finalized block it returns that truth value,
and when the two products lie in the `int` range they are the plain products.
With 10 miners and `ThresholdByCount = 67`, a finalized block with 7
extensions is deterministically finalized and one with 6 is not. -/
theorem IsFinalizedDeterministically_iff (c : Chain) (b : Ptr) :
    (c.IsFinalizedDeterministically b = .ok true ↔
      ∃ l, c.LatestFinalizedBlock = some l ∧ (c.blocks b).Round ≤ (c.blocks l).Round ∧
        wrapInt64 ((c.GetMagicBlock (c.blocks b).Round).Miners.Size * c.ThresholdByCount) ≤
          wrapInt64 (((c.blocks b).UniqueBlockExtensions.length : Int) * 100)) ∧
    (∀ l, c.LatestFinalizedBlock = some l →
      c.IsFinalizedDeterministically b = .ok (decide ((c.blocks b).Round ≤ (c.blocks l).Round ∧
        wrapInt64 ((c.GetMagicBlock (c.blocks b).Round).Miners.Size * c.ThresholdByCount) ≤
          wrapInt64 (((c.blocks b).UniqueBlockExtensions.length : Int) * 100)))) ∧
    (∀ l, c.LatestFinalizedBlock = some l →
      -9223372036854775808 ≤ (c.GetMagicBlock (c.blocks b).Round).Miners.Size * c.ThresholdByCount →
      (c.GetMagicBlock (c.blocks b).Round).Miners.Size * c.ThresholdByCount < 9223372036854775808 →
      ((c.blocks b).UniqueBlockExtensions.length : Int) * 100 < 9223372036854775808 →
      (c.IsFinalizedDeterministically b = .ok true ↔
        (c.blocks b).Round ≤ (c.blocks l).Round ∧
          (c.GetMagicBlock (c.blocks b).Round).Miners.Size * c.ThresholdByCount ≤
            ((c.blocks b).UniqueBlockExtensions.length : Int) * 100)) ∧
    (∀ l, c.LatestFinalizedBlock = some l → (c.blocks b).Round ≤ (c.blocks l).Round →
      (c.GetMagicBlock (c.blocks b).Round).Miners.Size = 10 → c.ThresholdByCount = 67 →
      ((c.blocks b).UniqueBlockExtensions.length = 7 →
        c.IsFinalizedDeterministically b = .ok true) ∧
      ((c.blocks b).UniqueBlockExtensions.length = 6 →
        c.IsFinalizedDeterministically b = .ok false)) := by
  have total : ∀ l, c.LatestFinalizedBlock = some l →
      c.IsFinalizedDeterministically b = .ok (decide ((c.blocks b).Round ≤ (c.blocks l).Round ∧
        wrapInt64 ((c.GetMagicBlock (c.blocks b).Round).Miners.Size * c.ThresholdByCount) ≤
          wrapInt64 (((c.blocks b).UniqueBlockExtensions.length : Int) * 100))) := by
    intro l hl
    unfold Chain.IsFinalizedDeterministically
    simp only [hl]
    by_cases h1 : (c.blocks l).Round < (c.blocks b).Round
    · have : ¬ (c.blocks b).Round ≤ (c.blocks l).Round := by omega
      simp [h1, this]
    · have h1' : (c.blocks b).Round ≤ (c.blocks l).Round := by omega
      by_cases h2 : wrapInt64 ((c.GetMagicBlock (c.blocks b).Round).Miners.Size *
          c.ThresholdByCount) ≤
          wrapInt64 (((c.blocks b).UniqueBlockExtensions.length : Int) * 100)
      · simp [h1, h1', h2]
      · simp [h1, h1', h2]
  refine ⟨?_, total, ?_, ?_⟩
  · constructor
    · intro h
      cases hl : c.LatestFinalizedBlock with
      | none => simp [Chain.IsFinalizedDeterministically, hl] at h
      | some l =>
        rw [total l hl] at h
        simp only [Except.ok.injEq, decide_eq_true_eq] at h
        exact ⟨l, rfl, h⟩
    · rintro ⟨l, hl, h⟩
      rw [total l hl]
      simp [h]
  · intro l hl hlo hhi hlen
    rw [total l hl, wrapInt64_of_inRange _ hlo hhi,
      wrapInt64_of_inRange _ (by omega) hlen]
    simp
  · intro l hl hround hsize hcount
    constructor
    · intro hlen
      have h7 : wrapInt64 670 ≤ wrapInt64 700 := by decide
      rw [total l hl, hsize, hcount, hlen]
      simp [hround, h7]
    · intro hlen
      have h6 : wrapInt64 600 < wrapInt64 670 := by decide
      rw [total l hl, hsize, hcount, hlen]
      simp [hround, h6]

/-- Witness of C9 (scenario S5): with ten miners and `ThresholdByCount = 67`, a
block of round 4 with seven extensions, below the latest finalized block of
round 5, is deterministically finalized. -/
theorem IsFinalizedDeterministically_iff_witness :
    (finalityChain ["c1", "c2", "c3", "c4", "c5", "c6", "c7"]).IsFinalizedDeterministically 1
      = .ok true :=
  ((IsFinalizedDeterministically_iff (finalityChain ["c1", "c2", "c3", "c4", "c5", "c6", "c7"])
    1).2.2.2 0 rfl (by decide) rfl rfl).1 rfl

/-! ## `finalizeBlock` -/

theorem updateFinalizationCount_frame (c : Chain) (fb : Ptr) (c1 : Chain)
    (h : c.updateFinalizationCount fb = .ok c1) :
    ∃ nodes, c1 = { c with nodes := nodes } := by
  unfold Chain.updateFinalizationCount at h
  simp only at h
  split at h
  · cases h
    exact ⟨c.nodes, rfl⟩
  · split at h
    · cases h
      exact ⟨c.nodes, rfl⟩
    · split at h
      · cases h
        exact ⟨c.nodes, rfl⟩
      · cases h
      · split at h
        · cases h
        · cases h
          exact ⟨_, rfl⟩

theorem updateMinerStats_frame (c : Chain) (fb : Ptr) (c1 : Chain)
    (h : c.updateMinerStats fb = .ok c1) :
    ∃ nodes, c1 = { c with nodes := nodes } := by
  unfold Chain.updateMinerStats at h
  split at h
  · cases h
  · split at h
    · cases h
    · next c0 h0 =>
      obtain ⟨n0, rfl⟩ := updateFinalizationCount_frame c fb c0 h0
      split at h
      · cases h
        exact ⟨n0, rfl⟩
      · simp only at h
        split at h
        · cases h
        · cases h
          exact ⟨_, rfl⟩

/-- C10. If the statistics part of `finalizeBlock` has run and `SaveChanges`
fails, `finalizeBlock` returns at once: the latest finalized block, the latest
own finalized block round, the latest finalized magic block, the latest
deterministic block, the ring of summaries, the blocks and the store are as
before; the call log grows by the calls of `UpdateChainInfo` and `SaveChanges`
only, so the finalized-block handler is not called and no block is deleted. -/
theorem finalizeBlock_save_failed (fuel : Nat) (c : Chain) (fb : Ptr) (c1 : Chain) (e : GoError)
    (hstats : c.updateMinerStats fb = .ok c1)
    (hsave : c.SaveChanges (c.blocks fb) = some e) :
    ∃ c', c.finalizeBlock fuel fb = .ok c' ∧
      c'.LatestFinalizedBlock = c.LatestFinalizedBlock ∧
      c'.LatestOwnFinalizedBlockRound = c.LatestOwnFinalizedBlockRound ∧
      c'.LatestFinalizedMagicBlock = c.LatestFinalizedMagicBlock ∧
      c'.LatestDeterministicBlock = c.LatestDeterministicBlock ∧
      c'.BlockChain = c.BlockChain ∧
      c'.blocks = c.blocks ∧
      c'.store = c.store ∧
      c'.log = c.log ++ [Event.updateChainInfo fb, Event.saveChanges fb] ∧
      (∀ p, Event.updateFinalizedBlock p ∈ c'.log → Event.updateFinalizedBlock p ∈ c.log) ∧
      (∀ dead, Event.deleteBlocks dead ∈ c'.log → Event.deleteBlocks dead ∈ c.log) := by
  obtain ⟨nodes, rfl⟩ := updateMinerStats_frame c fb c1 hstats
  refine ⟨{ c with nodes := nodes,
                   log := c.log ++ [Event.updateChainInfo fb, Event.saveChanges fb] },
    ?_, rfl, rfl, rfl, rfl, rfl, rfl, rfl, rfl, ?_, ?_⟩
  · simp only [Chain.finalizeBlock, hstats, hsave]
  · intro p hp
    simpa using hp
  · intro dead hd
    simpa using hd

/-- Witness of C10: on the sample chain where persisting fails, finalizing
block `B1` leaves the latest finalized block at block `0`. -/
theorem finalizeBlock_save_failed_witness :
    ∃ c', failingSaveChain.finalizeBlock 0 1 = .ok c' ∧
      c'.LatestFinalizedBlock = some 0 ∧ c'.store = [0, 1, 2] :=
  let ⟨c', h, hl, _, _, _, _, _, hs, _⟩ :=
    finalizeBlock_save_failed 0 failingSaveChain 1 failingSaveChain
      (NewError "save_changes" "failed") rfl rfl
  ⟨c', h, hl, hs⟩

/-! ## The committing part of `finalizeBlock` -/

theorem walkBack_succ (c : Chain) (n : Nat) (p : Ptr) :
    c.walkBack (n + 1) (some p) = c.walkBack n (c.blocks p).PrevBlock := rfl

theorem walkBack_none (c : Chain) (n : Nat) : c.walkBack n none = none := by
  cases n <;> rfl

/-- The fields `DeleteBlocks` leaves alone. -/
theorem DeleteBlocks_frame (c : Chain) (dead : List Ptr) :
    (c.DeleteBlocks dead).LatestFinalizedBlock = c.LatestFinalizedBlock ∧
    (c.DeleteBlocks dead).LatestOwnFinalizedBlockRound = c.LatestOwnFinalizedBlockRound ∧
    (c.DeleteBlocks dead).LatestFinalizedMagicBlock = c.LatestFinalizedMagicBlock ∧
    (c.DeleteBlocks dead).LatestDeterministicBlock = c.LatestDeterministicBlock ∧
    (c.DeleteBlocks dead).BlockChain = c.BlockChain ∧
    (c.DeleteBlocks dead).ThresholdByCount = c.ThresholdByCount ∧
    (c.DeleteBlocks dead).GetMagicBlock = c.GetMagicBlock ∧
    ∀ p, ((c.DeleteBlocks dead).blocks p).Round = (c.blocks p).Round ∧
      ((c.DeleteBlocks dead).blocks p).Hash = (c.blocks p).Hash ∧
      ((c.DeleteBlocks dead).blocks p).UniqueBlockExtensions =
        (c.blocks p).UniqueBlockExtensions := by
  refine ⟨rfl, rfl, rfl, rfl, rfl, rfl, rfl, ?_⟩
  intro p
  unfold Chain.DeleteBlocks
  by_cases h : p ∈ dead <;> simp [h]

/-- The fields the pruning of `finalizeBlock` leaves alone. -/
theorem pruneDeadBlocks_frame (c : Chain) (fb : Ptr) :
    (c.pruneDeadBlocks fb).LatestFinalizedBlock = c.LatestFinalizedBlock ∧
    (c.pruneDeadBlocks fb).LatestOwnFinalizedBlockRound = c.LatestOwnFinalizedBlockRound ∧
    (c.pruneDeadBlocks fb).LatestFinalizedMagicBlock = c.LatestFinalizedMagicBlock ∧
    (c.pruneDeadBlocks fb).LatestDeterministicBlock = c.LatestDeterministicBlock ∧
    (c.pruneDeadBlocks fb).BlockChain = c.BlockChain ∧
    (c.pruneDeadBlocks fb).ThresholdByCount = c.ThresholdByCount ∧
    (c.pruneDeadBlocks fb).GetMagicBlock = c.GetMagicBlock ∧
    ∀ p, ((c.pruneDeadBlocks fb).blocks p).Round = (c.blocks p).Round ∧
      ((c.pruneDeadBlocks fb).blocks p).Hash = (c.blocks p).Hash ∧
      ((c.pruneDeadBlocks fb).blocks p).UniqueBlockExtensions =
        (c.blocks p).UniqueBlockExtensions := by
  unfold Chain.pruneDeadBlocks
  split
  · exact ⟨rfl, rfl, rfl, rfl, rfl, rfl, rfl, fun _ => ⟨rfl, rfl, rfl⟩⟩
  · exact DeleteBlocks_frame c _

/-- The deterministic finality of a block depends on the threshold, the magic
blocks, the latest finalized block, and the rounds and extensions of the
blocks only. -/
theorem IsFinalizedDeterministically_congr (c d : Chain) (b : Ptr)
    (h1 : d.ThresholdByCount = c.ThresholdByCount)
    (h2 : d.GetMagicBlock = c.GetMagicBlock)
    (h3 : d.LatestFinalizedBlock = c.LatestFinalizedBlock)
    (h4 : ∀ p, (d.blocks p).Round = (c.blocks p).Round ∧
      (d.blocks p).UniqueBlockExtensions = (c.blocks p).UniqueBlockExtensions) :
    d.IsFinalizedDeterministically b = c.IsFinalizedDeterministically b := by
  unfold Chain.IsFinalizedDeterministically
  rw [h1, h2, h3]
  cases c.LatestFinalizedBlock with
  | none => rfl
  | some l => simp only [(h4 b).1, (h4 b).2, (h4 l).1]

theorem IsFinalizedDeterministically_returns (c : Chain) (b l : Ptr)
    (hl : c.LatestFinalizedBlock = some l) :
    ∃ r, c.IsFinalizedDeterministically b = .ok r := by
  unfold Chain.IsFinalizedDeterministically
  simp only [hl]
  split
  · exact ⟨_, rfl⟩
  · split <;> exact ⟨_, rfl⟩

/-- What the walk of `finalizeBlock` towards the latest deterministic block
does: it visits the blocks of the previous-block chain in turn, stops at the
first one that is deterministically finalized and promotes it, or ends at the
latest deterministic block or at the end of the chain and changes nothing. -/
theorem promoteDeterministic_inv (c : Chain) (fuel : Nat) (start : Option Ptr) (c' : Chain)
    (h : c.promoteDeterministic fuel start = .ok c') :
    (∃ n p, c.walkBack n start = some p ∧ c' = c.SetLatestDeterministicBlock p ∧
      c.IsFinalizedDeterministically p = .ok true ∧ some p ≠ c.LatestDeterministicBlock ∧
      ∀ m, m < n → ∀ q, c.walkBack m start = some q →
        some q ≠ c.LatestDeterministicBlock ∧ c.IsFinalizedDeterministically q = .ok false) ∨
    (c' = c ∧ ∃ n, (c.walkBack n start = none ∨
        c.walkBack n start = c.LatestDeterministicBlock) ∧
      ∀ m, m < n → ∀ q, c.walkBack m start = some q →
        some q ≠ c.LatestDeterministicBlock ∧ c.IsFinalizedDeterministically q = .ok false) := by
  induction fuel generalizing start with
  | zero =>
    cases start with
    | none =>
      simp only [Chain.promoteDeterministic, Except.ok.injEq] at h
      exact Or.inr ⟨h.symm, 0, Or.inl rfl, fun m hm => absurd hm (Nat.not_lt_zero m)⟩
    | some pfb =>
      by_cases hl : some pfb = c.LatestDeterministicBlock
      · simp only [Chain.promoteDeterministic, hl, if_true, Except.ok.injEq] at h
        exact Or.inr ⟨h.symm, 0, Or.inr hl, fun m hm => absurd hm (Nat.not_lt_zero m)⟩
      · simp [Chain.promoteDeterministic, hl] at h
  | succ fuel ih =>
    cases start with
    | none =>
      simp only [Chain.promoteDeterministic, Except.ok.injEq] at h
      exact Or.inr ⟨h.symm, 0, Or.inl rfl, fun m hm => absurd hm (Nat.not_lt_zero m)⟩
    | some pfb =>
      by_cases hl : some pfb = c.LatestDeterministicBlock
      · simp only [Chain.promoteDeterministic, hl, if_true, Except.ok.injEq] at h
        exact Or.inr ⟨h.symm, 0, Or.inr hl, fun m hm => absurd hm (Nat.not_lt_zero m)⟩
      · simp only [Chain.promoteDeterministic, hl, if_false] at h
        cases hfd : c.IsFinalizedDeterministically pfb with
        | error e => simp [hfd] at h
        | ok r =>
          cases r with
          | true =>
            simp only [hfd, Except.ok.injEq] at h
            exact Or.inl ⟨0, pfb, rfl, h.symm, hfd, hl,
              fun m hm => absurd hm (Nat.not_lt_zero m)⟩
          | false =>
            simp only [hfd] at h
            have hstep : ∀ m q, m < 1 → c.walkBack m (some pfb) = some q →
                some q ≠ c.LatestDeterministicBlock ∧
                  c.IsFinalizedDeterministically q = .ok false := by
              intro m q hm hq
              have hm0 : m = 0 := by omega
              subst hm0
              simp only [Chain.walkBack, Option.some.injEq] at hq
              subst hq
              exact ⟨hl, hfd⟩
            rcases ih _ h with ⟨n, p, hw, hc, hp, hne, hall⟩ | ⟨hc, n, hw, hall⟩
            · refine Or.inl ⟨n + 1, p, hw, hc, hp, hne, ?_⟩
              intro m hm q hq
              cases m with
              | zero => exact hstep 0 q (by omega) hq
              | succ m => exact hall m (by omega) q hq
            · refine Or.inr ⟨hc, n + 1, hw, ?_⟩
              intro m hm q hq
              cases m with
              | zero => exact hstep 0 q (by omega) hq
              | succ m => exact hall m (by omega) q hq

/-- The walk of `finalizeBlock` towards the latest deterministic block returns
when there is a latest finalized block and the previous-block chain ends
within `fuel` steps. -/
theorem promoteDeterministic_returns (c : Chain) (fuel : Nat) (start : Option Ptr)
    (hlfb : c.LatestFinalizedBlock ≠ none) (hend : c.walkBack fuel start = none) :
    ∃ c', c.promoteDeterministic fuel start = .ok c' := by
  induction fuel generalizing start with
  | zero =>
    simp only [Chain.walkBack] at hend
    subst hend
    exact ⟨c, rfl⟩
  | succ fuel ih =>
    cases start with
    | none => exact ⟨c, rfl⟩
    | some pfb =>
      by_cases hl : some pfb = c.LatestDeterministicBlock
      · exact ⟨c, by simp [Chain.promoteDeterministic, hl]⟩
      · cases hlf : c.LatestFinalizedBlock with
        | none => exact absurd hlf hlfb
        | some l =>
          obtain ⟨r, hr⟩ := IsFinalizedDeterministically_returns c pfb l hlf
          cases r with
          | true =>
            exact ⟨c.SetLatestDeterministicBlock pfb, by
              simp [Chain.promoteDeterministic, hl, hr]⟩
          | false =>
            obtain ⟨c', hc'⟩ := ih (c.blocks pfb).PrevBlock hend
            exact ⟨c', by simp [Chain.promoteDeterministic, hl, hr, hc']⟩

theorem updateFeeStats_frame (c : Chain) (fb : Ptr) :
    ∃ fs, c.updateFeeStats fb = { c with FeeStats := fs } := by
  refine ⟨(c.updateFeeStats fb).FeeStats, ?_⟩
  unfold Chain.updateFeeStats
  by_cases h : (c.blocks fb).Txns.length = 0
  · simp [h]
  · simp [h]

/-- The state in which `finalizeBlock` starts its walk towards the latest
deterministic block, once `SaveChanges` has succeeded: the head is advanced to
`fb`, the magic block is installed when there is one and its update succeeds,
the handler is called and the summary is recorded; then the walk and the
pruning run. -/
theorem commitFinalized_inv (fuel : Nat) (c : Chain) (fb : Ptr) (c' : Chain)
    (h : c.commitFinalized fuel fb = .ok c') :
    ∃ c7 c8 : Chain,
      c7.promoteDeterministic fuel (some fb) = .ok c8 ∧ c' = c8.pruneDeadBlocks fb ∧
      c7.blocks = c.blocks ∧ c7.store = c.store ∧
      c7.ThresholdByCount = c.ThresholdByCount ∧
      c7.GetMagicBlock =
        (match (c.blocks fb).MagicBlock with
          | none => c.GetMagicBlock
          | some mb => (c.UpdateMagicBlock c.GetMagicBlock mb).2) ∧
      c7.LatestFinalizedBlock = some fb ∧
      c7.LatestOwnFinalizedBlockRound = (c.blocks fb).Round ∧
      c7.LatestDeterministicBlock = c.LatestDeterministicBlock ∧
      c7.LatestFinalizedMagicBlock =
        (match (c.blocks fb).MagicBlock with
          | none => c.LatestFinalizedMagicBlock
          | some mb =>
            if (c.UpdateMagicBlock c.GetMagicBlock mb).1 = none then some fb
            else c.LatestFinalizedMagicBlock) ∧
      c7.log = c.log ++ [Event.rebaseState fb] ++
        (match (c.blocks fb).MagicBlock with
          | none => []
          | some _ => [Event.updateMagicBlock fb]) ++ [Event.updateFinalizedBlock fb] := by
  obtain ⟨fs, hfs⟩ := updateFeeStats_frame { c with log := c.log ++ [Event.rebaseState fb] } fb
  unfold Chain.commitFinalized at h
  simp only [hfs, Chain.SetLatestOwnFinalizedBlockRound, Chain.SetLatestFinalizedBlock] at h
  cases hmb : (c.blocks fb).MagicBlock with
  | none =>
    simp only [hmb] at h
    split at h
    · cases h
    · next ring hring =>
      split at h
      · cases h
      · next c8 hc8 =>
        simp only [Except.ok.injEq] at h
        exact ⟨_, c8, hc8, h.symm, rfl, rfl, rfl, rfl, rfl, rfl, rfl, rfl, by simp⟩
  | some mb =>
    simp only [hmb] at h
    cases hup : (c.UpdateMagicBlock c.GetMagicBlock mb).1 with
    | some e =>
      simp only [hup] at h
      split at h
      · cases h
      · next ring hring =>
        split at h
        · cases h
        · next c8 hc8 =>
          simp only [Except.ok.injEq] at h
          exact ⟨_, c8, hc8, h.symm, rfl, rfl, rfl, rfl, rfl, rfl, rfl, by simp [hup], by simp⟩
    | none =>
      simp only [hup, Chain.SetLatestFinalizedMagicBlock] at h
      split at h
      · cases h
      · next ring hring =>
        split at h
        · cases h
        · next c8 hc8 =>
          simp only [Except.ok.injEq] at h
          exact ⟨_, c8, hc8, h.symm, rfl, rfl, rfl, rfl, rfl, rfl, rfl, by simp [hup], by simp⟩

theorem walkBack_congr (c d : Chain) (h : d.blocks = c.blocks) (n : Nat) (start : Option Ptr) :
    d.walkBack n start = c.walkBack n start := by
  induction n generalizing start with
  | zero => rfl
  | succ n ih =>
    cases start with
    | none => rfl
    | some p =>
      simp only [Chain.walkBack, h]
      exact ih _

theorem recordSummary_returns (r : Ring) (v : BlockSummary) (h : r.Values.length ≠ 0) :
    ∃ ring, Chain.recordSummary r v = .ok ring := by
  unfold Chain.recordSummary
  simp [h]

/-- With a ring that has slots and a previous-block chain that ends within
`fuel` steps, the committing part of `finalizeBlock` returns. -/
theorem commitFinalized_returns (fuel : Nat) (c : Chain) (fb : Ptr)
    (hring : c.BlockChain.Values.length ≠ 0) (hend : c.walkBack fuel (some fb) = none) :
    ∃ c', c.commitFinalized fuel fb = .ok c' := by
  obtain ⟨fs, hfs⟩ := updateFeeStats_frame { c with log := c.log ++ [Event.rebaseState fb] } fb
  obtain ⟨ring, hr⟩ := recordSummary_returns c.BlockChain (Chain.GetSummary (c.blocks fb)) hring
  unfold Chain.commitFinalized
  simp only [hfs, Chain.SetLatestOwnFinalizedBlockRound, Chain.SetLatestFinalizedBlock]
  have key : ∀ d : Chain, d.blocks = c.blocks → d.LatestFinalizedBlock = some fb →
      ∃ c', (match d.promoteDeterministic fuel (some fb) with
        | .error p => (.error p : Except Abort Chain)
        | .ok c8 => .ok (c8.pruneDeadBlocks fb)) = .ok c' := by
    intro d hd hl
    obtain ⟨c8, hc8⟩ := promoteDeterministic_returns d fuel (some fb) (by simp [hl])
      ((walkBack_congr c d hd fuel (some fb)).trans hend)
    exact ⟨c8.pruneDeadBlocks fb, by simp only [hc8]⟩
  cases hmb : (c.blocks fb).MagicBlock with
  | none =>
    simp only [hmb, hr]
    exact key _ rfl rfl
  | some mb =>
    simp only [hmb]
    cases hup : (c.UpdateMagicBlock c.GetMagicBlock mb).1 with
    | some e =>
      simp only [hup, hr]
      exact key _ rfl rfl
    | none =>
      simp only [hup, hr, Chain.SetLatestFinalizedMagicBlock]
      exact key _ rfl rfl

/-- The method `finalizeBlock` returns when its statistics part does, the ring
of summaries has slots and the previous-block chain of `fb` ends within `fuel`
steps. -/
theorem finalizeBlock_returns (fuel : Nat) (c : Chain) (fb : Ptr) (c1 : Chain)
    (hstats : c.updateMinerStats fb = .ok c1)
    (hring : c.BlockChain.Values.length ≠ 0) (hend : c.walkBack fuel (some fb) = none) :
    ∃ c', c.finalizeBlock fuel fb = .ok c' := by
  obtain ⟨nodes, rfl⟩ := updateMinerStats_frame c fb c1 hstats
  simp only [Chain.finalizeBlock, hstats]
  cases hsave : c.SaveChanges (c.blocks fb) with
  | some e => exact ⟨_, rfl⟩
  | none =>
    have hw := walkBack_congr c
      { c with nodes := nodes,
               log := c.log ++ [Event.updateChainInfo fb, Event.saveChanges fb] }
      rfl fuel (some fb)
    exact commitFinalized_returns fuel _ fb hring (hw.trans hend)

/-- A call of `finalizeBlock` that returns has either stopped at a failure of
`SaveChanges`, with the head, the blocks and the store as before, or has
advanced the head to `fb`, walked towards the latest deterministic block and
pruned. -/
theorem finalizeBlock_inv (fuel : Nat) (c : Chain) (fb : Ptr) (c' : Chain)
    (h : c.finalizeBlock fuel fb = .ok c') :
    (c.SaveChanges (c.blocks fb) ≠ none ∧
      c'.LatestFinalizedBlock = c.LatestFinalizedBlock ∧
      c'.LatestOwnFinalizedBlockRound = c.LatestOwnFinalizedBlockRound ∧
      c'.LatestFinalizedMagicBlock = c.LatestFinalizedMagicBlock ∧
      c'.LatestDeterministicBlock = c.LatestDeterministicBlock ∧
      c'.blocks = c.blocks ∧ c'.store = c.store ∧
      c'.log = c.log ++ [Event.updateChainInfo fb, Event.saveChanges fb]) ∨
    (c.SaveChanges (c.blocks fb) = none ∧ ∃ c7 c8 : Chain,
      c7.promoteDeterministic fuel (some fb) = .ok c8 ∧ c' = c8.pruneDeadBlocks fb ∧
      c7.blocks = c.blocks ∧ c7.store = c.store ∧
      c7.ThresholdByCount = c.ThresholdByCount ∧
      c7.GetMagicBlock =
        (match (c.blocks fb).MagicBlock with
          | none => c.GetMagicBlock
          | some mb => (c.UpdateMagicBlock c.GetMagicBlock mb).2) ∧
      c7.LatestFinalizedBlock = some fb ∧
      c7.LatestOwnFinalizedBlockRound = (c.blocks fb).Round ∧
      c7.LatestDeterministicBlock = c.LatestDeterministicBlock ∧
      c7.LatestFinalizedMagicBlock =
        (match (c.blocks fb).MagicBlock with
          | none => c.LatestFinalizedMagicBlock
          | some mb =>
            if (c.UpdateMagicBlock c.GetMagicBlock mb).1 = none then some fb
            else c.LatestFinalizedMagicBlock) ∧
      c7.log = c.log ++ [Event.updateChainInfo fb, Event.saveChanges fb] ++
        [Event.rebaseState fb] ++
        (match (c.blocks fb).MagicBlock with
          | none => []
          | some _ => [Event.updateMagicBlock fb]) ++ [Event.updateFinalizedBlock fb]) := by
  unfold Chain.finalizeBlock at h
  split at h
  · cases h
  · next c1 hstats =>
    obtain ⟨nodes, rfl⟩ := updateMinerStats_frame c fb c1 hstats
    simp only at h
    cases hsave : c.SaveChanges (c.blocks fb) with
    | some e =>
      simp only [hsave, Except.ok.injEq] at h
      subst h
      exact Or.inl ⟨(fun hn => nomatch hn), rfl, rfl, rfl, rfl, rfl, rfl, rfl⟩
    | none =>
      simp only [hsave] at h
      obtain ⟨c7, c8, h1, h2, h3, h4, h5, h6, h7, h8, h9, h10, h11⟩ :=
        commitFinalized_inv fuel _ fb c' h
      exact Or.inr ⟨rfl, c7, c8, h1, h2, h3, h4, h5, h6, h7, h8, h9, h10, h11⟩

theorem promoteDeterministic_fields (c : Chain) (fuel : Nat) (start : Option Ptr) (c8 : Chain)
    (h : c.promoteDeterministic fuel start = .ok c8) :
    c8.blocks = c.blocks ∧ c8.store = c.store ∧ c8.log = c.log ∧
    c8.LatestFinalizedBlock = c.LatestFinalizedBlock ∧
    c8.LatestOwnFinalizedBlockRound = c.LatestOwnFinalizedBlockRound ∧
    c8.LatestFinalizedMagicBlock = c.LatestFinalizedMagicBlock ∧
    c8.ThresholdByCount = c.ThresholdByCount ∧ c8.GetMagicBlock = c.GetMagicBlock := by
  rcases promoteDeterministic_inv c fuel start c8 h with ⟨_, _, _, rfl, _⟩ | ⟨rfl, _⟩
  · exact ⟨rfl, rfl, rfl, rfl, rfl, rfl, rfl, rfl⟩
  · exact ⟨rfl, rfl, rfl, rfl, rfl, rfl, rfl, rfl⟩

theorem IsFinalizedDeterministically_true (c : Chain) (b : Ptr)
    (h : c.IsFinalizedDeterministically b = .ok true) :
    ∃ l, c.LatestFinalizedBlock = some l ∧ (c.blocks b).Round ≤ (c.blocks l).Round := by
  unfold Chain.IsFinalizedDeterministically at h
  cases hl : c.LatestFinalizedBlock with
  | none => simp [hl] at h
  | some l =>
    refine ⟨l, rfl, ?_⟩
    simp only [hl] at h
    by_contra hlt
    have : (c.blocks l).Round < (c.blocks b).Round := by omega
    simp [this] at h

/-- The state a call of `finalizeBlock` leaves once `SaveChanges` has
succeeded. The head is at `fb`; the latest finalized magic block is `fb` when
`fb` carries a magic block whose update succeeds; rounds and hashes of the
blocks are as before; the latest deterministic block is the first block of the
previous-block chain of `fb`, before the old latest deterministic block, that
is deterministically finalized, if there is one; the blocks of the round ten
steps back whose hash differs from the hash of the block on the chain are
handed to `DeleteBlocks`. -/
theorem finalizeBlock_committed (fuel : Nat) (c : Chain) (fb : Ptr) (c' : Chain)
    (h : c.finalizeBlock fuel fb = .ok c') (hsave : c.SaveChanges (c.blocks fb) = none) :
    c'.LatestFinalizedBlock = some fb ∧
    c'.LatestOwnFinalizedBlockRound = (c.blocks fb).Round ∧
    c'.LatestFinalizedMagicBlock =
      (match (c.blocks fb).MagicBlock with
        | none => c.LatestFinalizedMagicBlock
        | some mb =>
          if (c.UpdateMagicBlock c.GetMagicBlock mb).1 = none then some fb
          else c.LatestFinalizedMagicBlock) ∧
    (∀ p, (c'.blocks p).Round = (c.blocks p).Round ∧ (c'.blocks p).Hash = (c.blocks p).Hash) ∧
    ((∃ n p, c.walkBack n (some fb) = some p ∧ c'.LatestDeterministicBlock = some p ∧
        c'.IsFinalizedDeterministically p = .ok true ∧ some p ≠ c.LatestDeterministicBlock ∧
        ∀ m, m < n → ∀ q, c.walkBack m (some fb) = some q →
          some q ≠ c.LatestDeterministicBlock ∧
            c'.IsFinalizedDeterministically q = .ok false) ∨
      (c'.LatestDeterministicBlock = c.LatestDeterministicBlock ∧
        ∃ n, (c.walkBack n (some fb) = none ∨
            c.walkBack n (some fb) = c.LatestDeterministicBlock) ∧
          ∀ m, m < n → ∀ q, c.walkBack m (some fb) = some q →
            some q ≠ c.LatestDeterministicBlock ∧
              c'.IsFinalizedDeterministically q = .ok false)) ∧
    (c.walkBack 10 (some fb) = none →
      c'.store = c.store ∧ c'.blocks = c.blocks ∧
      c'.log = c.log ++ [Event.updateChainInfo fb, Event.saveChanges fb] ++
        [Event.rebaseState fb] ++
        (match (c.blocks fb).MagicBlock with
          | none => []
          | some _ => [Event.updateMagicBlock fb]) ++ [Event.updateFinalizedBlock fb]) ∧
    (∀ p, c.walkBack 10 (some fb) = some p →
      c'.store = c.store.filter (fun q => decide ((c.blocks q).Hash ∉
        ((c.GetRoundBlocks (c.blocks p).Round).filter
          (fun b => decide ((c.blocks b).Hash ≠ (c.blocks p).Hash))).map
            (fun q => (c.blocks q).Hash))) ∧
      c'.log = c.log ++ [Event.updateChainInfo fb, Event.saveChanges fb] ++
        [Event.rebaseState fb] ++
        (match (c.blocks fb).MagicBlock with
          | none => []
          | some _ => [Event.updateMagicBlock fb]) ++ [Event.updateFinalizedBlock fb] ++
        [Event.deleteBlocks ((c.GetRoundBlocks (c.blocks p).Round).filter
          (fun b => decide ((c.blocks b).Hash ≠ (c.blocks p).Hash)))]) ∧
    (∀ q, c'.IsFinalizedDeterministically q =
      ({ c with
          LatestFinalizedBlock := some fb
          GetMagicBlock :=
            (match (c.blocks fb).MagicBlock with
              | none => c.GetMagicBlock
              | some mb => (c.UpdateMagicBlock c.GetMagicBlock mb).2) }
        ).IsFinalizedDeterministically q) := by
  rcases finalizeBlock_inv fuel c fb c' h with ⟨hne, _⟩ | ⟨_, c7, c8, hprom, hc', hb7, hs7, ht7,
    hg7, hl7, ho7, hd7, hm7, hlog7⟩
  · exact absurd hsave hne
  · obtain ⟨hb8, hs8, hlog8, hl8, ho8, hm8, ht8, hg8⟩ :=
      promoteDeterministic_fields c7 fuel (some fb) c8 hprom
    obtain ⟨pl, po, pm, pd, _, pt, pg, pblocks⟩ := pruneDeadBlocks_frame c8 fb
    have hfd : ∀ q, c'.IsFinalizedDeterministically q = c7.IsFinalizedDeterministically q := by
      intro q
      rw [hc']
      apply IsFinalizedDeterministically_congr
      · rw [pt, ht8]
      · rw [pg, hg8]
      · rw [pl, hl8]
      · intro r
        rw [(pblocks r).1, (pblocks r).2.2, hb8]
        exact ⟨rfl, rfl⟩
    have hw : ∀ n, c7.walkBack n (some fb) = c.walkBack n (some fb) :=
      fun n => walkBack_congr c c7 hb7 n (some fb)
    have hw8 : c8.walkBack 10 (some fb) = c.walkBack 10 (some fb) :=
      walkBack_congr c c8 (hb8.trans hb7) 10 (some fb)
    refine ⟨by rw [hc', pl, hl8, hl7], by rw [hc', po, ho8, ho7], by rw [hc', pm, hm8, hm7],
      ?_, ?_, ?_, ?_, ?_⟩
    · intro r
      rw [hc', (pblocks r).1, (pblocks r).2.1, hb8, hb7]
      exact ⟨rfl, rfl⟩
    · rcases promoteDeterministic_inv c7 fuel (some fb) c8 hprom with
        ⟨n, q, hwq, hc8, hq, hne, hall⟩ | ⟨hc8, n, hwn, hall⟩
      · left
        refine ⟨n, q, (hw n).symm.trans hwq, ?_, (hfd q).trans hq, by rw [← hd7]; exact hne, ?_⟩
        · rw [hc', pd, hc8]
          rfl
        · intro m hm r hr
          have := hall m hm r ((hw m).trans hr)
          exact ⟨by rw [← hd7]; exact this.1, (hfd r).trans this.2⟩
      · right
        refine ⟨by rw [hc', pd, hc8, hd7], n, ?_, ?_⟩
        · rw [← hw n, ← hd7]
          exact hwn
        · intro m hm r hr
          have := hall m hm r ((hw m).trans hr)
          exact ⟨by rw [← hd7]; exact this.1, (hfd r).trans this.2⟩
    · intro hnone
      rw [hc']
      unfold Chain.pruneDeadBlocks
      rw [hw8, hnone]
      exact ⟨hs8.trans hs7, hb8.trans hb7, hlog8.trans hlog7⟩
    · intro p hp
      rw [hc']
      unfold Chain.pruneDeadBlocks
      rw [hw8, hp]
      simp [Chain.DeleteBlocks, Chain.GetRoundBlocks, hb8, hb7, hs8, hs7, hlog8, hlog7]
    · intro q
      rw [hfd q]
      apply IsFinalizedDeterministically_congr
      · exact ht7
      · exact hg7
      · exact hl7
      · intro r
        rw [hb7]
        exact ⟨rfl, rfl⟩

theorem walkBack_none_add (c : Chain) (n k : Nat) (start : Option Ptr)
    (h : c.walkBack n start = none) : c.walkBack (n + k) start = none := by
  induction n generalizing start with
  | zero =>
    simp only [Chain.walkBack] at h
    subst h
    exact walkBack_none c _
  | succ n ih =>
    cases start with
    | none => exact walkBack_none c _
    | some p =>
      have hk : n + 1 + k = (n + k) + 1 := by omega
      rw [hk, walkBack_succ]
      exact ih _ h

/-- The walk of `finalizeBlock` promotes the first block of the chain of `fb`
that is deterministically finalized, when no block before it is the latest
deterministic block. -/
theorem finalizeBlock_promoted (fuel : Nat) (c : Chain) (fb : Ptr) (c' : Chain)
    (h : c.finalizeBlock fuel fb = .ok c') (hsave : c.SaveChanges (c.blocks fb) = none)
    (n : Nat) (p : Ptr) (hw : c.walkBack n (some fb) = some p)
    (hfd : c'.IsFinalizedDeterministically p = .ok true)
    (hne : some p ≠ c.LatestDeterministicBlock)
    (hall : ∀ m, m < n → ∀ q, c.walkBack m (some fb) = some q →
      some q ≠ c.LatestDeterministicBlock ∧ c'.IsFinalizedDeterministically q = .ok false) :
    c'.LatestDeterministicBlock = some p := by
  rcases (finalizeBlock_committed fuel c fb c' h hsave).2.2.2.2.1 with
    ⟨n', p', hw', hld, hfd', _, hall'⟩ | ⟨_, n', hend, hall'⟩
  · rcases Nat.lt_trichotomy n' n with hlt | heq | hgt
    · have := (hall n' hlt p' hw').2
      rw [hfd'] at this
      cases this
    · subst heq
      rw [hw] at hw'
      cases hw'
      exact hld
    · have := (hall' n hgt p hw).2
      rw [hfd] at this
      cases this
  · exfalso
    rcases Nat.lt_or_ge n n' with hlt | hge
    · have := (hall' n hlt p hw).2
      rw [hfd] at this
      cases this
    · have hnone : c.walkBack n' (some fb) = none → False := by
        intro hn
        have := walkBack_none_add c n' (n - n') (some fb) hn
        rw [Nat.add_sub_cancel' hge, hw] at this
        cases this
      rcases hend with hn | hldb
      · exact hnone hn
      · cases hd : c.LatestDeterministicBlock with
        | none =>
          rw [hd] at hldb
          exact hnone hldb
        | some d =>
          rw [hd] at hldb
          rcases Nat.lt_or_eq_of_le hge with hlt | heq
          · exact (hall n' hlt d hldb).1 hd.symm
          · subst heq
            rw [hw] at hldb
            exact hne (hldb.trans hd.symm)

/-- The walk of `finalizeBlock` leaves the latest deterministic block as it is
when it meets that block or the end of the chain of `fb` before any
deterministically finalized block. -/
theorem finalizeBlock_not_promoted (fuel : Nat) (c : Chain) (fb : Ptr) (c' : Chain)
    (h : c.finalizeBlock fuel fb = .ok c') (hsave : c.SaveChanges (c.blocks fb) = none)
    (n : Nat)
    (hend : c.walkBack n (some fb) = none ∨
      c.walkBack n (some fb) = c.LatestDeterministicBlock)
    (hall : ∀ m, m < n → ∀ q, c.walkBack m (some fb) = some q →
      some q ≠ c.LatestDeterministicBlock ∧ c'.IsFinalizedDeterministically q = .ok false) :
    c'.LatestDeterministicBlock = c.LatestDeterministicBlock := by
  rcases (finalizeBlock_committed fuel c fb c' h hsave).2.2.2.2.1 with
    ⟨n', p', hw', _, hfd', hne', hall'⟩ | ⟨hld, _⟩
  · exfalso
    rcases Nat.lt_or_ge n' n with hlt | hge
    · have := (hall n' hlt p' hw').2
      rw [hfd'] at this
      cases this
    · have hnone : c.walkBack n (some fb) = none → False := by
        intro hn
        have := walkBack_none_add c n (n' - n) (some fb) hn
        rw [Nat.add_sub_cancel' hge, hw'] at this
        cases this
      rcases hend with hn | hldb
      · exact hnone hn
      · cases hd : c.LatestDeterministicBlock with
        | none =>
          rw [hd] at hldb
          exact hnone hldb
        | some d =>
          rw [hd] at hldb
          rcases Nat.lt_or_eq_of_le hge with hlt | heq
          · exact (hall' n hlt d hldb).1 hd.symm
          · subst heq
            rw [hw'] at hldb
            exact hne' (hldb.trans hd.symm)
  · exact hld

/-! ## `finalizeBlock` over the head setters -/

theorem advancingSetters_advance : advancingSetters.advance := by
  refine ⟨?_, ?_, ?_⟩
  · intro c r
    simp only [advancingSetters, Chain.SetLatestOwnFinalizedBlockRound]
    by_cases h : c.LatestOwnFinalizedBlockRound ≤ r
    · exact ⟨r, by simp only [if_pos h], Or.inl rfl, h⟩
    · exact ⟨c.LatestOwnFinalizedBlockRound, by simp only [if_neg h], Or.inr rfl, le_refl _⟩
  · intro c b
    simp only [advancingSetters, Chain.SetLatestFinalizedBlock]
    cases hl : c.LatestFinalizedBlock with
    | none => exact ⟨b, rfl, Or.inl rfl, fun l h => nomatch h⟩
    | some l =>
      by_cases h : (c.blocks l).Round ≤ (c.blocks b).Round
      · refine ⟨b, by simp only [if_pos h], Or.inl rfl, ?_⟩
        intro l2 h2
        cases h2
        exact h
      · refine ⟨l, ?_, Or.inr rfl, ?_⟩
        · simp only [if_neg h]
          rw [← hl]
        · intro l2 h2
          cases h2
          exact le_refl _
  · intro c b
    simp only [advancingSetters, Chain.SetLatestDeterministicBlock]
    cases hl : c.LatestDeterministicBlock with
    | none => exact ⟨b, rfl, Or.inl rfl, fun l h => nomatch h⟩
    | some l =>
      by_cases h : (c.blocks l).Round ≤ (c.blocks b).Round
      · refine ⟨b, by simp only [if_pos h], Or.inl rfl, ?_⟩
        intro l2 h2
        cases h2
        exact h
      · refine ⟨l, ?_, Or.inr rfl, ?_⟩
        · simp only [if_neg h]
          rw [← hl]
        · intro l2 h2
          cases h2
          exact le_refl _

theorem promoteDeterministicWith_plain (c : Chain) (fuel : Nat) (start : Option Ptr) :
    c.promoteDeterministicWith plainSetters fuel start = c.promoteDeterministic fuel start := by
  induction fuel generalizing start with
  | zero =>
    cases start with
    | none => rfl
    | some pfb => rfl
  | succ fuel ih =>
    cases start with
    | none => rfl
    | some pfb =>
      simp only [Chain.promoteDeterministicWith, Chain.promoteDeterministic, ih]
      rfl

theorem finalizeBlockWith_plain (fuel : Nat) (c : Chain) (fb : Ptr) :
    c.finalizeBlockWith plainSetters fuel fb = c.finalizeBlock fuel fb := by
  simp only [Chain.finalizeBlockWith, Chain.finalizeBlock, Chain.commitFinalizedWith,
    Chain.commitFinalized, promoteDeterministicWith_plain]
  rfl

theorem promoteDeterministicWith_cases (hs : HeadSetters) (c : Chain) (fuel : Nat)
    (start : Option Ptr) (c' : Chain)
    (h : c.promoteDeterministicWith hs fuel start = .ok c') :
    c' = c ∨ ∃ p, c.IsFinalizedDeterministically p = .ok true ∧
      c' = hs.SetLatestDeterministicBlock c p := by
  induction fuel generalizing start with
  | zero =>
    cases start with
    | none =>
      simp only [Chain.promoteDeterministicWith, Except.ok.injEq] at h
      exact Or.inl h.symm
    | some pfb =>
      by_cases hl : some pfb = c.LatestDeterministicBlock
      · simp only [Chain.promoteDeterministicWith, hl, if_true, Except.ok.injEq] at h
        exact Or.inl h.symm
      · simp [Chain.promoteDeterministicWith, hl] at h
  | succ fuel ih =>
    cases start with
    | none =>
      simp only [Chain.promoteDeterministicWith, Except.ok.injEq] at h
      exact Or.inl h.symm
    | some pfb =>
      by_cases hl : some pfb = c.LatestDeterministicBlock
      · simp only [Chain.promoteDeterministicWith, hl, if_true, Except.ok.injEq] at h
        exact Or.inl h.symm
      · simp only [Chain.promoteDeterministicWith, hl, if_false] at h
        cases hfd : c.IsFinalizedDeterministically pfb with
        | error e => simp [hfd] at h
        | ok r =>
          cases r with
          | true =>
            simp only [hfd, Except.ok.injEq] at h
            exact Or.inr ⟨pfb, hfd, h.symm⟩
          | false =>
            simp only [hfd] at h
            exact ih _ h

theorem promoteDeterministicWith_returns (hs : HeadSetters) (c : Chain) (fuel : Nat)
    (start : Option Ptr)
    (hlfb : c.LatestFinalizedBlock ≠ none) (hend : c.walkBack fuel start = none) :
    ∃ c', c.promoteDeterministicWith hs fuel start = .ok c' := by
  induction fuel generalizing start with
  | zero =>
    simp only [Chain.walkBack] at hend
    subst hend
    exact ⟨c, rfl⟩
  | succ fuel ih =>
    cases start with
    | none => exact ⟨c, rfl⟩
    | some pfb =>
      by_cases hl : some pfb = c.LatestDeterministicBlock
      · exact ⟨c, by simp [Chain.promoteDeterministicWith, hl]⟩
      · cases hlf : c.LatestFinalizedBlock with
        | none => exact absurd hlf hlfb
        | some l =>
          obtain ⟨r, hr⟩ := IsFinalizedDeterministically_returns c pfb l hlf
          cases r with
          | true =>
            exact ⟨hs.SetLatestDeterministicBlock c pfb, by
              simp [Chain.promoteDeterministicWith, hl, hr]⟩
          | false =>
            obtain ⟨c', hc'⟩ := ih (c.blocks pfb).PrevBlock hend
            exact ⟨c', by simp [Chain.promoteDeterministicWith, hl, hr, hc']⟩

theorem advance_ownRound (hs : HeadSetters) (hadv : hs.advance) (c : Chain) (r : Int)
    (c3 : Chain) (h : hs.SetLatestOwnFinalizedBlockRound c r = c3) :
    ∃ r', c3 = { c with LatestOwnFinalizedBlockRound := r' } ∧
      (r' = r ∨ r' = c.LatestOwnFinalizedBlockRound) ∧ c.LatestOwnFinalizedBlockRound ≤ r' :=
  h ▸ hadv.1 c r

theorem advance_finalized (hs : HeadSetters) (hadv : hs.advance) (c : Chain) (b : Ptr)
    (c4 : Chain) (h : hs.SetLatestFinalizedBlock c b = c4) :
    ∃ l', c4 = { c with LatestFinalizedBlock := some l' } ∧
      (l' = b ∨ c.LatestFinalizedBlock = some l') ∧
      ∀ l, c.LatestFinalizedBlock = some l → (c.blocks l).Round ≤ (c.blocks l').Round :=
  h ▸ hadv.2.1 c b

theorem advance_deterministic (hs : HeadSetters) (hadv : hs.advance) (c : Chain) (b : Ptr)
    (c8 : Chain) (h : hs.SetLatestDeterministicBlock c b = c8) :
    ∃ d', c8 = { c with LatestDeterministicBlock := some d' } ∧
      (d' = b ∨ c.LatestDeterministicBlock = some d') ∧
      ∀ d, c.LatestDeterministicBlock = some d → (c.blocks d).Round ≤ (c.blocks d').Round :=
  h ▸ hadv.2.2 c b

/-- The state in which `finalizeBlock` over advancing setters starts its walk
towards the latest deterministic block, once `SaveChanges` has succeeded. -/
theorem commitFinalizedWith_inv (hs : HeadSetters) (hadv : hs.advance) (fuel : Nat) (c : Chain)
    (fb : Ptr) (c' : Chain) (h : c.commitFinalizedWith hs fuel fb = .ok c') :
    ∃ c7 c8 : Chain,
      c7.promoteDeterministicWith hs fuel (some fb) = .ok c8 ∧ c' = c8.pruneDeadBlocks fb ∧
      c7.blocks = c.blocks ∧ c7.ThresholdByCount = c.ThresholdByCount ∧
      c7.LatestDeterministicBlock = c.LatestDeterministicBlock ∧
      c.LatestOwnFinalizedBlockRound ≤ c7.LatestOwnFinalizedBlockRound ∧
      (c7.LatestOwnFinalizedBlockRound = (c.blocks fb).Round ∨
        c7.LatestOwnFinalizedBlockRound = c.LatestOwnFinalizedBlockRound) ∧
      ∃ l', c7.LatestFinalizedBlock = some l' ∧ (l' = fb ∨ c.LatestFinalizedBlock = some l') ∧
        ∀ l, c.LatestFinalizedBlock = some l → (c.blocks l).Round ≤ (c.blocks l').Round := by
  obtain ⟨fs, hfs⟩ := updateFeeStats_frame { c with log := c.log ++ [Event.rebaseState fb] } fb
  unfold Chain.commitFinalizedWith at h
  simp only [hfs] at h
  generalize hc3 : hs.SetLatestOwnFinalizedBlockRound _ _ = c3 at h
  obtain ⟨r', hr', hr1, hr2⟩ := advance_ownRound hs hadv _ _ _ hc3
  subst hr'
  generalize hc4 : hs.SetLatestFinalizedBlock _ _ = c4 at h
  obtain ⟨l', hl', hl1, hl2⟩ := advance_finalized hs hadv _ _ _ hc4
  subst hl'
  cases hmb : (c.blocks fb).MagicBlock with
  | none =>
    simp only [hmb] at h
    split at h
    · cases h
    · next ring hring =>
      split at h
      · cases h
      · next c8 hc8 =>
        simp only [Except.ok.injEq] at h
        exact ⟨_, c8, hc8, h.symm, rfl, rfl, rfl, hr2, hr1, l', rfl, hl1, hl2⟩
  | some mb =>
    simp only [hmb] at h
    cases hup : (c.UpdateMagicBlock c.GetMagicBlock mb).1 with
    | some e =>
      simp only [hup] at h
      split at h
      · cases h
      · next ring hring =>
        split at h
        · cases h
        · next c8 hc8 =>
          simp only [Except.ok.injEq] at h
          exact ⟨_, c8, hc8, h.symm, rfl, rfl, rfl, hr2, hr1, l', rfl, hl1, hl2⟩
    | none =>
      simp only [hup, Chain.SetLatestFinalizedMagicBlock] at h
      split at h
      · cases h
      · next ring hring =>
        split at h
        · cases h
        · next c8 hc8 =>
          simp only [Except.ok.injEq] at h
          exact ⟨_, c8, hc8, h.symm, rfl, rfl, rfl, hr2, hr1, l', rfl, hl1, hl2⟩

/-- With a ring that has slots and a previous-block chain that ends within
`fuel` steps, the committing part of `finalizeBlock` over advancing setters
returns. -/
theorem commitFinalizedWith_returns (hs : HeadSetters) (hadv : hs.advance) (fuel : Nat)
    (c : Chain) (fb : Ptr)
    (hring : c.BlockChain.Values.length ≠ 0) (hend : c.walkBack fuel (some fb) = none) :
    ∃ c', c.commitFinalizedWith hs fuel fb = .ok c' := by
  obtain ⟨fs, hfs⟩ := updateFeeStats_frame { c with log := c.log ++ [Event.rebaseState fb] } fb
  obtain ⟨ring, hr⟩ := recordSummary_returns c.BlockChain (Chain.GetSummary (c.blocks fb)) hring
  have key : ∀ (d : Chain) (l' : Ptr), d.blocks = c.blocks → d.LatestFinalizedBlock = some l' →
      ∃ c', (match d.promoteDeterministicWith hs fuel (some fb) with
        | .error p => (.error p : Except Abort Chain)
        | .ok c8 => .ok (c8.pruneDeadBlocks fb)) = .ok c' := by
    intro d l' hd hl
    obtain ⟨c8, hc8⟩ := promoteDeterministicWith_returns hs d fuel (some fb) (by simp [hl])
      ((walkBack_congr c d hd fuel (some fb)).trans hend)
    exact ⟨c8.pruneDeadBlocks fb, by simp only [hc8]⟩
  unfold Chain.commitFinalizedWith
  simp only [hfs]
  generalize hc3 : hs.SetLatestOwnFinalizedBlockRound _ _ = c3
  obtain ⟨r', hr', -, -⟩ := advance_ownRound hs hadv _ _ _ hc3
  generalize hc4 : hs.SetLatestFinalizedBlock _ _ = c4
  obtain ⟨l', hl', -, -⟩ := advance_finalized hs hadv _ _ _ hc4
  clear hc3 hc4
  subst hl'
  subst hr'
  simp only []
  cases hmb : (c.blocks fb).MagicBlock with
  | none =>
    simp only [hr]
    exact key _ l' rfl rfl
  | some mb =>
    simp only []
    cases hup : (c.UpdateMagicBlock c.GetMagicBlock mb).1 with
    | some e =>
      simp only [hr]
      exact key _ l' rfl rfl
    | none =>
      simp only [hr, Chain.SetLatestFinalizedMagicBlock]
      exact key _ l' rfl rfl

/-- The method `finalizeBlock` over advancing setters returns when its
statistics part does, the ring of summaries has slots and the previous-block
chain of `fb` ends within `fuel` steps. -/
theorem finalizeBlockWith_returns (hs : HeadSetters) (hadv : hs.advance) (fuel : Nat)
    (c : Chain) (fb : Ptr) (c1 : Chain)
    (hstats : c.updateMinerStats fb = .ok c1)
    (hring : c.BlockChain.Values.length ≠ 0) (hend : c.walkBack fuel (some fb) = none) :
    ∃ c', c.finalizeBlockWith hs fuel fb = .ok c' := by
  obtain ⟨nodes, rfl⟩ := updateMinerStats_frame c fb c1 hstats
  simp only [Chain.finalizeBlockWith, hstats]
  cases hsave : c.SaveChanges (c.blocks fb) with
  | some e => exact ⟨_, rfl⟩
  | none =>
    have hw := walkBack_congr c
      { c with nodes := nodes,
               log := c.log ++ [Event.updateChainInfo fb, Event.saveChanges fb] }
      rfl fuel (some fb)
    exact commitFinalizedWith_returns hs hadv fuel _ fb hring (hw.trans hend)

/-- The heads after a call of `finalizeBlock` over advancing setters that
returns. There was a latest finalized block; the rounds of the blocks are as
before; the latest own finalized block round is as before or `fb.Round`, and
not lower than before; the latest finalized block is as before or `fb`, of a
round not lower than before; the latest deterministic block is as before or a
deterministically finalized block whose round does not exceed the round of
the latest finalized block, and is not demoted; when `SaveChanges` has failed
the three heads are as before. -/
theorem finalizeBlockWith_heads (hs : HeadSetters) (hadv : hs.advance) (fuel : Nat)
    (c : Chain) (fb : Ptr) (c' : Chain) (h : c.finalizeBlockWith hs fuel fb = .ok c') :
    (∀ p, (c'.blocks p).Round = (c.blocks p).Round) ∧
    c.LatestOwnFinalizedBlockRound ≤ c'.LatestOwnFinalizedBlockRound ∧
    (c'.LatestOwnFinalizedBlockRound = (c.blocks fb).Round ∨
      c'.LatestOwnFinalizedBlockRound = c.LatestOwnFinalizedBlockRound) ∧
    (∃ l l', c.LatestFinalizedBlock = some l ∧ c'.LatestFinalizedBlock = some l' ∧
      (l' = fb ∨ l' = l) ∧ (c.blocks l).Round ≤ (c.blocks l').Round) ∧
    (c.SaveChanges (c.blocks fb) ≠ none →
      c'.LatestFinalizedBlock = c.LatestFinalizedBlock ∧
      c'.LatestOwnFinalizedBlockRound = c.LatestOwnFinalizedBlockRound ∧
      c'.LatestDeterministicBlock = c.LatestDeterministicBlock) ∧
    (c'.LatestDeterministicBlock = c.LatestDeterministicBlock ∨
      ∃ d' l', c'.LatestDeterministicBlock = some d' ∧ c'.LatestFinalizedBlock = some l' ∧
        (c.blocks d').Round ≤ (c.blocks l').Round) ∧
    (∀ d, c.LatestDeterministicBlock = some d →
      ∃ d', c'.LatestDeterministicBlock = some d' ∧
        (c.blocks d).Round ≤ (c.blocks d').Round) := by
  unfold Chain.finalizeBlockWith at h
  split at h
  · cases h
  · next c1 hstats =>
    have hlfb : ∃ l, c.LatestFinalizedBlock = some l := by
      unfold Chain.updateMinerStats at hstats
      cases hl : c.LatestFinalizedBlock with
      | none => simp [hl] at hstats
      | some l => exact ⟨l, rfl⟩
    obtain ⟨l, hl⟩ := hlfb
    obtain ⟨nodes, rfl⟩ := updateMinerStats_frame c fb c1 hstats
    simp only at h
    cases hsave : c.SaveChanges (c.blocks fb) with
    | some e =>
      simp only [hsave, Except.ok.injEq] at h
      subst h
      exact ⟨fun _ => rfl, le_refl _, Or.inr rfl, ⟨l, l, hl, hl, Or.inr rfl, le_refl _⟩,
        fun _ => ⟨rfl, rfl, rfl⟩, Or.inl rfl, fun d hd => ⟨d, hd, le_refl _⟩⟩
    | none =>
      simp only [hsave] at h
      obtain ⟨c7, c8, h78, hc', hb7, -, hd7, ho1, ho2, l', hl7, hl1, hl2⟩ :=
        commitFinalizedWith_inv hs hadv fuel _ fb c' h
      have hl2c : (c.blocks l).Round ≤ (c.blocks l').Round := hl2 l hl
      have hl1c : l' = fb ∨ l' = l := by
        rcases hl1 with h1 | h1
        · exact Or.inl h1
        · have h2 : c.LatestFinalizedBlock = some l' := h1
          rw [hl] at h2
          exact Or.inr (Option.some.inj h2).symm
      obtain ⟨hpl, hpo, -, hpd, -, -, -, hpr⟩ := pruneDeadBlocks_frame c8 fb
      rw [← hc'] at hpl hpo hpd hpr
      have hb7c : c7.blocks = c.blocks := hb7
      have hd7c : c7.LatestDeterministicBlock = c.LatestDeterministicBlock := hd7
      rcases promoteDeterministicWith_cases hs c7 fuel (some fb) c8 h78 with h8 | ⟨p, hfd, h8⟩
      · subst h8
        refine ⟨?_, ?_, ?_, ⟨l, l', hl, hpl.trans hl7, hl1c, hl2c⟩, ?_, ?_, ?_⟩
        · intro q
          rw [(hpr q).1, hb7c]
        · rw [hpo]
          exact ho1
        · rw [hpo]
          exact ho2
        · intro hne
          exact absurd rfl hne
        · exact Or.inl (hpd.trans hd7c)
        · intro d hd
          exact ⟨d, (hpd.trans hd7c).trans hd, le_refl _⟩
      · obtain ⟨d', hd8, hd1, hd2⟩ := advance_deterministic hs hadv _ _ _ h8.symm
        subst hd8
        have hpl2 : c'.LatestFinalizedBlock = some l' := hpl.trans hl7
        have hpd2 : c'.LatestDeterministicBlock = some d' := hpd
        refine ⟨?_, ?_, ?_, ⟨l, l', hl, hpl2, hl1c, hl2c⟩, ?_, ?_, ?_⟩
        · intro q
          rw [(hpr q).1]
          show (c7.blocks q).Round = _
          rw [hb7c]
        · rw [hpo]
          exact ho1
        · rw [hpo]
          exact ho2
        · intro hne
          exact absurd rfl hne
        · rcases hd1 with hd1 | hd1
          · subst hd1
            obtain ⟨l2, hl2', hle⟩ := IsFinalizedDeterministically_true c7 d' hfd
            rw [hl7] at hl2'
            cases hl2'
            rw [hb7c] at hle
            exact Or.inr ⟨d', l', hpd2, hpl2, hle⟩
          · exact Or.inl (hpd2.trans (hd1.symm.trans hd7c))
        · intro d hd
          refine ⟨d', hpd2, ?_⟩
          have := hd2 d (hd7c.trans hd)
          rw [hb7c] at this
          exact this

/-! ## The head after `finalizeBlock` -/

/-- Claim C11, for head setters as the spec describes them (their code is
outside the sources): each changes its own head only, sets it to its argument
or leaves it, and does not lower its round. `finalizeBlock` over the plain
assignments is `Chain.finalizeBlock`. Over such setters a call of
`finalizeBlock(fb)` returns when its statistics part does, the ring has slots
and the chain of `fb` ends within the fuel. After a call that returns, for
every chain and every block `fb`: the rounds of the blocks are as before, the
latest own finalized block round is at least its value before the call, and
the round of the latest finalized block is at least the round of the latest
finalized block before the call; when `SaveChanges` has failed both are as
before. -/
theorem finalizeBlock_advances (hs : HeadSetters) (hadv : hs.advance) (fuel : Nat) (c : Chain)
    (fb : Ptr) :
    c.finalizeBlockWith plainSetters fuel fb = c.finalizeBlock fuel fb ∧
    (∀ c1, c.updateMinerStats fb = .ok c1 → c.BlockChain.Values.length ≠ 0 →
      c.walkBack fuel (some fb) = none → ∃ c', c.finalizeBlockWith hs fuel fb = .ok c') ∧
    (∀ c', c.finalizeBlockWith hs fuel fb = .ok c' →
      (∀ p, (c'.blocks p).Round = (c.blocks p).Round) ∧
      c.LatestOwnFinalizedBlockRound ≤ c'.LatestOwnFinalizedBlockRound ∧
      (∃ l l', c.LatestFinalizedBlock = some l ∧ c'.LatestFinalizedBlock = some l' ∧
        (l' = fb ∨ l' = l) ∧ (c.blocks l).Round ≤ (c'.blocks l').Round) ∧
      (c.SaveChanges (c.blocks fb) ≠ none →
        c'.LatestFinalizedBlock = c.LatestFinalizedBlock ∧
        c'.LatestOwnFinalizedBlockRound = c.LatestOwnFinalizedBlockRound)) := by
  refine ⟨finalizeBlockWith_plain fuel c fb,
    fun c1 h1 h2 h3 => finalizeBlockWith_returns hs hadv fuel c fb c1 h1 h2 h3, ?_⟩
  intro c' h
  obtain ⟨hr, ho, -, ⟨l, l', hl, hl', hor, hle⟩, hfail, -, -⟩ :=
    finalizeBlockWith_heads hs hadv fuel c fb c' h
  refine ⟨hr, ho, ⟨l, l', hl, hl', hor, ?_⟩, fun hne => ⟨(hfail hne).1, (hfail hne).2.1⟩⟩
  rw [hr l']
  exact hle

/-- Witness of C11: over the setters that assign unless the round would be
lowered, finalizing block `2` of round 3 on the sample chain, whose latest
finalized block is block `0` of round 5, leaves a latest finalized block of
round at least 5 and a latest own finalized block round of at least 5. -/
theorem finalizeBlock_advances_witness :
    (sampleChain 3 0).LatestFinalizedBlock = some 0 ∧ ((sampleChain 3 0).blocks 0).Round = 5 ∧
    ((sampleChain 3 0).blocks 2).Round = 3 ∧
    ∃ c', (sampleChain 3 0).finalizeBlockWith advancingSetters 1 2 = .ok c' ∧
      5 ≤ c'.LatestOwnFinalizedBlockRound ∧
      ∃ l', c'.LatestFinalizedBlock = some l' ∧ 5 ≤ (c'.blocks l').Round := by
  have hthm := finalizeBlock_advances advancingSetters advancingSetters_advance 1
    (sampleChain 3 0) 2
  obtain ⟨c', h⟩ := hthm.2.1 (sampleChain 3 0) rfl (by decide) rfl
  obtain ⟨-, ho, ⟨l, l', hl, hl', -, hle⟩, -⟩ := hthm.2.2 c' h
  cases hl
  exact ⟨rfl, rfl, rfl, c', h, ho, l', hl', hle⟩

/-! ## The latest deterministic block after `finalizeBlock` -/

theorem linkedChain_returns : ∃ c', linkedChain.finalizeBlock 20 112 = .ok c' :=
  finalizeBlock_returns 20 linkedChain 112 linkedChain rfl (by decide) rfl

/-- On the linked chain, finalizing block `112` promotes block `101`, eleven
steps back. -/
theorem linkedChain_promotes (c' : Chain) (h : linkedChain.finalizeBlock 20 112 = .ok c') :
    c'.LatestDeterministicBlock = some 101 := by
  have hview := (finalizeBlock_committed 20 linkedChain 112 c' h rfl).2.2.2.2.2.2.2
  refine finalizeBlock_promoted 20 linkedChain 112 c' h rfl 11 101 rfl ?_ (by decide) ?_
  · rw [hview]
    rfl
  · intro m hm q hq
    rw [hview]
    interval_cases m <;> cases hq <;> exact ⟨by decide, rfl⟩

/-- Claim C12, for head setters as the spec describes them (their code is
outside the sources): each changes its own head only, sets it to its argument
or leaves it, and does not lower its round. `finalizeBlock` over the plain
assignments is `Chain.finalizeBlock`. Over such setters a call of
`finalizeBlock(fb)` returns when its statistics part does, the ring has slots
and the chain of `fb` ends within the fuel. After a call that returns, for
every chain and every block `fb`: the latest deterministic block is not
demoted, its round is at least its round before the call; a latest
deterministic block that the call has changed has a round that does not
exceed the round of the latest finalized block; and if the round of the
latest deterministic block did not exceed the round of the latest finalized
block before the call, it does not exceed it after the call. -/
theorem finalizeBlock_deterministic_kept (hs : HeadSetters) (hadv : hs.advance) (fuel : Nat)
    (c : Chain) (fb : Ptr) :
    c.finalizeBlockWith plainSetters fuel fb = c.finalizeBlock fuel fb ∧
    (∀ c1, c.updateMinerStats fb = .ok c1 → c.BlockChain.Values.length ≠ 0 →
      c.walkBack fuel (some fb) = none → ∃ c', c.finalizeBlockWith hs fuel fb = .ok c') ∧
    (∀ c', c.finalizeBlockWith hs fuel fb = .ok c' →
      (∀ d, c.LatestDeterministicBlock = some d →
        ∃ d', c'.LatestDeterministicBlock = some d' ∧
          (c.blocks d).Round ≤ (c'.blocks d').Round) ∧
      (c'.LatestDeterministicBlock ≠ c.LatestDeterministicBlock →
        ∃ d' l', c'.LatestDeterministicBlock = some d' ∧ c'.LatestFinalizedBlock = some l' ∧
          (c'.blocks d').Round ≤ (c'.blocks l').Round) ∧
      ((∀ d l, c.LatestDeterministicBlock = some d → c.LatestFinalizedBlock = some l →
          (c.blocks d).Round ≤ (c.blocks l).Round) →
        ∀ d' l', c'.LatestDeterministicBlock = some d' → c'.LatestFinalizedBlock = some l' →
          (c'.blocks d').Round ≤ (c'.blocks l').Round)) := by
  refine ⟨finalizeBlockWith_plain fuel c fb,
    fun c1 h1 h2 h3 => finalizeBlockWith_returns hs hadv fuel c fb c1 h1 h2 h3, ?_⟩
  intro c' h
  obtain ⟨hr, -, -, ⟨l, l', hl, hl', -, hle⟩, -, hdet, hkept⟩ :=
    finalizeBlockWith_heads hs hadv fuel c fb c' h
  refine ⟨?_, ?_, ?_⟩
  · intro d hd
    obtain ⟨d', hd', hle'⟩ := hkept d hd
    exact ⟨d', hd', by rw [hr d']; exact hle'⟩
  · intro hne
    rcases hdet with hsame | ⟨d2, l2, hd2, hl2, hle2⟩
    · exact absurd hsame hne
    · exact ⟨d2, l2, hd2, hl2, by rw [hr d2, hr l2]; exact hle2⟩
  · intro hbefore d2 l2 hd2 hl2
    rw [hr d2, hr l2]
    rcases hdet with hsame | ⟨d3, l3, hd3, hl3, hle3⟩
    · rw [hl'] at hl2
      cases hl2
      rw [hsame] at hd2
      exact le_trans (hbefore d2 l hd2 hl) hle
    · rw [hd3] at hd2
      rw [hl3] at hl2
      cases hd2
      cases hl2
      exact hle3

/-- Witness of C12: over the setters that assign unless the round would be
lowered, finalizing block `2` of round 3 on the settled chain, whose latest
deterministic and latest finalized block are block `0` of round 5, leaves a
latest deterministic block of round at least 5 that does not exceed the round
of the latest finalized block. -/
theorem finalizeBlock_deterministic_kept_witness :
    settledChain.LatestDeterministicBlock = some 0 ∧
    settledChain.LatestFinalizedBlock = some 0 ∧ (settledChain.blocks 0).Round = 5 ∧
    ∃ c', settledChain.finalizeBlockWith advancingSetters 1 2 = .ok c' ∧
      (∃ d', c'.LatestDeterministicBlock = some d' ∧ 5 ≤ (c'.blocks d').Round) ∧
      ∀ d' l', c'.LatestDeterministicBlock = some d' → c'.LatestFinalizedBlock = some l' →
        (c'.blocks d').Round ≤ (c'.blocks l').Round := by
  have hthm := finalizeBlock_deterministic_kept advancingSetters advancingSetters_advance 1
    settledChain 2
  obtain ⟨c', h⟩ := hthm.2.1 settledChain rfl (by decide) rfl
  obtain ⟨h1, -, h3⟩ := hthm.2.2 c' h
  refine ⟨rfl, rfl, rfl, c', h, h1 0 rfl, h3 ?_⟩
  intro d l hd hl
  cases hd
  cases hl
  exact le_refl _

/-- C13, as the code has it. A call of `finalizeBlock(fb)` returns when its
statistics part does, the ring has slots and the chain of `fb` ends within the
fuel. After a call that returns with `SaveChanges` succeeded, the pass has
walked back from `fb` along the previous-block links, for any number of
steps, and has checked every block it met, `fb` first: either it has met, at
some depth `n`, a block that is deterministically finalized, no block before
it being so or being the old latest deterministic block, and this first such
block is the latest deterministic block now; or it has met the old latest
deterministic block or the end of the chain before any such block, and the
latest deterministic block is as before. -/
theorem finalizeBlock_finality_pass (fuel : Nat) (c : Chain) (fb : Ptr) :
    (∀ c1, c.updateMinerStats fb = .ok c1 → c.BlockChain.Values.length ≠ 0 →
      c.walkBack fuel (some fb) = none → ∃ c', c.finalizeBlock fuel fb = .ok c') ∧
    (∀ c', c.finalizeBlock fuel fb = .ok c' → c.SaveChanges (c.blocks fb) = none →
      (∃ n p, c.walkBack n (some fb) = some p ∧ c'.LatestDeterministicBlock = some p ∧
        c'.IsFinalizedDeterministically p = .ok true ∧ some p ≠ c.LatestDeterministicBlock ∧
        ∀ m, m < n → ∀ q, c.walkBack m (some fb) = some q →
          some q ≠ c.LatestDeterministicBlock ∧
            c'.IsFinalizedDeterministically q = .ok false) ∨
      (c'.LatestDeterministicBlock = c.LatestDeterministicBlock ∧
        ∃ n, (c.walkBack n (some fb) = none ∨
            c.walkBack n (some fb) = c.LatestDeterministicBlock) ∧
          ∀ m, m < n → ∀ q, c.walkBack m (some fb) = some q →
            some q ≠ c.LatestDeterministicBlock ∧
              c'.IsFinalizedDeterministically q = .ok false)) ∧
    (∀ c', c.finalizeBlock fuel fb = .ok c' → c.SaveChanges (c.blocks fb) = none →
      ∀ n p, c.walkBack n (some fb) = some p →
        c'.IsFinalizedDeterministically p = .ok true → some p ≠ c.LatestDeterministicBlock →
        (∀ m, m < n → ∀ q, c.walkBack m (some fb) = some q →
          some q ≠ c.LatestDeterministicBlock ∧
            c'.IsFinalizedDeterministically q = .ok false) →
        c'.LatestDeterministicBlock = some p) :=
  ⟨fun c1 h1 h2 h3 => finalizeBlock_returns fuel c fb c1 h1 h2 h3,
    fun c' h hs => (finalizeBlock_committed fuel c fb c' h hs).2.2.2.2.1,
    fun c' h hs n p hw hfd hne hall => finalizeBlock_promoted fuel c fb c' h hs n p hw hfd hne hall⟩

/-- Witness of C13: on the settled chain, finalizing block `B1`, which has no
extension and no previous block, leaves the latest deterministic block as it
was. -/
theorem finalizeBlock_finality_pass_witness :
    ∃ c', settledChain.finalizeBlock 1 1 = .ok c' ∧
      ((∃ n p, settledChain.walkBack n (some 1) = some p ∧
          c'.LatestDeterministicBlock = some p ∧
          c'.IsFinalizedDeterministically p = .ok true ∧
          some p ≠ settledChain.LatestDeterministicBlock ∧
          ∀ m, m < n → ∀ q, settledChain.walkBack m (some 1) = some q →
            some q ≠ settledChain.LatestDeterministicBlock ∧
              c'.IsFinalizedDeterministically q = .ok false) ∨
        (c'.LatestDeterministicBlock = settledChain.LatestDeterministicBlock ∧
          ∃ n, (settledChain.walkBack n (some 1) = none ∨
              settledChain.walkBack n (some 1) = settledChain.LatestDeterministicBlock) ∧
            ∀ m, m < n → ∀ q, settledChain.walkBack m (some 1) = some q →
              some q ≠ settledChain.LatestDeterministicBlock ∧
                c'.IsFinalizedDeterministically q = .ok false)) :=
  let ⟨c', h⟩ := (finalizeBlock_finality_pass 1 settledChain 1).1 settledChain rfl
    (by decide) rfl
  ⟨c', h, (finalizeBlock_finality_pass 1 settledChain 1).2.1 c' h rfl⟩

/-- Counterexample to C13 as stated: on the linked chain, finalizing block
`112` promotes block `101`, which is eleven previous-block steps back, while
the block ten steps back, block `102`, is not deterministically finalized and
is not promoted. -/
theorem finalizeBlock_walks_past_ten :
    linkedChain.walkBack 10 (some 112) = some 102 ∧
    linkedChain.walkBack 11 (some 112) = some 101 ∧
    ∃ c', linkedChain.finalizeBlock 20 112 = .ok c' ∧
      c'.IsFinalizedDeterministically 102 = .ok false ∧
      c'.LatestDeterministicBlock = some 101 := by
  obtain ⟨c', h⟩ := linkedChain_returns
  have hview := (finalizeBlock_committed 20 linkedChain 112 c' h rfl).2.2.2.2.2.2.2
  refine ⟨rfl, rfl, c', h, ?_, linkedChain_promotes c' h⟩
  rw [hview]
  rfl

/-! ## Pruning and the magic block in `finalizeBlock` -/

/-- C14. A call of `finalizeBlock(fb)` returns when its statistics part does,
the ring has slots and the chain of `fb` ends within the fuel. After a call
that returns with `SaveChanges` succeeded, let `p` be the block ten
previous-block steps back from `fb`. If `p` exists, the call has handed to
`DeleteBlocks`, once, exactly the blocks of `GetRoundBlocks(p.Round)` whose
hash differs from the hash of `p`; the store has lost the entries of those
hashes; `p` is still in the store if it was; and every block left in the store
at the round of `p` has the hash of `p`. If fewer than ten predecessors are
linked, `DeleteBlocks` is not called and the store and the blocks are as
before. -/
theorem finalizeBlock_prune (fuel : Nat) (c : Chain) (fb : Ptr) :
    (∀ c1, c.updateMinerStats fb = .ok c1 → c.BlockChain.Values.length ≠ 0 →
      c.walkBack fuel (some fb) = none → ∃ c', c.finalizeBlock fuel fb = .ok c') ∧
    (∀ c', c.finalizeBlock fuel fb = .ok c' → c.SaveChanges (c.blocks fb) = none →
      (∀ p dead, c.walkBack 10 (some fb) = some p →
        dead = (c.GetRoundBlocks (c.blocks p).Round).filter
          (fun b => decide ((c.blocks b).Hash ≠ (c.blocks p).Hash)) →
        (∃ mid, c'.log = c.log ++ mid ++ [Event.deleteBlocks dead] ∧
          ∀ d, Event.deleteBlocks d ∉ mid) ∧
        c'.store = c.store.filter
          (fun q => decide ((c.blocks q).Hash ∉ dead.map (fun q => (c.blocks q).Hash))) ∧
        (p ∈ c.store → p ∈ c'.store) ∧
        (∀ q, q ∈ c'.store → (c'.blocks q).Round = (c'.blocks p).Round →
          (c'.blocks q).Hash = (c'.blocks p).Hash)) ∧
      (c.walkBack 10 (some fb) = none →
        c'.store = c.store ∧ c'.blocks = c.blocks ∧
        ∀ d, Event.deleteBlocks d ∈ c'.log → Event.deleteBlocks d ∈ c.log)) := by
  refine ⟨fun c1 h1 h2 h3 => finalizeBlock_returns fuel c fb c1 h1 h2 h3, ?_⟩
  intro c' h hs
  obtain ⟨_, _, _, hrounds, _, hnone, hsome, _⟩ := finalizeBlock_committed fuel c fb c' h hs
  constructor
  · intro p dead hp hdead
    obtain ⟨hstore, hlog⟩ := hsome p hp
    rw [← hdead] at hstore hlog
    have hmem : ∀ q, q ∈ dead ↔ q ∈ c.store ∧ (c.blocks q).Round = (c.blocks p).Round ∧
        (c.blocks q).Hash ≠ (c.blocks p).Hash := by
      intro q
      rw [hdead]
      simp only [Chain.GetRoundBlocks, List.mem_filter, decide_eq_true_eq]
      constructor
      · rintro ⟨⟨h1, h2⟩, h3⟩
        exact ⟨h1, h2, h3⟩
      · rintro ⟨h1, h2, h3⟩
        exact ⟨⟨h1, h2⟩, h3⟩
    refine ⟨?_, hstore, ?_, ?_⟩
    · refine ⟨[Event.updateChainInfo fb, Event.saveChanges fb] ++ [Event.rebaseState fb] ++
        (match (c.blocks fb).MagicBlock with
          | none => []
          | some _ => [Event.updateMagicBlock fb]) ++ [Event.updateFinalizedBlock fb], ?_, ?_⟩
      · rw [hlog]
        simp only [List.append_assoc]
      · intro d hd
        cases hmb : (c.blocks fb).MagicBlock <;> simp [hmb] at hd
    · intro hin
      rw [hstore]
      refine List.mem_filter.2 ⟨hin, ?_⟩
      simp only [decide_eq_true_eq, List.mem_map, not_exists, not_and]
      intro q hq heq
      exact ((hmem q).1 hq).2.2 heq
    · intro q hq hround
      rw [hstore] at hq
      obtain ⟨hin, hnot⟩ := List.mem_filter.1 hq
      simp only [decide_eq_true_eq, List.mem_map, not_exists, not_and] at hnot
      rw [(hrounds q).2, (hrounds p).2]
      rw [(hrounds q).1, (hrounds p).1] at hround
      by_contra hne
      exact hnot q ((hmem q).2 ⟨hin, hround, hne⟩) rfl
  · intro hw
    obtain ⟨hstore, hblocks, hlog⟩ := hnone hw
    refine ⟨hstore, hblocks, ?_⟩
    intro d hd
    rw [hlog] at hd
    cases hmb : (c.blocks fb).MagicBlock <;> simpa [hmb] using hd

/-- Witness of C14 (scenario S6): on the linked chain, whose store holds the
blocks `102` and `120` at round 2, finalizing block `112` hands block `120` to
`DeleteBlocks` and keeps block `102`, the block ten steps back. -/
theorem finalizeBlock_prune_witness :
    ∃ c', linkedChain.finalizeBlock 20 112 = .ok c' ∧
      (∃ mid, c'.log = linkedChain.log ++ mid ++ [Event.deleteBlocks [120]] ∧
        ∀ d, Event.deleteBlocks d ∉ mid) ∧
      c'.store = [102, 112, 121] :=
  let ⟨c', h⟩ := (finalizeBlock_prune 20 linkedChain 112).1 linkedChain rfl (by decide) rfl
  have hp := ((finalizeBlock_prune 20 linkedChain 112).2 c' h rfl).1 102 [120] rfl (by decide)
  ⟨c', h, hp.1, hp.2.1.trans (by decide)⟩

/-- C15. A call of `finalizeBlock(fb)` returns when its statistics part does,
the ring has slots and the chain of `fb` ends within the fuel. After a call
that returns: when `SaveChanges` has failed, the latest finalized magic block
and the latest finalized block are as before; when it has succeeded, the
latest finalized block is `fb`, and the latest finalized magic block is `fb`
if `fb` carries a magic block and `UpdateMagicBlock` returns no error, and is
as before if `fb` carries no magic block or `UpdateMagicBlock` returns an
error. -/
theorem finalizeBlock_magicBlock (fuel : Nat) (c : Chain) (fb : Ptr) :
    (∀ c1, c.updateMinerStats fb = .ok c1 → c.BlockChain.Values.length ≠ 0 →
      c.walkBack fuel (some fb) = none → ∃ c', c.finalizeBlock fuel fb = .ok c') ∧
    (∀ c', c.finalizeBlock fuel fb = .ok c' →
      (c.SaveChanges (c.blocks fb) ≠ none →
        c'.LatestFinalizedMagicBlock = c.LatestFinalizedMagicBlock ∧
        c'.LatestFinalizedBlock = c.LatestFinalizedBlock) ∧
      (c.SaveChanges (c.blocks fb) = none →
        c'.LatestFinalizedBlock = some fb ∧
        ((c.blocks fb).MagicBlock = none →
          c'.LatestFinalizedMagicBlock = c.LatestFinalizedMagicBlock) ∧
        (∀ mb, (c.blocks fb).MagicBlock = some mb →
          (c.UpdateMagicBlock c.GetMagicBlock mb).1 = none →
          c'.LatestFinalizedMagicBlock = some fb) ∧
        (∀ mb e, (c.blocks fb).MagicBlock = some mb →
          (c.UpdateMagicBlock c.GetMagicBlock mb).1 = some e →
          c'.LatestFinalizedMagicBlock = c.LatestFinalizedMagicBlock))) := by
  refine ⟨fun c1 h1 h2 h3 => finalizeBlock_returns fuel c fb c1 h1 h2 h3, ?_⟩
  intro c' h
  constructor
  · intro hne
    rcases finalizeBlock_inv fuel c fb c' h with ⟨_, hl, _, hm, _⟩ | ⟨hs, _⟩
    · exact ⟨hm, hl⟩
    · exact absurd hs hne
  · intro hs
    obtain ⟨hl, _, hm, _⟩ := finalizeBlock_committed fuel c fb c' h hs
    refine ⟨hl, ?_, ?_, ?_⟩
    · intro hmb
      rw [hm, hmb]
    · intro mb hmb hup
      rw [hm, hmb]
      simp [hup]
    · intro mb e hmb hup
      rw [hm, hmb]
      simp [hup]

/-- Witness of C15: on the sample chain whose block `1` carries a magic block
the update of which fails, finalizing block `1` advances the latest finalized
block to it and leaves the latest finalized magic block as it was. -/
theorem finalizeBlock_magicBlock_witness :
    ∃ c', (magicChain true).finalizeBlock 1 1 = .ok c' ∧
      c'.LatestFinalizedBlock = some 1 ∧
      c'.LatestFinalizedMagicBlock = (magicChain true).LatestFinalizedMagicBlock :=
  let ⟨c', h⟩ := (finalizeBlock_magicBlock 1 (magicChain true) 1).1 (magicChain true) rfl
    (by decide) rfl
  have hm := ((finalizeBlock_magicBlock 1 (magicChain true) 1).2 c' h).2 rfl
  ⟨c', h, hm.1, hm.2.2.2 { StartingRound := 10, Miners := sampleMiners }
    (NewError "update_magic_block" "failed") rfl rfl⟩

/-! ## `GetPreviousBlock` -/

/-- What `SetPreviousBlock` leaves alone: hashes, previous hashes, rounds and
state flags of all blocks. -/
theorem SetPreviousBlock_frame (c : Chain) (b pb : Ptr) (c' : Chain)
    (h : c.SetPreviousBlock b pb = .ok c') :
    (∀ p, (c'.blocks p).Hash = (c.blocks p).Hash ∧
      (c'.blocks p).PrevHash = (c.blocks p).PrevHash ∧
      (c'.blocks p).Round = (c.blocks p).Round ∧
      (c'.blocks p).stateComputed = (c.blocks p).stateComputed) ∧
    (c'.blocks b).PrevBlock = some pb ∧ c'.log = c.log := by
  unfold Chain.SetPreviousBlock at h
  cases hprev : (c.blocks b).PrevBlock with
  | some q =>
    simp only [hprev] at h
    by_cases hq : q = pb
    · simp only [hq, if_true, Except.ok.injEq] at h
      subst h
      exact ⟨fun _ => ⟨rfl, rfl, rfl, rfl⟩, by rw [hprev, hq], rfl⟩
    · simp [hq] at h
  | none =>
    simp only [hprev, Except.ok.injEq] at h
    subst h
    refine ⟨?_, by simp, rfl⟩
    intro p
    by_cases hp : p = b
    · subst hp
      simp
    · simp [Function.update_noteq hp]

theorem GetBlock_hash (c : Chain) (hash : String) (pb : Ptr) (h : c.GetBlock hash = some pb) :
    (c.blocks pb).Hash = hash ∧ pb ∈ c.store := by
  unfold Chain.GetBlock at h
  have h1 := List.find?_some h
  have h2 := List.mem_of_find?_eq_some h
  simp only [decide_eq_true_eq] at h1
  exact ⟨h1, h2⟩

/-- C16, as the code has it. A non-nil block `pb` returned by
`GetPreviousBlock(b)` comes from one of five places. From the existing link
or from the local store: its hash is `b.PrevHash` and its state is computed.
From the latest finalized block: its round is `b.Round - 1` and its state is
computed; its hash is not compared with `b.PrevHash`. From the remote sync
with `syncNum > 0`: it is the last block `SyncBlocks` returned and its state
is computed. From the remote sync with `syncNum <= 0`: it is the first block
`SyncBlocks` returned, and neither its hash nor its state is examined. -/
theorem GetPreviousBlock_returned (c : Chain) (b pb : Ptr) (c' : Chain)
    (h : c.GetPreviousBlock b = .ok (some pb, c')) :
    ((c.blocks b).PrevBlock = some pb ∧ c' = c ∧
      (c'.blocks pb).Hash = (c'.blocks b).PrevHash ∧ (c'.blocks pb).stateComputed = true) ∨
    (c.GetBlock (c.blocks b).PrevHash = some pb ∧
      (c'.blocks pb).Hash = (c'.blocks b).PrevHash ∧ (c'.blocks pb).stateComputed = true) ∨
    (c.LatestFinalizedBlock = some pb ∧
      (c'.blocks pb).Round = wrapInt64 ((c'.blocks b).Round - 1) ∧
      (c'.blocks pb).stateComputed = true) ∨
    (0 < c.syncNum b ∧ ∃ blocks c1, c.SyncBlocks b (c.syncNum b) false = .ok (blocks, c1) ∧
      blocks.getLast? = some pb ∧ (c'.blocks pb).stateComputed = true) ∨
    (c.syncNum b ≤ 0 ∧ ∃ rest c1, c.SyncBlocks b 1 false = .ok (pb :: rest, c1)) := by
  unfold Chain.GetPreviousBlock at h
  split at h
  · cases h
  · simp only at h
    split at h
    · next pb0 hlinked =>
      simp only [Except.ok.injEq, Prod.mk.injEq, Option.some.injEq] at h
      obtain ⟨rfl, rfl⟩ := h
      left
      cases hprev : (c.blocks b).PrevBlock with
      | none => simp [hprev] at hlinked
      | some q =>
        simp only [hprev] at hlinked
        split at hlinked
        · next hq =>
          cases hlinked
          exact ⟨rfl, rfl, hq.1, hq.2⟩
        · cases hlinked
    · right
      unfold Chain.findPreviousBlock at h
      simp only at h
      split at h
      · next pb0 hstored =>
        left
        split at h
        · cases h
        · next c1 hset =>
          simp only [Except.ok.injEq, Prod.mk.injEq, Option.some.injEq] at h
          obtain ⟨rfl, rfl⟩ := h
          obtain ⟨hf, _, _⟩ := SetPreviousBlock_frame c b pb0 c1 hset
          cases hget : c.GetBlock (c.blocks b).PrevHash with
          | none => simp [hget] at hstored
          | some q =>
            simp only [hget] at hstored
            split at hstored
            · next hq =>
              cases hstored
              refine ⟨rfl, ?_, ?_⟩
              · rw [(hf pb0).1, (hf b).2.1]
                exact (GetBlock_hash c _ pb0 hget).1
              · rw [(hf pb0).2.2.2]
                exact hq
            · cases hstored
      · right
        split at h
        · next l hadopted =>
          left
          split at h
          · cases h
          · next c1 hset =>
            simp only [Except.ok.injEq, Prod.mk.injEq, Option.some.injEq] at h
            obtain ⟨rfl, rfl⟩ := h
            obtain ⟨hf, _, _⟩ := SetPreviousBlock_frame c b l c1 hset
            cases hlfb : c.LatestFinalizedBlock with
            | none => simp [hlfb] at hadopted
            | some q =>
              simp only [hlfb] at hadopted
              split at hadopted
              · next hq =>
                cases hadopted
                refine ⟨rfl, ?_, ?_⟩
                · rw [(hf l).2.2.1, (hf b).2.2.1]
                  exact hq.1
                · rw [(hf l).2.2.2]
                  exact hq.2
              · cases hadopted
        · right
          unfold Chain.syncPreviousBlock at h
          split at h
          · next hle =>
            right
            refine ⟨hle, ?_⟩
            split at h
            · cases h
            · split at h <;> cases h
            · next first rest c1 hsync =>
              split at h
              · cases h
              · simp only [Except.ok.injEq, Prod.mk.injEq, Option.some.injEq] at h
                obtain ⟨rfl, _⟩ := h
                exact ⟨rest, c1, hsync⟩
          · next hgt =>
            left
            refine ⟨by omega, ?_⟩
            split at h
            · cases h
            · cases h
            · next first rest c1 hsync =>
              split at h
              · cases h
              · simp only at h
                split at h
                · cases h
                · next hfirst hlast =>
                  split at h
                  · cases h
                  · next c2 hset =>
                    simp only [Except.ok.injEq, Prod.mk.injEq, Option.some.injEq] at h
                    obtain ⟨rfl, rfl⟩ := h
                    obtain ⟨hf, _, _⟩ := SetPreviousBlock_frame c1 b _ c2 hset
                    refine ⟨first :: rest, c1, hsync, ?_, ?_⟩
                    · rw [List.getLast?_eq_getLast _ (List.cons_ne_nil _ _)]
                      simp [List.getLastD]
                    · rw [(hf _).2.2.2]
                      simpa using hlast

/-- Witness of C16: on the diamond chain `GetPreviousBlock` on the tip `11`
returns the linked block `13`, by one of the five ways. -/
theorem GetPreviousBlock_returned_witness :
    ((diamondChain.blocks 11).PrevBlock = some 13 ∧ diamondChain = diamondChain ∧
      (diamondChain.blocks 13).Hash = (diamondChain.blocks 11).PrevHash ∧
      (diamondChain.blocks 13).stateComputed = true) ∨
    (diamondChain.GetBlock (diamondChain.blocks 11).PrevHash = some 13 ∧
      (diamondChain.blocks 13).Hash = (diamondChain.blocks 11).PrevHash ∧
      (diamondChain.blocks 13).stateComputed = true) ∨
    (diamondChain.LatestFinalizedBlock = some 13 ∧
      (diamondChain.blocks 13).Round = wrapInt64 ((diamondChain.blocks 11).Round - 1) ∧
      (diamondChain.blocks 13).stateComputed = true) ∨
    (0 < diamondChain.syncNum 11 ∧
      ∃ blocks c1, diamondChain.SyncBlocks 11 (diamondChain.syncNum 11) false = .ok (blocks, c1) ∧
        blocks.getLast? = some 13 ∧ (diamondChain.blocks 13).stateComputed = true) ∨
    (diamondChain.syncNum 11 ≤ 0 ∧
      ∃ rest c1, diamondChain.SyncBlocks 11 1 false = .ok (13 :: rest, c1)) :=
  GetPreviousBlock_returned diamondChain 11 13 diamondChain rfl

/-- Counterexample to C16 as stated: on the orphan chain block `6` of round 6
names a previous block of hash `x`; it has no link and the store has no block
of that hash; the latest finalized block `0`, of round 5 and hash `h0`, has
its state computed, and `GetPreviousBlock` returns it. -/
theorem GetPreviousBlock_adopts_lfb :
    (orphanChain.blocks 6).PrevHash = "x" ∧ (orphanChain.blocks 0).Hash = "h0" ∧
    ∃ c', orphanChain.GetPreviousBlock 6 = .ok (some 0, c') ∧
      (c'.blocks 0).Hash ≠ (c'.blocks 6).PrevHash ∧
      (c'.blocks 0).Hash ≠ (orphanChain.blocks 6).PrevHash :=
  ⟨rfl, rfl, _, rfl, by decide, by decide⟩

/-! ## `SyncBlocks` -/

theorem syncFrame_refl (c : Chain) : c.syncFrame c :=
  ⟨rfl, rfl, rfl, fun _ => ⟨rfl, rfl, id⟩, [], by simp, by simp⟩

theorem syncFrame_trans (a b c : Chain) (h1 : a.syncFrame b) (h2 : b.syncFrame c) :
    a.syncFrame c := by
  obtain ⟨g1, k1, l1, b1, e1, he1, hn1⟩ := h1
  obtain ⟨g2, k2, l2, b2, e2, he2, hn2⟩ := h2
  refine ⟨g2.trans g1, k2.trans k1, l2.trans l1, ?_, e1 ++ e2, ?_, ?_⟩
  · intro p
    exact ⟨(b2 p).1.trans (b1 p).1, (b2 p).2.1.trans (b1 p).2.1,
      fun h => (b2 p).2.2 ((b1 p).2.2 h)⟩
  · rw [he2, he1, List.append_assoc]
  · intro b' n hmem
    rcases List.mem_append.1 hmem with h | h
    · exact hn1 b' n h
    · exact hn2 b' n h

theorem stateObtained_frame (c : Chain) (p : Ptr) :
    c.syncFrame (c.stateObtained p) ∧ ((c.stateObtained p).blocks p).stateComputed = true := by
  refine ⟨⟨rfl, rfl, rfl, ?_, [], by simp [Chain.stateObtained], by simp⟩, ?_⟩
  · intro q
    by_cases hq : q = p
    · subst hq
      simp [Chain.stateObtained]
    · simp [Chain.stateObtained, Function.update_noteq hq]
  · simp [Chain.stateObtained]

/-- The method `SyncStateOrComputeLocal` fails exactly when the remote fetch
and the local computation both fail; it pulls no block, and when it succeeds
the state of the block is computed. -/
theorem SyncStateOrComputeLocal_spec (c : Chain) (p : Ptr) :
    ((c.SyncStateOrComputeLocal p).1 = none ↔
      c.GetBlockStateChange p = none ∨ c.ComputeStateLocal p = none) ∧
    c.syncFrame (c.SyncStateOrComputeLocal p).2 ∧
    ((c.SyncStateOrComputeLocal p).1 = none →
      ((c.SyncStateOrComputeLocal p).2.blocks p).stateComputed = true) := by
  unfold Chain.SyncStateOrComputeLocal
  cases h1 : c.GetBlockStateChange p with
  | none =>
    simp only [h1, true_or, iff_true, true_and, forall_true_left]
    have hf := stateObtained_frame { c with log := c.log ++ [Event.getBlockStateChange p] } p
    refine ⟨syncFrame_trans c _ _ ?_ hf.1, hf.2⟩
    exact ⟨rfl, rfl, rfl, fun _ => ⟨rfl, rfl, id⟩, [Event.getBlockStateChange p], rfl,
      by simp⟩
  | some e1 =>
    cases h2 : c.ComputeStateLocal p with
    | none =>
      simp only [h1, h2, or_true, iff_true, true_and, forall_true_left]
      have hf := stateObtained_frame
        { c with log := c.log ++ [Event.getBlockStateChange p] ++ [Event.computeStateLocal p] } p
      refine ⟨syncFrame_trans c _ _ ?_ hf.1, hf.2⟩
      exact ⟨rfl, rfl, rfl, fun _ => ⟨rfl, rfl, id⟩,
        [Event.getBlockStateChange p] ++ [Event.computeStateLocal p],
        by simp, by simp⟩
    | some e2 =>
      simp only [h1, h2]
      refine ⟨by simp, ?_, by simp⟩
      exact ⟨rfl, rfl, rfl, fun _ => ⟨rfl, rfl, id⟩,
        [Event.getBlockStateChange p] ++ [Event.computeStateLocal p],
        by simp, by simp⟩

theorem saveSynced_frame (c : Chain) (saveToDB : Bool) (p : Ptr) :
    c.syncFrame (c.saveSynced saveToDB p) := by
  unfold Chain.saveSynced
  cases saveToDB with
  | false => exact syncFrame_refl c
  | true =>
    exact ⟨rfl, rfl, rfl, fun _ => ⟨rfl, rfl, id⟩, [Event.saveChanges p], by simp, by simp⟩

theorem SyncStateOrComputeLocal_congr (c d : Chain) (h : c.syncFrame d) (p : Ptr) :
    (d.SyncStateOrComputeLocal p).1 = none ↔ (c.SyncStateOrComputeLocal p).1 = none := by
  rw [(SyncStateOrComputeLocal_spec d p).1, (SyncStateOrComputeLocal_spec c p).1, h.1, h.2.1]

/-- The loop of `SyncBlocks`, run from index `i` on a list whose blocks after
the first of the pull are linked: it returns; `failedIndex` is the index of
the last linked block whose state could not be synced or computed, or is
unchanged when there is none; the linked blocks whose state could be synced
or computed have their state computed afterwards. -/
theorem syncLoop_spec (saveToDB : Bool) (l : List Ptr) :
    ∀ (i : Nat) (f : Int) (c : Chain),
      (∀ k p, l[k]? = some p → 0 < i + k → (c.blocks p).PrevBlock ≠ none) →
      ∃ f' c', Chain.syncLoop saveToDB i l f c = .ok (f', c') ∧ c.syncFrame c' ∧
        ((f' = f ∧ ∀ p ∈ l, (c.blocks p).PrevBlock ≠ none →
            (c.SyncStateOrComputeLocal p).1 = none) ∨
          (∃ k p, l[k]? = some p ∧ f' = ((i + k : Nat) : Int) ∧
            (c.blocks p).PrevBlock ≠ none ∧ (c.SyncStateOrComputeLocal p).1 ≠ none ∧
            ∀ q ∈ l.drop (k + 1), (c.blocks q).PrevBlock ≠ none →
              (c.SyncStateOrComputeLocal q).1 = none)) ∧
        (∀ p ∈ l, (c.blocks p).PrevBlock ≠ none → (c.SyncStateOrComputeLocal p).1 = none →
          (c'.blocks p).stateComputed = true) := by
  induction l with
  | nil =>
    intro i f c _
    exact ⟨f, c, rfl, syncFrame_refl c, Or.inl ⟨rfl, fun _ h => nomatch h⟩,
      fun _ h => nomatch h⟩
  | cons cb rest ih =>
    intro i f c H
    have Hrest : ∀ (d : Chain), c.syncFrame d →
        ∀ k p, rest[k]? = some p → 0 < i + 1 + k → (d.blocks p).PrevBlock ≠ none := by
      intro d hd k p hk _
      rw [(hd.2.2.2.1 p).1]
      exact H (k + 1) p (by simpa using hk) (by omega)
    -- the conclusion for the whole list from the conclusion for the rest, run on `d`
    have lift : ∀ (d : Chain) (f0 f' : Int) (c' : Chain), c.syncFrame d → d.syncFrame c' →
        ((f' = f0 ∧ ∀ p ∈ rest, (d.blocks p).PrevBlock ≠ none →
            (d.SyncStateOrComputeLocal p).1 = none) ∨
          (∃ k p, rest[k]? = some p ∧ f' = ((i + 1 + k : Nat) : Int) ∧
            (d.blocks p).PrevBlock ≠ none ∧ (d.SyncStateOrComputeLocal p).1 ≠ none ∧
            ∀ q ∈ rest.drop (k + 1), (d.blocks q).PrevBlock ≠ none →
              (d.SyncStateOrComputeLocal q).1 = none)) →
        ((f' = f0 ∧ ∀ p ∈ rest, (c.blocks p).PrevBlock ≠ none →
            (c.SyncStateOrComputeLocal p).1 = none) ∨
          (∃ k p, (cb :: rest)[k]? = some p ∧ f' = ((i + k : Nat) : Int) ∧
            (c.blocks p).PrevBlock ≠ none ∧ (c.SyncStateOrComputeLocal p).1 ≠ none ∧
            ∀ q ∈ (cb :: rest).drop (k + 1), (c.blocks q).PrevBlock ≠ none →
              (c.SyncStateOrComputeLocal q).1 = none)) := by
      intro d f0 f' c' hd _ hchar
      rcases hchar with ⟨hf, hall⟩ | ⟨k, p, hk, hf, hlink, hfail, hall⟩
      · refine Or.inl ⟨hf, fun p hp hl => ?_⟩
        rw [← SyncStateOrComputeLocal_congr c d hd p]
        exact hall p hp (by rw [(hd.2.2.2.1 p).1]; exact hl)
      · refine Or.inr ⟨k + 1, p, by simpa using hk, by rw [hf]; congr 1; omega, ?_, ?_, ?_⟩
        · rw [← (hd.2.2.2.1 p).1]
          exact hlink
        · exact fun h => hfail ((SyncStateOrComputeLocal_congr c d hd p).2 h)
        · intro q hq hl
          rw [← SyncStateOrComputeLocal_congr c d hd q]
          exact hall q (by simpa using hq) (by rw [(hd.2.2.2.1 q).1]; exact hl)
    have flags : ∀ (d c' : Chain), c.syncFrame d →
        (∀ p ∈ rest, (d.blocks p).PrevBlock ≠ none → (d.SyncStateOrComputeLocal p).1 = none →
          (c'.blocks p).stateComputed = true) →
        ∀ p ∈ rest, (c.blocks p).PrevBlock ≠ none → (c.SyncStateOrComputeLocal p).1 = none →
          (c'.blocks p).stateComputed = true := by
      intro d c' hd hfl p hp hl hs
      exact hfl p hp (by rw [(hd.2.2.2.1 p).1]; exact hl)
        ((SyncStateOrComputeLocal_congr c d hd p).2 hs)
    cases hprev : (c.blocks cb).PrevBlock with
    | none =>
      have hi : ¬ 0 < i := fun hi => H 0 cb (by simp) (by omega) hprev
      obtain ⟨f', c', hrun, hfr, hchar, hfl⟩ := ih (i + 1) f c (Hrest c (syncFrame_refl c))
      refine ⟨f', c', ?_, hfr, ?_, ?_⟩
      · simp only [Chain.syncLoop, hprev]
        rw [if_neg (by omega)]
        exact hrun
      · rcases lift c f f' c' (syncFrame_refl c) hfr hchar with ⟨hf, hall⟩ | h2
        · refine Or.inl ⟨hf, fun p hp hl => ?_⟩
          rcases List.mem_cons.1 hp with rfl | hp
          · exact absurd hprev hl
          · exact hall p hp hl
        · exact Or.inr h2
      · intro p hp hl hs
        rcases List.mem_cons.1 hp with rfl | hp
        · exact absurd hprev hl
        · exact hfl p hp hl hs
    | some q =>
      have hspec := SyncStateOrComputeLocal_spec c cb
      cases hr : c.SyncStateOrComputeLocal cb with
      | mk r1 c1 =>
        rw [hr] at hspec
        simp only at hspec
        obtain ⟨_, hfr1, hflag1⟩ := hspec
        cases r1 with
        | some e =>
          obtain ⟨f', c', hrun, hfr, hchar, hfl⟩ := ih (i + 1) (i : Int) c1 (Hrest c1 hfr1)
          refine ⟨f', c', ?_, syncFrame_trans c c1 c' hfr1 hfr, ?_, ?_⟩
          · simp only [Chain.syncLoop, hprev, hr]
            exact hrun
          · rcases lift c1 i f' c' hfr1 hfr hchar with ⟨hf, hall⟩ | h2
            · refine Or.inr ⟨0, cb, by simp, by rw [hf]; rfl, by rw [hprev]; simp,
                by rw [hr]; simp, ?_⟩
              intro p hp hl
              exact hall p (by simpa using hp) hl
            · exact Or.inr h2
          · intro p hp hl hs
            rcases List.mem_cons.1 hp with rfl | hp
            · rw [hr] at hs
              cases hs
            · exact flags c1 c' hfr1 hfl p hp hl hs
        | none =>
          have hfr2 : c.syncFrame (c1.saveSynced saveToDB cb) :=
            syncFrame_trans c c1 _ hfr1 (saveSynced_frame c1 saveToDB cb)
          obtain ⟨f', c', hrun, hfr, hchar, hfl⟩ :=
            ih (i + 1) f (c1.saveSynced saveToDB cb) (Hrest _ hfr2)
          refine ⟨f', c', ?_, syncFrame_trans c _ c' hfr2 hfr, ?_, ?_⟩
          · simp only [Chain.syncLoop, hprev, hr]
            exact hrun
          · rcases lift _ f f' c' hfr2 hfr hchar with ⟨hf, hall⟩ | h2
            · refine Or.inl ⟨hf, fun p hp hl => ?_⟩
              rcases List.mem_cons.1 hp with rfl | hp
              · rw [hr]
              · exact hall p hp hl
            · exact Or.inr h2
          · intro p hp hl hs
            rcases List.mem_cons.1 hp with rfl | hp
            · exact (hfr.2.2.2.1 p).2.2
                (((saveSynced_frame c1 saveToDB p).2.2.2.1 p).2.2 (hflag1 rfl))
            · exact flags _ c' hfr2 hfl p hp hl hs

theorem UpdateBlocks_frame (c : Chain) (blocks : List Ptr) :
    c.syncFrame (c.UpdateBlocks blocks) :=
  ⟨rfl, rfl, rfl, fun _ => ⟨rfl, rfl, id⟩, [Event.updateBlocks blocks], rfl, by simp⟩

/-- The handling of the oldest pulled block by `SyncBlocks`, before its loop. -/
theorem syncFirst_frame (c : Chain) (saveToDB : Bool) (first : Ptr) :
    c.syncFrame
      (match (c.blocks first).PrevBlock with
        | none =>
          match c.SyncStateOrComputeLocal first with
          | (some _, c0a) => c0a
          | (none, c0a) => c0a.saveSynced saveToDB first
        | some _ => c) := by
  cases (c.blocks first).PrevBlock with
  | some q => exact syncFrame_refl c
  | none =>
    have hspec := (SyncStateOrComputeLocal_spec c first).2.1
    cases hr : c.SyncStateOrComputeLocal first with
    | mk r1 c1 =>
      rw [hr] at hspec
      cases r1 with
      | some e => exact hspec
      | none => exact syncFrame_trans c c1 _ hspec (saveSynced_frame c1 saveToDB first)

/-- C18, as the code has it. When the pull delivers nothing `SyncBlocks`
returns nothing. When it delivers a list whose blocks after the first have a
previous-block link, `SyncBlocks` returns the suffix of the list that starts
after the last index at which a block with a previous-block link could have
its state neither synced nor computed (the whole list if there is no such
index); every returned block with a previous-block link had its state synced
or computed, and its state is computed. A failure for the oldest pulled block,
when it has no previous-block link, is not counted: if the states of all later
blocks are obtained, the whole list is returned. -/
theorem SyncBlocks_returned (c : Chain) (b : Ptr) (num : Int) (saveToDB : Bool) :
    (c.pullNotarizedBlocks b num = [] → ∃ c', c.SyncBlocks b num saveToDB = .ok ([], c')) ∧
    (∀ first rest, c.pullNotarizedBlocks b num = first :: rest →
      (∀ p ∈ rest, (c.blocks p).PrevBlock ≠ none) →
      ∃ k c', k ≤ rest.length + 1 ∧
        c.SyncBlocks b num saveToDB = .ok ((first :: rest).drop k, c') ∧
        (∀ p ∈ (first :: rest).drop k, (c.blocks p).PrevBlock ≠ none →
          (c.SyncStateOrComputeLocal p).1 = none ∧ (c'.blocks p).stateComputed = true) ∧
        (0 < k → ∃ p, (first :: rest)[k - 1]? = some p ∧ (c.blocks p).PrevBlock ≠ none ∧
          (c.SyncStateOrComputeLocal p).1 ≠ none) ∧
        ((c.blocks first).PrevBlock = none →
          (∀ p ∈ rest, (c.SyncStateOrComputeLocal p).1 = none) → k = 0)) := by
  constructor
  · intro hpull
    exact ⟨{ c with log := c.log ++ [Event.pullNotarizedBlocks b num] }, by
      simp [Chain.SyncBlocks, hpull]⟩
  · intro first rest hpull hlinks
    -- the chain after the pull, and after the handling of the oldest block
    have hsame : ∀ p, ((({ c with log := c.log ++ [Event.pullNotarizedBlocks b num] } : Chain
        ).SyncStateOrComputeLocal p).1 = none ↔ (c.SyncStateOrComputeLocal p).1 = none) := by
      intro p
      rw [(SyncStateOrComputeLocal_spec _ p).1, (SyncStateOrComputeLocal_spec c p).1]
    have hfr1 := syncFirst_frame { c with log := c.log ++ [Event.pullNotarizedBlocks b num] }
      saveToDB first
    generalize hc1 : (match (({ c with log := c.log ++ [Event.pullNotarizedBlocks b num] } :
        Chain).blocks first).PrevBlock with
      | none =>
        match ({ c with log := c.log ++ [Event.pullNotarizedBlocks b num] } :
          Chain).SyncStateOrComputeLocal first with
        | (some _, c0a) => c0a
        | (none, c0a) => c0a.saveSynced saveToDB first
      | some _ => ({ c with log := c.log ++ [Event.pullNotarizedBlocks b num] } : Chain)) = c1
      at hfr1
    have hlink1 : ∀ p, (c1.blocks p).PrevBlock = (c.blocks p).PrevBlock :=
      fun p => (hfr1.2.2.2.1 p).1
    have hsync1 : ∀ p, (c1.SyncStateOrComputeLocal p).1 = none ↔
        (c.SyncStateOrComputeLocal p).1 = none :=
      fun p => (SyncStateOrComputeLocal_congr _ c1 hfr1 p).trans (hsame p)
    obtain ⟨f', c2, hrun, hfr2, hchar, hfl⟩ :=
      syncLoop_spec saveToDB (first :: rest) 0 (-1) c1 (by
        intro k p hk hpos
        rw [hlink1 p]
        cases k with
        | zero => omega
        | succ k =>
          simp only [List.getElem?_cons_succ] at hk
          exact hlinks p (List.getElem?_mem hk))
    have hrun' : ∀ k, (f' + 1).toNat = k →
        ∃ c', c.SyncBlocks b num saveToDB = .ok ((first :: rest).drop k, c') ∧
          c2.syncFrame c' := by
      intro k hk
      unfold Chain.SyncBlocks
      simp only [hpull, hc1, hrun, hk]
      split
      · exact ⟨_, rfl, UpdateBlocks_frame c2 _⟩
      · exact ⟨_, rfl, syncFrame_refl c2⟩
    have hflag : ∀ c', c2.syncFrame c' → ∀ p ∈ first :: rest, (c.blocks p).PrevBlock ≠ none →
        (c.SyncStateOrComputeLocal p).1 = none → (c'.blocks p).stateComputed = true := by
      intro c' hc' p hp hl hs
      exact (hc'.2.2.2.1 p).2.2 (hfl p hp (by rw [hlink1 p]; exact hl) ((hsync1 p).2 hs))
    rcases hchar with ⟨hf, hall⟩ | ⟨k0, p0, hk0, hf, hl0, hfail0, hall⟩
    · obtain ⟨c', hres, hc'⟩ := hrun' 0 (by rw [hf]; rfl)
      refine ⟨0, c', by omega, hres, ?_, fun h => absurd h (Nat.lt_irrefl 0), fun _ _ => rfl⟩
      intro p hp hl
      have hs := (hsync1 p).1 (hall p (by simpa using hp) (by rw [hlink1 p]; exact hl))
      exact ⟨hs, hflag c' hc' p (by simpa using hp) hl hs⟩
    · obtain ⟨c', hres, hc'⟩ := hrun' (k0 + 1) (by rw [hf]; omega)
      have hlt : k0 < (first :: rest).length := by
        by_contra hge
        rw [List.getElem?_eq_none (by omega)] at hk0
        cases hk0
      refine ⟨k0 + 1, c', by simp only [List.length_cons] at hlt; omega, hres, ?_, ?_, ?_⟩
      · intro p hp hl
        have hs := (hsync1 p).1 (hall p hp (by rw [hlink1 p]; exact hl))
        exact ⟨hs, hflag c' hc' p (List.mem_of_mem_drop hp) hl hs⟩
      · intro _
        refine ⟨p0, by simpa using hk0, by rw [← hlink1 p0]; exact hl0, ?_⟩
        exact fun h => hfail0 ((hsync1 p0).2 h)
      · intro hfirst hrest
        exfalso
        cases k0 with
        | zero =>
          simp only [List.getElem?_cons_zero, Option.some.injEq] at hk0
          subst hk0
          exact hl0 (by rw [hlink1]; exact hfirst)
        | succ k1 =>
          simp only [List.getElem?_cons_succ] at hk0
          exact hfail0 ((hsync1 p0).2 (hrest p0 (List.getElem?_mem hk0)))

/-- Witness of C18: on the stale pair chain the pull delivers the blocks `7`
and `8`; the state of the linked block `8` can be neither synced nor computed,
and `SyncBlocks` returns a suffix of the list. -/
theorem SyncBlocks_returned_witness :
    ∃ k c', k ≤ [8].length + 1 ∧
      stalePairChain.SyncBlocks 9 2 false = .ok (([7, 8] : List Ptr).drop k, c') ∧
      (∀ p ∈ ([7, 8] : List Ptr).drop k, (stalePairChain.blocks p).PrevBlock ≠ none →
        (stalePairChain.SyncStateOrComputeLocal p).1 = none ∧
          (c'.blocks p).stateComputed = true) ∧
      (0 < k → ∃ p, ([7, 8] : List Ptr)[k - 1]? = some p ∧
        (stalePairChain.blocks p).PrevBlock ≠ none ∧
        (stalePairChain.SyncStateOrComputeLocal p).1 ≠ none) ∧
      ((stalePairChain.blocks 7).PrevBlock = none →
        (∀ p ∈ [8], (stalePairChain.SyncStateOrComputeLocal p).1 = none) → k = 0) :=
  (SyncBlocks_returned stalePairChain 9 2 false).2 7 [8] rfl (by decide)

/-- Counterexample to C18 as stated: on the stale chain the pull delivers the
single block `7`, which has no previous-block link; its state can be neither
synced nor computed, and `SyncBlocks` returns it all the same, its state not
computed. -/
theorem SyncBlocks_returns_failed_oldest :
    staleChain.pullNotarizedBlocks 8 1 = [7] ∧ (staleChain.blocks 7).PrevBlock = none ∧
    (staleChain.SyncStateOrComputeLocal 7).1 ≠ none ∧
    ∃ c', staleChain.SyncBlocks 8 1 false = .ok ([7], c') ∧
      (c'.blocks 7).stateComputed = false :=
  ⟨rfl, rfl, by decide, _, rfl, rfl⟩

/-! ## The depth of the remote sync -/

theorem wrapInt64_range (x : Int) :
    -9223372036854775808 ≤ wrapInt64 x ∧ wrapInt64 x < 9223372036854775808 := by
  unfold wrapInt64
  omega

theorem syncLoop_frame (saveToDB : Bool) (l : List Ptr) :
    ∀ (i : Nat) (f : Int) (c : Chain) (f' : Int) (c' : Chain),
      Chain.syncLoop saveToDB i l f c = .ok (f', c') → c.syncFrame c' := by
  induction l with
  | nil =>
    intro i f c f' c' h
    simp only [Chain.syncLoop, Except.ok.injEq, Prod.mk.injEq] at h
    rw [← h.2]
    exact syncFrame_refl c
  | cons cb rest ih =>
    intro i f c f' c' h
    unfold Chain.syncLoop at h
    split at h
    · split at h
      · cases h
      · exact ih _ _ _ _ _ h
    · have hspec := (SyncStateOrComputeLocal_spec c cb).2.1
      split at h
      · next e c1 hr =>
        rw [hr] at hspec
        exact syncFrame_trans c c1 c' hspec (ih _ _ _ _ _ h)
      · next c1 hr =>
        rw [hr] at hspec
        exact syncFrame_trans c _ c'
          (syncFrame_trans c c1 _ hspec (saveSynced_frame c1 saveToDB cb)) (ih _ _ _ _ _ h)

/-- A call of `SyncBlocks` that returns has pulled once, with the number it
was given. -/
theorem SyncBlocks_log (c : Chain) (b : Ptr) (num : Int) (saveToDB : Bool)
    (blocks : List Ptr) (c' : Chain) (h : c.SyncBlocks b num saveToDB = .ok (blocks, c')) :
    ∃ evs, c'.log = c.log ++ Event.pullNotarizedBlocks b num :: evs ∧
      ∀ b' n', Event.pullNotarizedBlocks b' n' ∉ evs := by
  have key : ∀ d : Chain,
      ({ c with log := c.log ++ [Event.pullNotarizedBlocks b num] } : Chain).syncFrame d →
      ∃ evs, d.log = c.log ++ Event.pullNotarizedBlocks b num :: evs ∧
        ∀ b' n', Event.pullNotarizedBlocks b' n' ∉ evs := by
    intro d hd
    obtain ⟨evs, hlog, hno⟩ := hd.2.2.2.2
    exact ⟨evs, by rw [hlog]; simp, hno⟩
  unfold Chain.SyncBlocks at h
  simp only at h
  split at h
  · simp only [Except.ok.injEq, Prod.mk.injEq] at h
    rw [← h.2]
    exact key _ (syncFrame_refl _)
  · next first rest hpull =>
    have hfr1 := syncFirst_frame { c with log := c.log ++ [Event.pullNotarizedBlocks b num] }
      saveToDB first
    split at h
    · cases h
    · next fi c2 hrun =>
      have hfr2 := syncLoop_frame _ _ _ _ _ _ _ hrun
      split at h
      · simp only [Except.ok.injEq, Prod.mk.injEq] at h
        rw [← h.2]
        exact key _ (syncFrame_trans _ _ _ (syncFrame_trans _ _ _ hfr1 hfr2)
          (UpdateBlocks_frame c2 _))
      · simp only [Except.ok.injEq, Prod.mk.injEq] at h
        rw [← h.2]
        exact key _ (syncFrame_trans _ _ _ hfr1 hfr2)

theorem requestedSyncNum_noLFB (c : Chain) (b : Ptr) (h : c.LatestFinalizedBlock = none) :
    c.requestedSyncNum b =
      if wrapInt64 (c.LFBTicketAhead + 1) ≤ 0 then 1 else wrapInt64 (c.LFBTicketAhead + 1) := by
  unfold Chain.requestedSyncNum Chain.syncNum
  simp only [h]

theorem requestedSyncNum_lfb (c : Chain) (b lfb : Ptr) (h : c.LatestFinalizedBlock = some lfb)
    (max d : Int) (hmax : max = wrapInt64 (c.LFBTicketAhead + 1))
    (hd : d = wrapInt64 ((c.blocks b).Round - (c.blocks lfb).Round)) :
    (d ≤ 0 → c.requestedSyncNum b = 1) ∧
    (0 < d → d < max → (c.blocks lfb).stateComputed = false →
      c.requestedSyncNum b = min max (d + 1)) ∧
    (0 < d → ¬ (d < max ∧ (c.blocks lfb).stateComputed = false) →
      c.requestedSyncNum b = if min max d ≤ 0 then 1 else min max d) := by
  have hr := wrapInt64_range (c.LFBTicketAhead + 1)
  unfold Chain.requestedSyncNum Chain.syncNum
  simp only [h, ← hmax, ← hd]
  rw [← hmax] at hr
  refine ⟨?_, ?_, ?_⟩
  · intro h0
    have hno : ¬ (d > 0 ∧ d < max ∧ (c.blocks lfb).stateComputed = false) := fun hh => by
      have := hh.1
      omega
    simp only [hno, if_false]
    split_ifs <;> omega
  · intro h0 h1 hs
    have hyes : d > 0 ∧ d < max ∧ (c.blocks lfb).stateComputed = false := ⟨h0, h1, hs⟩
    have hw : wrapInt64 (d + 1) = d + 1 := wrapInt64_of_inRange (d + 1) (by omega) (by omega)
    simp only [hyes, and_self, if_true, hw]
    rw [Int.min_def]
    split_ifs <;> omega
  · intro h0 hn
    have hno : ¬ (d > 0 ∧ d < max ∧ (c.blocks lfb).stateComputed = false) :=
      fun hh => hn hh.2
    simp only [hno, if_false]
    rw [Int.min_def]
    split_ifs <;> omega

theorem GetPreviousBlock_fallthrough (c : Chain) (b : Ptr)
    (hself : ¬ ((c.blocks b).PrevBlock = some b ∨ (c.blocks b).PrevHash = (c.blocks b).Hash))
    (hlink : ∀ pb, (c.blocks b).PrevBlock = some pb →
      ¬ ((c.blocks pb).Hash = (c.blocks b).PrevHash ∧ (c.blocks pb).stateComputed = true))
    (hstore : ∀ pb, c.GetBlock (c.blocks b).PrevHash = some pb →
      (c.blocks pb).stateComputed = false)
    (hlfb : ∀ lfb, c.LatestFinalizedBlock = some lfb →
      ¬ ((c.blocks lfb).Round = wrapInt64 ((c.blocks b).Round - 1) ∧
        (c.blocks lfb).stateComputed = true)) :
    c.GetPreviousBlock b = c.syncPreviousBlock b := by
  have h1 : (match (c.blocks b).PrevBlock with
      | some pb =>
        if (c.blocks pb).Hash = (c.blocks b).PrevHash ∧ (c.blocks pb).stateComputed = true then
          some pb else none
      | none => none) = none := by
    cases hp : (c.blocks b).PrevBlock with
    | none => rfl
    | some pb => simp only [hlink pb hp, if_false]
  have h2 : (match c.GetBlock (c.blocks b).PrevHash with
      | some pb => if (c.blocks pb).stateComputed then some pb else none
      | none => none) = none := by
    cases hp : c.GetBlock (c.blocks b).PrevHash with
    | none => rfl
    | some pb => simp [hstore pb hp]
  have h3 : (match c.LatestFinalizedBlock with
      | some lfb =>
        if (c.blocks lfb).Round = wrapInt64 ((c.blocks b).Round - 1) ∧
            (c.blocks lfb).stateComputed = true then some lfb else none
      | none => none) = none := by
    cases hp : c.LatestFinalizedBlock with
    | none => rfl
    | some lfb => simp only [hlfb lfb hp, if_false]
  unfold Chain.GetPreviousBlock
  simp only [hself, if_false, h1]
  unfold Chain.findPreviousBlock
  simp only [h2, h3]

theorem syncPreviousBlock_log (c : Chain) (b : Ptr) (r : Option Ptr) (c' : Chain)
    (h : c.syncPreviousBlock b = .ok (r, c')) :
    ∃ evs, c'.log = c.log ++ Event.pullNotarizedBlocks b (c.requestedSyncNum b) :: evs ∧
      ∀ b' n', Event.pullNotarizedBlocks b' n' ∉ evs := by
  unfold Chain.syncPreviousBlock at h
  unfold Chain.requestedSyncNum
  by_cases h0 : c.syncNum b ≤ 0
  · simp only [h0, if_true] at h ⊢
    cases hs : c.SyncBlocks b 1 false with
    | error e => simp [hs] at h
    | ok res =>
      obtain ⟨blocks, c1⟩ := res
      have hlog := SyncBlocks_log c b 1 false blocks c1 hs
      cases blocks with
      | nil =>
        simp only [hs] at h
        split at h
        · cases h
        · simp only [Except.ok.injEq, Prod.mk.injEq] at h
          rw [← h.2]
          exact hlog
      | cons pb rest =>
        simp only [hs] at h
        split at h
        · cases h
        · next c2 hset =>
          simp only [Except.ok.injEq, Prod.mk.injEq] at h
          rw [← h.2, (SetPreviousBlock_frame c1 b pb c2 hset).2.2]
          exact hlog
  · simp only [h0, if_false] at h ⊢
    cases hs : c.SyncBlocks b (c.syncNum b) false with
    | error e => simp [hs] at h
    | ok res =>
      obtain ⟨blocks, c1⟩ := res
      have hlog := SyncBlocks_log c b (c.syncNum b) false blocks c1 hs
      cases blocks with
      | nil =>
        simp only [hs, Except.ok.injEq, Prod.mk.injEq] at h
        rw [← h.2]
        exact hlog
      | cons first rest =>
        simp only [hs] at h
        split at h
        · simp only [Except.ok.injEq, Prod.mk.injEq] at h
          rw [← h.2]
          exact hlog
        · split at h
          · simp only [Except.ok.injEq, Prod.mk.injEq] at h
            rw [← h.2]
            exact hlog
          · split at h
            · cases h
            · next c2 hset =>
              simp only [Except.ok.injEq, Prod.mk.injEq] at h
              rw [← h.2, (SetPreviousBlock_frame c1 b _ c2 hset).2.2]
              exact hlog

theorem syncPreviousBlock_error (c : Chain) (b : Ptr) (e : Abort)
    (h : c.SyncBlocks b (c.requestedSyncNum b) false = .error e) :
    c.syncPreviousBlock b = .error e := by
  unfold Chain.requestedSyncNum at h
  unfold Chain.syncPreviousBlock
  by_cases h0 : c.syncNum b ≤ 0
  · simp only [h0, if_true] at h ⊢
    simp only [h]
  · simp only [h0, if_false] at h ⊢
    simp only [h]

/-- Claim C17, amended. `GetPreviousBlock` turns to the remote sync when the
existing link, the local store and the latest finalized block give no parent;
the remote sync pulls once, asking `SyncBlocks` for `requestedSyncNum` blocks.
With `max = lfb_ticket_ahead + 1` and `d = b.Round - LFB.Round` (both as 64-bit
values) that number is: `max` without an LFB, or 1 when `max <= 0`; 1 if
`d <= 0`; `min(max, d + 1)` when `0 < d < max` and the LFB's state is not
computed; in the remaining cases `min(max, d)`, or 1 when that is not positive.
For `lfb_ticket_ahead >= 0` the replacement by 1 never applies beyond `d <= 0`
and the number lies between 1 and `max`. -/
theorem GetPreviousBlock_syncNum (c : Chain) (b : Ptr) :
    ((¬ ((c.blocks b).PrevBlock = some b ∨ (c.blocks b).PrevHash = (c.blocks b).Hash)) →
      (∀ pb, (c.blocks b).PrevBlock = some pb →
        ¬ ((c.blocks pb).Hash = (c.blocks b).PrevHash ∧ (c.blocks pb).stateComputed = true)) →
      (∀ pb, c.GetBlock (c.blocks b).PrevHash = some pb → (c.blocks pb).stateComputed = false) →
      (∀ lfb, c.LatestFinalizedBlock = some lfb →
        ¬ ((c.blocks lfb).Round = wrapInt64 ((c.blocks b).Round - 1) ∧
          (c.blocks lfb).stateComputed = true)) →
      c.GetPreviousBlock b = c.syncPreviousBlock b) ∧
    (∀ r c', c.syncPreviousBlock b = .ok (r, c') →
      ∃ evs, c'.log = c.log ++ Event.pullNotarizedBlocks b (c.requestedSyncNum b) :: evs ∧
        ∀ b' n', Event.pullNotarizedBlocks b' n' ∉ evs) ∧
    (∀ e, c.SyncBlocks b (c.requestedSyncNum b) false = .error e →
      c.syncPreviousBlock b = .error e) ∧
    (c.LatestFinalizedBlock = none →
      c.requestedSyncNum b =
        if wrapInt64 (c.LFBTicketAhead + 1) ≤ 0 then 1 else wrapInt64 (c.LFBTicketAhead + 1)) ∧
    (∀ lfb, c.LatestFinalizedBlock = some lfb →
      ∀ max d, max = wrapInt64 (c.LFBTicketAhead + 1) →
        d = wrapInt64 ((c.blocks b).Round - (c.blocks lfb).Round) →
        (d ≤ 0 → c.requestedSyncNum b = 1) ∧
        (0 < d → d < max → (c.blocks lfb).stateComputed = false →
          c.requestedSyncNum b = min max (d + 1)) ∧
        (0 < d → ¬ (d < max ∧ (c.blocks lfb).stateComputed = false) →
          c.requestedSyncNum b = if min max d ≤ 0 then 1 else min max d)) ∧
    (0 ≤ c.LFBTicketAhead → c.LFBTicketAhead + 1 < 9223372036854775808 →
      1 ≤ c.requestedSyncNum b ∧ c.requestedSyncNum b ≤ c.LFBTicketAhead + 1 ∧
      (c.LatestFinalizedBlock = none → c.requestedSyncNum b = c.LFBTicketAhead + 1) ∧
      (∀ lfb, c.LatestFinalizedBlock = some lfb →
        ∀ d, d = wrapInt64 ((c.blocks b).Round - (c.blocks lfb).Round) →
          0 < d → ¬ (d < c.LFBTicketAhead + 1 ∧ (c.blocks lfb).stateComputed = false) →
          c.requestedSyncNum b = min (c.LFBTicketAhead + 1) d)) := by
  refine ⟨GetPreviousBlock_fallthrough c b, syncPreviousBlock_log c b,
    syncPreviousBlock_error c b, requestedSyncNum_noLFB c b,
    fun lfb h max d hmax hd => requestedSyncNum_lfb c b lfb h max d hmax hd, ?_⟩
  intro h0 h1
  have hw : wrapInt64 (c.LFBTicketAhead + 1) = c.LFBTicketAhead + 1 :=
    wrapInt64_of_inRange _ (by omega) h1
  have hrest : ∀ lfb, c.LatestFinalizedBlock = some lfb →
      ∀ d, d = wrapInt64 ((c.blocks b).Round - (c.blocks lfb).Round) →
        0 < d → ¬ (d < c.LFBTicketAhead + 1 ∧ (c.blocks lfb).stateComputed = false) →
        c.requestedSyncNum b = min (c.LFBTicketAhead + 1) d := by
    intro lfb hl d hd hpos hn
    rw [(requestedSyncNum_lfb c b lfb hl _ d hw.symm hd).2.2 hpos hn, Int.min_def]
    split_ifs <;> omega
  have hnone : c.LatestFinalizedBlock = none → c.requestedSyncNum b = c.LFBTicketAhead + 1 := by
    intro hl
    rw [requestedSyncNum_noLFB c b hl, hw]
    split_ifs <;> omega
  refine ⟨?_, ?_, hnone, hrest⟩
  · cases hl : c.LatestFinalizedBlock with
    | none => rw [hnone hl]; omega
    | some lfb =>
      have hs := requestedSyncNum_lfb c b lfb hl _ _ hw.symm rfl
      by_cases hd : wrapInt64 ((c.blocks b).Round - (c.blocks lfb).Round) ≤ 0
      · rw [hs.1 hd]
      · by_cases hsp : wrapInt64 ((c.blocks b).Round - (c.blocks lfb).Round) <
            c.LFBTicketAhead + 1 ∧ (c.blocks lfb).stateComputed = false
        · rw [hs.2.1 (by omega) hsp.1 hsp.2, Int.min_def]
          split_ifs <;> omega
        · rw [hrest lfb hl _ rfl (by omega) hsp, Int.min_def]
          split_ifs <;> omega
  · cases hl : c.LatestFinalizedBlock with
    | none => rw [hnone hl]
    | some lfb =>
      have hs := requestedSyncNum_lfb c b lfb hl _ _ hw.symm rfl
      by_cases hd : wrapInt64 ((c.blocks b).Round - (c.blocks lfb).Round) ≤ 0
      · rw [hs.1 hd]
        omega
      · by_cases hsp : wrapInt64 ((c.blocks b).Round - (c.blocks lfb).Round) <
            c.LFBTicketAhead + 1 ∧ (c.blocks lfb).stateComputed = false
        · rw [hs.2.1 (by omega) hsp.1 hsp.2, Int.min_def]
          split_ifs <;> omega
        · rw [hrest lfb hl _ rfl (by omega) hsp, Int.min_def]
          split_ifs <;> omega

/-- Witness of C17: on the stale chain, block `8` of round 8 has no link, its
parent is not in the store and the latest finalized block is of round 5, so
`GetPreviousBlock` turns to the remote sync; with `lfb_ticket_ahead = 5` the
number of blocks asked for lies between 1 and 6. -/
theorem GetPreviousBlock_syncNum_witness :
    staleChain.GetPreviousBlock 8 = staleChain.syncPreviousBlock 8 ∧
    1 ≤ staleChain.requestedSyncNum 8 ∧
    staleChain.requestedSyncNum 8 ≤ staleChain.LFBTicketAhead + 1 :=
  ⟨(GetPreviousBlock_syncNum staleChain 8).1 (by decide) (by decide)
      (fun pb h => nomatch h) (by decide),
    ((GetPreviousBlock_syncNum staleChain 8).2.2.2.2.2 (by decide) (by decide)).1,
    ((GetPreviousBlock_syncNum staleChain 8).2.2.2.2.2 (by decide) (by decide)).2.1⟩

/-- Counterexample to C17 as stated: with `lfb_ticket_ahead = -1` the depth
`max` is 0; block `6` of round 8 is three rounds above the latest finalized
block, so the stated number is `min(max, d) = 0`, and without an LFB it would
be `max = 0`; the code asks `SyncBlocks` for one block. -/
theorem GetPreviousBlock_requests_one :
    negativeAheadChain.LFBTicketAhead = -1 ∧
    wrapInt64 (negativeAheadChain.LFBTicketAhead + 1) = 0 ∧
    negativeAheadChain.LatestFinalizedBlock = some 0 ∧
    wrapInt64 ((negativeAheadChain.blocks 6).Round - (negativeAheadChain.blocks 0).Round) = 3 ∧
    min (0 : Int) 3 = 0 ∧
    negativeAheadChain.requestedSyncNum 6 = 1 ∧
    negativeAheadChain.GetPreviousBlock 6 =
      .ok (none, { negativeAheadChain with log := [Event.pullNotarizedBlocks 6 1] }) :=
  ⟨rfl, by decide, rfl, by decide, by decide, by decide, rfl⟩

/-! ## `commonAncestor` -/

/-- C19, what the code does: on the diamond chain the previous blocks of the
two tips are distinct block objects, blocks `13` and `14`, with the same hash
`p`; `commonAncestor` compares the blocks it walks by pointer only, does not
stop at them, and returns block `10`, one step further back. -/
theorem commonAncestor_pointer_only :
    (diamondChain.blocks 11).PrevBlock = some 13 ∧ (diamondChain.blocks 12).PrevBlock = some 14 ∧
    (diamondChain.blocks 13).Hash = (diamondChain.blocks 14).Hash ∧
    diamondChain.commonAncestor 5 (some 11) (some 12) = .ok (some 10, diamondChain) ∧
    (diamondChain.blocks 10).Hash ≠ (diamondChain.blocks 13).Hash :=
  ⟨rfl, rfl, rfl, rfl, by decide⟩

/-- C20. `commonAncestor` returns nil when either argument is nil, and returns
its first argument when the two arguments are the same block object or have
equal hashes, so `commonAncestor(b, b) = b`; in each of these cases the chain
is left as it is, call log included: no previous block is fetched. -/
theorem commonAncestor_base (fuel : Nat) (c : Chain) :
    (∀ b2, c.commonAncestor fuel none b2 = .ok (none, c)) ∧
    (∀ b1, c.commonAncestor fuel b1 none = .ok (none, c)) ∧
    (∀ b, c.commonAncestor fuel (some b) (some b) = .ok (some b, c)) ∧
    (∀ b1 b2, b1 = b2 ∨ (c.blocks b1).Hash = (c.blocks b2).Hash →
      c.commonAncestor fuel (some b1) (some b2) = .ok (some b1, c)) := by
  refine ⟨fun b2 => rfl, ?_, ?_, ?_⟩
  · intro b1
    cases b1 <;> rfl
  · intro b
    simp [Chain.commonAncestor]
  · intro b1 b2 h
    simp [Chain.commonAncestor, h]

/-- Witness of C20: on the diamond chain the blocks `13` and `14` have equal
hashes, and `commonAncestor` returns the first of them at once. -/
theorem commonAncestor_base_witness :
    diamondChain.commonAncestor 0 (some 13) (some 14) = .ok (some 13, diamondChain) :=
  (commonAncestor_base 0 diamondChain).2.2.2 13 14 (Or.inr rfl)

/-! ## `VerifyTickets` -/

theorem senderKeys_ok_iff (c : Chain) (round : Int) (bvts : List VerificationTicket)
    (pks : List String) :
    c.senderKeys round bvts = .ok pks ↔
      (∀ t ∈ bvts, (c.GetMiners round).GetNode t.VerifierID ≠ none) ∧
      pks = bvts.filterMap (fun t =>
        ((c.GetMiners round).GetNode t.VerifierID).map (fun s => (c.nodes s).PublicKey)) := by
  induction bvts generalizing pks with
  | nil =>
    simp only [Chain.senderKeys, Except.ok.injEq, List.filterMap_nil, List.not_mem_nil,
      false_implies, implies_true, true_and]
    exact eq_comm
  | cons t rest ih =>
    unfold Chain.senderKeys
    cases hn : (c.GetMiners round).GetNode t.VerifierID with
    | none =>
      simp only [List.mem_cons, forall_eq_or_imp, hn, ne_eq, not_true_eq_false, false_and,
        iff_false]
      exact fun h => nomatch h
    | some sender =>
      cases hr : c.senderKeys round rest with
      | error e =>
        have hno := fun pks => (ih pks).not.1 (by rw [hr]; exact fun h => nomatch h)
        simp only [List.mem_cons, forall_eq_or_imp, hn, ne_eq, not_false_eq_true,
          true_and, List.filterMap_cons, Option.map_some', reduceCtorEq, false_iff, not_and]
        intro hall hpk
        exact hno _ ⟨hall, rfl⟩
      | ok pks0 =>
        have h0 := (ih pks0).1 hr
        simp only [List.mem_cons, forall_eq_or_imp, hn, ne_eq, not_false_eq_true, true_and,
          List.filterMap_cons, Option.map_some', Except.ok.injEq, reduceCtorEq]
        constructor
        · intro h
          exact ⟨h0.1, by rw [← h, h0.2]⟩
        · intro h
          rw [h.2, h0.2]

theorem senderKeys_error (c : Chain) (round : Int) (bvts : List VerificationTicket)
    (h : ∃ t ∈ bvts, (c.GetMiners round).GetNode t.VerifierID = none) :
    c.senderKeys round bvts =
      .error (InvalidRequest "Verifier unknown or not authorized at this time: %v, pool size: %d") := by
  induction bvts with
  | nil =>
    obtain ⟨t, ht, _⟩ := h
    cases ht
  | cons t rest ih =>
    unfold Chain.senderKeys
    cases hn : (c.GetMiners round).GetNode t.VerifierID with
    | none => simp only [hn]
    | some sender =>
      have hrest : ∃ t ∈ rest, (c.GetMiners round).GetNode t.VerifierID = none := by
        obtain ⟨u, hu, hun⟩ := h
        rcases List.mem_cons.1 hu with rfl | hu'
        · rw [hn] at hun
          cases hun
        · exact ⟨u, hu', hun⟩
      simp only [hn, ih hrest]

/-- Claim C21. With a context that is never done, `VerifyTickets` returns nil
exactly when every ticket's verifier id names a node of `GetMiners(round)`,
the signatures of the tickets aggregate, the public keys of those nodes
decode, and the aggregate verifies against the decoded keys with one message
`blockHash` per ticket. When some ticket's verifier is not in the miner set
the result is the `invalid_request` error, whatever the three BLS functions
are: none of them is consulted. -/
theorem VerifyTickets_nil_iff (c : Chain) (blockHash : String)
    (bvts : List VerificationTicket) (round : Int) :
    ((c.VerifyTickets background blockHash bvts round).1 = none ↔
      (∀ t ∈ bvts, (c.GetMiners round).GetNode t.VerifierID ≠ none) ∧
      ∃ aggSig pubKeys,
        c.BLS0ChainAggregateSignatures (bvts.map fun t => t.Signature) = .ok aggSig ∧
        c.GetMinersPublicKeys (bvts.filterMap fun t =>
          ((c.GetMiners round).GetNode t.VerifierID).map fun s => (c.nodes s).PublicKey)
            = .ok pubKeys ∧
        c.VerifyAggregate aggSig pubKeys (bvts.map fun _ => blockHash) = true) ∧
    ((∃ t ∈ bvts, (c.GetMiners round).GetNode t.VerifierID = none) →
      ∀ (agg : List String → Except GoError String)
        (keys : List String → Except GoError (List String))
        (ver : String → List String → List String → Bool),
        (({ c with BLS0ChainAggregateSignatures := agg, GetMinersPublicKeys := keys,
                   VerifyAggregate := ver } : Chain).VerifyTickets
            background blockHash bvts round).1 =
          some (InvalidRequest
            "Verifier unknown or not authorized at this time: %v, pool size: %d")) := by
  constructor
  · simp only [Chain.VerifyTickets, Chain.verifyTicketsResult, Chain.ticketsVerifier, background]
    cases hk : c.senderKeys round bvts with
    | error e =>
      have hno := fun pks => (senderKeys_ok_iff c round bvts pks).not.1
        (by rw [hk]; exact fun h => nomatch h)
      simp only [reduceCtorEq, false_iff, not_and, not_exists]
      intro hall
      exact absurd ⟨hall, rfl⟩ (hno _)
    | ok pks =>
      obtain ⟨hall, hpks⟩ := (senderKeys_ok_iff c round bvts pks).1 hk
      rw [← hpks]
      simp only [Chain.aggregateWorker]
      cases ha : c.BLS0ChainAggregateSignatures (bvts.map fun t => t.Signature) with
      | error e => simp [hall]
      | ok aggSig =>
        cases hp : c.GetMinersPublicKeys pks with
        | error e => simp [hall]
        | ok pubKeys =>
          cases hv : c.VerifyAggregate aggSig pubKeys (bvts.map fun _ => blockHash) with
          | false =>
            constructor
            · intro h
              simp only [hv, Bool.not_false, if_true, reduceCtorEq] at h
            · rintro ⟨_, a, ks, ha', hks, hv'⟩
              cases ha'
              cases hks
              rw [hv] at hv'
              cases hv'
          | true =>
            constructor
            · intro _
              exact ⟨hall, aggSig, pubKeys, rfl, rfl, hv⟩
            · intro _
              simp only [hv, Bool.not_true, Bool.false_eq_true, if_false]
  · intro h agg keys ver
    have key : ∀ d : Chain, d.GetMiners = c.GetMiners →
        (d.VerifyTickets background blockHash bvts round).1 = some (InvalidRequest
          "Verifier unknown or not authorized at this time: %v, pool size: %d") := by
      intro d hd
      simp only [Chain.VerifyTickets, Chain.verifyTicketsResult, Chain.ticketsVerifier,
        background, senderKeys_error d round bvts (by rw [hd]; exact h)]
    exact key _ rfl

/-- Witness of C21: on the sample chain the ticket of the unknown verifier `Z`
is refused with `invalid_request` on the chain whose BLS functions all fail. -/
theorem VerifyTickets_nil_iff_witness :
    (brokenKeysChain.VerifyTickets background "h1" [ticketOf "A", ticketOf "Z"] 10).1 =
      some (InvalidRequest
        "Verifier unknown or not authorized at this time: %v, pool size: %d") :=
  (VerifyTickets_nil_iff (sampleChain 3 0) "h1" [ticketOf "A", ticketOf "Z"] 10).2
    ⟨ticketOf "Z", by simp, by decide⟩ _ _ _

/-! ## `updateFeeStats` -/

theorem totalFees_foldl (txns : List Transaction) (acc : Int) :
    txns.foldl (fun acc txn => wrapInt64 (acc + txn.Fee)) (wrapInt64 acc)
      = wrapInt64 (acc + (txns.map fun t => t.Fee).sum) := by
  induction txns generalizing acc with
  | nil => simp
  | cons t rest ih =>
    simp only [List.foldl_cons, List.map_cons, List.sum_cons]
    rw [wrapInt64_add_left, ih, Int.add_assoc]

theorem totalFees_eq (txns : List Transaction) :
    txns.foldl (fun acc txn => wrapInt64 (acc + txn.Fee)) 0
      = wrapInt64 (txns.map fun t => t.Fee).sum := by
  have h := totalFees_foldl txns 0
  have h0 : wrapInt64 0 = 0 := by decide
  rw [h0, Int.zero_add] at h
  exact h

/-- Claim C22. On a block without transactions `updateFeeStats` leaves the
chain as it is. On a block with transactions the mean is the quotient,
truncated as Go divides, of the sum of the fees (summed as an `int64`) by the
number of transactions; `MeanFees` becomes the mean, `MaxFees` the maximum of
its old value and the mean, `MinFees` the minimum of its old value and the
mean, and nothing else changes. The sum is the plain sum whenever the plain
sum is in the `int64` range, and the quotient is the floor of the exact
quotient when that sum is not negative. -/
theorem updateFeeStats_spec (c : Chain) (fb : Ptr) :
    ((c.blocks fb).Txns = [] → c.updateFeeStats fb = c) ∧
    ((c.blocks fb).Txns ≠ [] →
      ∀ total mean, total = wrapInt64 ((c.blocks fb).Txns.map fun t => t.Fee).sum →
        mean = Int.tdiv total (c.blocks fb).Txns.length →
        c.updateFeeStats fb = { c with FeeStats :=
          { MeanFees := mean, MaxFees := max c.FeeStats.MaxFees mean,
            MinFees := min c.FeeStats.MinFees mean } } ∧
        (-9223372036854775808 ≤ ((c.blocks fb).Txns.map fun t => t.Fee).sum →
          ((c.blocks fb).Txns.map fun t => t.Fee).sum < 9223372036854775808 →
          total = ((c.blocks fb).Txns.map fun t => t.Fee).sum) ∧
        (0 ≤ total → mean = total / (c.blocks fb).Txns.length)) := by
  constructor
  · intro h
    simp [Chain.updateFeeStats, h]
  · intro h total mean htotal hmean
    have hlen : (c.blocks fb).Txns.length ≠ 0 := fun h0 => h (List.length_eq_zero.1 h0)
    refine ⟨?_, ?_, ?_⟩
    · subst hmean htotal
      unfold Chain.updateFeeStats
      simp only [hlen, if_false, totalFees_eq]
      generalize Int.tdiv _ _ = m
      by_cases h1 : m > c.FeeStats.MaxFees <;> by_cases h2 : m < c.FeeStats.MinFees
      · simp only [h1, h2, if_true, max_eq_right (le_of_lt h1), min_eq_right (le_of_lt h2)]
      · simp only [h1, h2, if_true, if_false, max_eq_right (le_of_lt h1),
          min_eq_left (not_lt.1 h2)]
      · simp only [h1, h2, if_true, if_false, max_eq_left (not_lt.1 h1),
          min_eq_right (le_of_lt h2)]
      · simp only [h1, h2, if_false, max_eq_left (not_lt.1 h1), min_eq_left (not_lt.1 h2)]
    · intro h1 h2
      rw [htotal, wrapInt64_of_inRange _ h1 h2]
    · intro h0
      rw [hmean, Int.tdiv_eq_ediv h0 (Int.ofNat_nonneg _)]

/-- Witness of C22: a block with the fees 5, 2 and 9 on a chain whose fee
statistics are mean 1, maximum 4, minimum 0: the mean becomes 5, the maximum
5, and the minimum stays 0. -/
theorem updateFeeStats_spec_witness :
    feeChain.updateFeeStats 1 = { feeChain with FeeStats :=
      { MeanFees := 5, MaxFees := max feeChain.FeeStats.MaxFees 5,
        MinFees := min feeChain.FeeStats.MinFees 5 } } :=
  (((updateFeeStats_spec feeChain 1).2 (by decide)) 16 5 (by decide) (by decide)).1

/-! ## `AddVerificationTicket` -/

theorem IsBlockNotarized_tickets (c : Chain) (b : Ptr) (r : Bool) (c' : Chain)
    (h : c.IsBlockNotarized b = .ok (r, c')) (p : Ptr) :
    (c'.blocks p).VerificationTickets = (c.blocks p).VerificationTickets := by
  have hs := (SetBlockNotarized_block c b p).2.2.2
  unfold Chain.IsBlockNotarized at h
  split at h
  · simp only [Except.ok.injEq, Prod.mk.injEq] at h
    rw [← h.2]
  · split at h
    · cases h
    · simp only [Except.ok.injEq, Prod.mk.injEq] at h
      rw [← h.2]
    · simp only at h
      split at h
      · simp only [Except.ok.injEq, Prod.mk.injEq] at h
        rw [← h.2, hs]
      · simp only [Except.ok.injEq, Prod.mk.injEq] at h
        rw [← h.2]

theorem AddVerificationTicket_rejected (c : Chain) (b : Ptr) (bvt : VerificationTicket)
    (h : (c.blocks b).VerificationTickets.any (fun t => t.VerifierID == bvt.VerifierID) = true) :
    c.AddVerificationTicket b bvt = .ok (false, c) := by
  unfold Chain.AddVerificationTicket Chain.blockAddVerificationTicket
  simp only [h, if_true, Bool.false_eq_true, if_false, Function.update_eq_self]

theorem AddVerificationTicket_inserted (c : Chain) (b : Ptr) (bvt : VerificationTicket)
    (h : (c.blocks b).VerificationTickets.any (fun t => t.VerifierID == bvt.VerifierID) = false) :
    c.AddVerificationTicket b bvt =
      match ({ c with blocks := Function.update c.blocks b { c.blocks b with
          VerificationTickets := (c.blocks b).VerificationTickets ++ [bvt] } } :
            Chain).IsBlockNotarized b with
      | .error p => .error p
      | .ok (_, c2) => .ok (true, c2) := by
  unfold Chain.AddVerificationTicket Chain.blockAddVerificationTicket
  simp only [h, Bool.false_eq_true, if_false, if_true]

/-- Claim C23. `Chain.AddVerificationTicket(b, t)` returns what the block's
own `AddVerificationTicket` returns. When the block already holds a ticket of
the verifier, the call returns false and leaves the chain as it is: the
tickets and the notarized flag of the block are unchanged and
`IsBlockNotarized` is not run. When the ticket is inserted, the call is
`IsBlockNotarized(b)` run on the chain in which the block holds the new
ticket, and it returns true when that run returns. After a call that has
returned, adding a ticket of the same verifier again returns false and
changes nothing. -/
theorem AddVerificationTicket_spec (c : Chain) (b : Ptr) (bvt : VerificationTicket) :
    (∀ r c', c.AddVerificationTicket b bvt = .ok (r, c') →
      r = (Chain.blockAddVerificationTicket (c.blocks b) bvt).2) ∧
    ((c.blocks b).VerificationTickets.any (fun t => t.VerifierID == bvt.VerifierID) = true →
      (Chain.blockAddVerificationTicket (c.blocks b) bvt).2 = false ∧
      c.AddVerificationTicket b bvt = .ok (false, c)) ∧
    ((c.blocks b).VerificationTickets.any (fun t => t.VerifierID == bvt.VerifierID) = false →
      (Chain.blockAddVerificationTicket (c.blocks b) bvt).2 = true ∧
      c.AddVerificationTicket b bvt =
        match ({ c with blocks := Function.update c.blocks b { c.blocks b with
            VerificationTickets := (c.blocks b).VerificationTickets ++ [bvt] } } :
              Chain).IsBlockNotarized b with
        | .error p => .error p
        | .ok (_, c2) => .ok (true, c2)) ∧
    (∀ r c', c.AddVerificationTicket b bvt = .ok (r, c') →
      ∀ bvt', bvt'.VerifierID = bvt.VerifierID →
        c'.AddVerificationTicket b bvt' = .ok (false, c')) := by
  refine ⟨?_, ?_, ?_, ?_⟩
  · intro r c' h
    cases hany : (c.blocks b).VerificationTickets.any (fun t => t.VerifierID == bvt.VerifierID)
    · rw [AddVerificationTicket_inserted c b bvt hany] at h
      split at h
      · cases h
      · simp only [Except.ok.injEq, Prod.mk.injEq] at h
        simp [Chain.blockAddVerificationTicket, hany, ← h.1]
    · rw [AddVerificationTicket_rejected c b bvt hany] at h
      simp only [Except.ok.injEq, Prod.mk.injEq] at h
      simp [Chain.blockAddVerificationTicket, hany, ← h.1]
  · intro hany
    exact ⟨by simp [Chain.blockAddVerificationTicket, hany],
      AddVerificationTicket_rejected c b bvt hany⟩
  · intro hany
    exact ⟨by simp [Chain.blockAddVerificationTicket, hany],
      AddVerificationTicket_inserted c b bvt hany⟩
  · intro r c' h bvt' hid
    apply AddVerificationTicket_rejected
    cases hany : (c.blocks b).VerificationTickets.any (fun t => t.VerifierID == bvt.VerifierID)
    · rw [AddVerificationTicket_inserted c b bvt hany] at h
      split at h
      · cases h
      · next r2 c2 hnot =>
        simp only [Except.ok.injEq, Prod.mk.injEq] at h
        rw [← h.2, IsBlockNotarized_tickets _ b r2 c2 hnot b]
        simp [hid]
    · rw [AddVerificationTicket_rejected c b bvt hany] at h
      simp only [Except.ok.injEq, Prod.mk.injEq] at h
      rw [← h.2, hid]
      exact hany

/-- Witness of C23: on the sample chain block `1` holds a ticket of `A`;
adding a ticket of `A` returns false and leaves the chain as it is. -/
theorem AddVerificationTicket_spec_witness :
    (Chain.blockAddVerificationTicket ((sampleChain 3 0).blocks 1) (ticketOf "A")).2 = false ∧
    (sampleChain 3 0).AddVerificationTicket 1 (ticketOf "A") = .ok (false, sampleChain 3 0) :=
  (AddVerificationTicket_spec (sampleChain 3 0) 1 (ticketOf "A")).2.1 (by decide)

/-! ## Rank statistics of `finalizeBlock` -/

theorem grownTo_getD (n : Int) (xs : List Int) (i : Nat) :
    (Chain.grownTo n xs).getD i 0 = xs.getD i 0 := by
  unfold Chain.grownTo
  simp only [List.getD_eq_getElem?_getD]
  by_cases h : i < xs.length
  · rw [List.getElem?_append_left h]
  · rw [List.getElem?_append_right (Nat.le_of_not_lt h), List.getElem?_eq_none (Nat.le_of_not_lt h)]
    by_cases h2 : i - xs.length < n.toNat - xs.length
    · rw [List.getElem?_replicate_of_lt h2]
      rfl
    · rw [List.getElem?_eq_none (by simpa using h2)]

theorem grownTo_length (n : Int) (xs : List Int) (h : n > xs.length) :
    ((Chain.grownTo n xs).length : Int) = n := by
  unfold Chain.grownTo
  simp only [List.length_append, List.length_replicate]
  omega

/-- Claim C28. The first part of `finalizeBlock`, on the finalization counts
by rank. When `fb.RoundRank` is negative or at least `generators_num` the
chain is left as it is. When it is in range and the miner of the block is a
registered node with miner statistics, the part returns: the slice is grown
to `generators_num` when shorter, the index `fb.RoundRank` is within its
bounds, the counter at that index is the old one plus 1 (as an `int64`; a
slot added by the growth counts from 0), every other counter keeps its
value, and no other node changes. The part never fails with an index out of
range. -/
theorem updateFinalizationCount_spec (c : Chain) (fb : Ptr) :
    ((c.blocks fb).RoundRank ≥ c.GeneratorsNum ∨ (c.blocks fb).RoundRank < 0 →
      c.updateFinalizationCount fb = .ok c) ∧
    (∀ n ms, 0 ≤ (c.blocks fb).RoundRank → (c.blocks fb).RoundRank < c.GeneratorsNum →
      c.GetNode (c.blocks fb).MinerID = some n →
      (c.nodes n).ProtocolStats = some (.minerStats ms) →
      ∃ counts,
        c.updateFinalizationCount fb = .ok { c with nodes := Function.update c.nodes n {
          c.nodes n with
          ProtocolStats := some (.minerStats { ms with FinalizationCountByRank := counts }) } } ∧
        (counts.length : Int) = max (ms.FinalizationCountByRank.length : Int) c.GeneratorsNum ∧
        (c.blocks fb).RoundRank < counts.length ∧
        counts.getD (c.blocks fb).RoundRank.toNat 0 =
          wrapInt64 (ms.FinalizationCountByRank.getD (c.blocks fb).RoundRank.toNat 0 + 1) ∧
        (ms.FinalizationCountByRank.getD (c.blocks fb).RoundRank.toNat 0 <
            9223372036854775807 →
          -9223372036854775808 ≤ ms.FinalizationCountByRank.getD (c.blocks fb).RoundRank.toNat 0 →
          counts.getD (c.blocks fb).RoundRank.toNat 0 =
            ms.FinalizationCountByRank.getD (c.blocks fb).RoundRank.toNat 0 + 1) ∧
        (∀ i, i ≠ (c.blocks fb).RoundRank.toNat →
          counts.getD i 0 = ms.FinalizationCountByRank.getD i 0)) ∧
    c.updateFinalizationCount fb ≠ .error .indexOutOfRange := by
  have hin : ∀ n ms, 0 ≤ (c.blocks fb).RoundRank → (c.blocks fb).RoundRank < c.GeneratorsNum →
      c.GetNode (c.blocks fb).MinerID = some n →
      (c.nodes n).ProtocolStats = some (.minerStats ms) →
      ∃ counts,
        c.updateFinalizationCount fb = .ok { c with nodes := Function.update c.nodes n {
          c.nodes n with
          ProtocolStats := some (.minerStats { ms with FinalizationCountByRank := counts }) } } ∧
        (counts.length : Int) = max (ms.FinalizationCountByRank.length : Int) c.GeneratorsNum ∧
        (c.blocks fb).RoundRank < counts.length ∧
        counts.getD (c.blocks fb).RoundRank.toNat 0 =
          wrapInt64 (ms.FinalizationCountByRank.getD (c.blocks fb).RoundRank.toNat 0 + 1) ∧
        (∀ i, i ≠ (c.blocks fb).RoundRank.toNat →
          counts.getD i 0 = ms.FinalizationCountByRank.getD i 0) := by
    intro n ms h0 h1 hn hms
    have hrange : ¬ ((c.blocks fb).RoundRank ≥ c.GeneratorsNum ∨ (c.blocks fb).RoundRank < 0) := by
      omega
    have key : ∀ grown : List Int,
        (grown.length : Int) = max (ms.FinalizationCountByRank.length : Int) c.GeneratorsNum →
        (∀ i, grown.getD i 0 = ms.FinalizationCountByRank.getD i 0) →
        Chain.incrementAt grown (c.blocks fb).RoundRank =
          .ok (grown.set (c.blocks fb).RoundRank.toNat
            (wrapInt64 (grown.getD (c.blocks fb).RoundRank.toNat 0 + 1))) ∧
        (c.blocks fb).RoundRank < grown.length := by
      intro grown hlen _
      have hlt : (c.blocks fb).RoundRank < grown.length := by
        rw [hlen]
        exact lt_of_lt_of_le h1 (le_max_right _ _)
      exact ⟨by simp [Chain.incrementAt, h0, hlt], hlt⟩
    have hgrown : ∃ grown : List Int,
        (if c.GeneratorsNum > ms.FinalizationCountByRank.length then
          Chain.grownTo c.GeneratorsNum ms.FinalizationCountByRank
        else ms.FinalizationCountByRank) = grown ∧
        (grown.length : Int) = max (ms.FinalizationCountByRank.length : Int) c.GeneratorsNum ∧
        (∀ i, grown.getD i 0 = ms.FinalizationCountByRank.getD i 0) := by
      by_cases hg : c.GeneratorsNum > ms.FinalizationCountByRank.length
      · refine ⟨_, rfl, ?_, ?_⟩
        · rw [if_pos hg, grownTo_length _ _ hg, max_eq_right (le_of_lt hg)]
        · intro i
          rw [if_pos hg, grownTo_getD]
      · refine ⟨_, rfl, ?_, ?_⟩
        · rw [if_neg hg, max_eq_left (not_lt.1 hg)]
        · intro i
          rw [if_neg hg]
    obtain ⟨grown, hgeq, hlen, hget⟩ := hgrown
    obtain ⟨hinc, hlt⟩ := key grown hlen hget
    have hlt' : (c.blocks fb).RoundRank.toNat < grown.length := by omega
    refine ⟨grown.set (c.blocks fb).RoundRank.toNat
      (wrapInt64 (grown.getD (c.blocks fb).RoundRank.toNat 0 + 1)), ?_, ?_, ?_, ?_, ?_⟩
    · unfold Chain.updateFinalizationCount
      simp only [hrange, if_false, hn, hms, hgeq, hinc]
    · rw [List.length_set, hlen]
    · rw [List.length_set]
      exact hlt
    · rw [List.getD_eq_getElem?_getD, List.getElem?_set_self hlt', hget]
      rfl
    · intro i hi
      rw [List.getD_eq_getElem?_getD, List.getElem?_set_ne (Ne.symm hi),
        ← List.getD_eq_getElem?_getD, hget]
  refine ⟨?_, ?_, ?_⟩
  · intro h
    unfold Chain.updateFinalizationCount
    simp only [h, if_true]
  · intro n ms h0 h1 hn hms
    obtain ⟨counts, hc, hl, hlt, hat, hother⟩ := hin n ms h0 h1 hn hms
    refine ⟨counts, hc, hl, hlt, hat, ?_, hother⟩
    intro hhi hlo
    rw [hat, wrapInt64_of_inRange _ (by omega) (by omega)]
  · intro herr
    by_cases hrange : (c.blocks fb).RoundRank ≥ c.GeneratorsNum ∨ (c.blocks fb).RoundRank < 0
    · simp [Chain.updateFinalizationCount, hrange] at herr
    · cases hn : c.GetNode (c.blocks fb).MinerID with
      | none => simp [Chain.updateFinalizationCount, hrange, hn] at herr
      | some n =>
        cases hps : (c.nodes n).ProtocolStats with
        | none => simp [Chain.updateFinalizationCount, hrange, hn, hps] at herr
        | some ps =>
          cases ps with
          | foreign => simp [Chain.updateFinalizationCount, hrange, hn, hps] at herr
          | minerStats ms =>
            obtain ⟨counts, hc, _⟩ := hin n ms (by omega) (by omega) hn hps
            rw [hc] at herr
            cases herr

/-- Witness of C28: on the statistics chain the miner of block `1`, of rank 1,
has the single count 4; the slice is grown to two slots, the count of rank 1
becomes 1 and the count of rank 0 stays 4. -/
theorem updateFinalizationCount_spec_witness :
    ∃ counts : List Int,
      statsChain.updateFinalizationCount 1 = .ok { statsChain with
        nodes := Function.update statsChain.nodes 0 {
          statsChain.nodes 0 with
          ProtocolStats := some (.minerStats { FinalizationCountByRank := counts
                                               GenerationCountByRank := [] }) } } ∧
      (counts.length : Int) = 2 ∧ counts.getD 1 0 = 1 ∧ counts.getD 0 0 = 4 :=
  let ⟨counts, hc, hl, _, _, hat, hother⟩ :=
    (updateFinalizationCount_spec statsChain 1).2.1 0 ⟨[4], []⟩ (by decide) (by decide) rfl rfl
  ⟨counts, hc, hl.trans (by decide), hat (by decide) (by decide), hother 0 (by decide)⟩

/-! ## Notarization with both thresholds disabled -/

/-- Claim C29. When `ThresholdByCount <= 0` and `ThresholdByStake <= 0`,
`reachedNotarization` returns true for every round, hash and ticket list, the
empty list included; and `IsBlockNotarized` returns true and leaves the block
flagged as notarized for every block whose magic-block check succeeds (the
magic block of its round starts at the round the block names, and there is a
latest finalized block), whatever tickets it holds, also when it holds
none. -/
theorem reachedNotarization_disabled (c : Chain) (hcount : c.ThresholdByCount ≤ 0)
    (hstake : c.ThresholdByStake ≤ 0) :
    (∀ round hash bvt, c.reachedNotarization round hash bvt = true) ∧
    (∀ round hash, c.reachedNotarization round hash [] = true) ∧
    (∀ b, (c.GetMagicBlock (c.blocks b).Round).StartingRound =
        (c.blocks b).LatestFinalizedMagicBlockRound →
      c.LatestFinalizedBlock ≠ none →
      c.VerifyRelatedMagicBlockPresence b = .ok none ∧
      ∃ c', c.IsBlockNotarized b = .ok (true, c') ∧ (c'.blocks b).isNotarized = true ∧
        (c'.blocks b).VerificationTickets = (c.blocks b).VerificationTickets ∧
        ∀ p, p ≠ b → c'.blocks p = c.blocks p) := by
  have hr : ∀ round hash bvt, c.reachedNotarization round hash bvt = true := by
    intro round hash bvt
    have h1 : ¬ c.ThresholdByCount > 0 := by omega
    have h2 : ¬ c.ThresholdByStake > 0 := by omega
    simp [Chain.reachedNotarization, h1, h2]
  refine ⟨hr, fun round hash => hr round hash [], ?_⟩
  intro b hsr hlfb
  have hmb := (VerifyRelatedMagicBlockPresence_ok_iff c b).2 ⟨hsr, hlfb⟩
  refine ⟨hmb, ?_⟩
  cases hflag : (c.blocks b).isNotarized with
  | true =>
    refine ⟨c, ?_, hflag, rfl, fun _ _ => rfl⟩
    simp [Chain.IsBlockNotarized, hflag]
  | false =>
    refine ⟨c.SetBlockNotarized b, ?_, ?_, (SetBlockNotarized_block c b b).2.2.2, ?_⟩
    · rw [IsBlockNotarized_unflagged c b hflag none hmb]
      simp [hr]
    · simp [Chain.SetBlockNotarized]
    · intro p hp
      simp [Chain.SetBlockNotarized, Function.update_noteq hp]

/-- Witness of C29: on the sample chain with both thresholds 0, block `0`
holds no ticket and `IsBlockNotarized` flags it as notarized. -/
theorem reachedNotarization_disabled_witness :
    ((sampleChain 0 0).blocks 0).VerificationTickets = [] ∧
    ∃ c', (sampleChain 0 0).IsBlockNotarized 0 = .ok (true, c') ∧
      (c'.blocks 0).isNotarized = true ∧
      (c'.blocks 0).VerificationTickets = ((sampleChain 0 0).blocks 0).VerificationTickets ∧
      ∀ p, p ≠ 0 → c'.blocks p = (sampleChain 0 0).blocks p :=
  ⟨rfl, ((reachedNotarization_disabled (sampleChain 0 0) (by decide) (by decide)).2.2 0 rfl
    (by decide)).2⟩

/-! ## Concurrent calls of `VerifyTickets` -/

theorem countP_set_of {α : Type} (p : α → Bool) (l : List α) (i : Nat) (x y : α)
    (h : l[i]? = some y) :
    (l.set i x).countP p + (if p y then 1 else 0) = l.countP p + (if p x then 1 else 0) := by
  induction l generalizing i with
  | nil => simp at h
  | cons a rest ih =>
    cases i with
    | zero =>
      simp only [List.getElem?_cons_zero, Option.some.injEq] at h
      subst h
      simp only [List.set_cons_zero, List.countP_cons]
      omega
    | succ j =>
      simp only [List.getElem?_cons_succ] at h
      have := ih j h
      simp only [List.set_cons_succ, List.countP_cons]
      omega

theorem getElem?_set_cases {α : Type} (l : List α) (i j : Nat) (x y z : α)
    (hi : l[i]? = some y) (h : (l.set i x)[j]? = some z) :
    (j = i ∧ z = x) ∨ (j ≠ i ∧ l[j]? = some z) := by
  by_cases hj : j = i
  · subst hj
    have hlt : j < l.length := by
      rcases Nat.lt_or_ge j l.length with h1 | h1
      · exact h1
      · rw [List.getElem?_eq_none h1] at hi
        cases hi
    rw [List.getElem?_set_self hlt] at h
    exact Or.inl ⟨rfl, (Option.some.inj h).symm⟩
  · rw [List.getElem?_set_ne (Ne.symm hj)] at h
    exact Or.inr ⟨hj, h⟩

theorem verifyTicketsResult_done (c : Chain) (e : GoError) (j : Option GoError)
    (blockHash : String) (bvts : List VerificationTicket) (round : Int) :
    c.verifyTicketsResult ⟨some e, j⟩ blockHash bvts round = some e := rfl

theorem verifyTicketsResult_joinDone (c : Chain) (e : GoError)
    (blockHash : String) (bvts : List VerificationTicket) (round : Int) (pks : List String)
    (h : c.senderKeys round bvts = .ok pks) :
    c.verifyTicketsResult ⟨none, some e⟩ blockHash bvts round = some e := by
  simp only [Chain.verifyTicketsResult, Chain.ticketsVerifier, h]

theorem Verifiers_set_invariant (s : Verifiers) (i : Nat) (old new : VerifierCall) (n : Nat)
    (st : List Nat) (hinv : s.invariant) (hi : s.calls[i]? = some old)
    (hn : n + (if old.holdsSlot then 1 else 0) =
      s.ticketsVerifyRequestC + (if new.holdsSlot then 1 else 0))
    (hle : n ≤ s.slots)
    (hsub : ∀ j, j ∈ s.started → j ∈ st) (hsup : ∀ j, j ∈ st → j ∈ s.started ∨ j = i)
    (h1 : new = .waiting → i ∉ st)
    (h2 : new.holdsSlot = true → i ∈ st)
    (h3 : new.isRunning = true →
      ∃ pks, s.chain.senderKeys (s.request i).round (s.request i).bvts = .ok pks)
    (h4 : ∀ r worker, new = .returned r worker → i ∉ st →
      worker = false ∧ r ≠ none ∧ s.ctxErr i = r)
    (h5 : ∀ r, new = .releasing r true ∨ new = .returned r true → r ≠ none ∧ s.ctxErr i = r) :
    Verifiers.invariant
      { s with ticketsVerifyRequestC := n, calls := s.calls.set i new, started := st } := by
  obtain ⟨hcount, _, hw, hheld, hkeys, hret, horph⟩ := hinv
  have hc := countP_set_of VerifierCall.holdsSlot s.calls i new old hi
  refine ⟨?_, hle, ?_, ?_, ?_, ?_, ?_⟩
  · show n = List.countP VerifierCall.holdsSlot (s.calls.set i new)
    omega
  · intro j hj
    rcases getElem?_set_cases s.calls i j new old _ hi hj with ⟨hji, hz⟩ | ⟨hji, hz⟩
    · subst hji
      exact h1 hz.symm
    · intro hmem
      rcases hsup j hmem with h | h
      · exact hw j hz h
      · exact hji h
  · intro j c hj hc2
    rcases getElem?_set_cases s.calls i j new old _ hi hj with ⟨hji, hz⟩ | ⟨hji, hz⟩
    · subst hji
      subst hz
      exact h2 hc2
    · exact hsub j (hheld j c hz hc2)
  · intro j c hj hc2
    rcases getElem?_set_cases s.calls i j new old _ hi hj with ⟨hji, hz⟩ | ⟨hji, hz⟩
    · subst hji
      subst hz
      exact h3 hc2
    · exact hkeys j c hz hc2
  · intro j r worker hj hns
    rcases getElem?_set_cases s.calls i j new old _ hi hj with ⟨hji, hz⟩ | ⟨hji, hz⟩
    · subst hji
      exact h4 r worker hz.symm hns
    · exact hret j r worker hz (fun h => hns (hsub j h))
  · intro j r hj
    have key : ∀ z, (s.calls.set i new)[j]? = some z →
        (z = .releasing r true ∨ z = .returned r true) → r ≠ none ∧ s.ctxErr j = r := by
      intro z hz0 hzr
      rcases getElem?_set_cases s.calls i j new old _ hi hz0 with ⟨hji, hz⟩ | ⟨hji, hz⟩
      · subst hji
        subst hz
        exact h5 r hzr
      · rcases hzr with h | h
        · subst h
          exact horph j r (Or.inl hz)
        · subst h
          exact horph j r (Or.inr hz)
    rcases hj with hj | hj
    · exact key _ hj (Or.inl rfl)
    · exact key _ hj (Or.inr rfl)

theorem Verifiers_step_frame (s s' : Verifiers) (a : VerifierStep)
    (h : s.step a = some s') :
    s'.slots = s.slots ∧ s'.chain = s.chain ∧ s'.request = s.request := by
  cases a with
  | cancel i e =>
    simp only [Verifiers.step] at h
    split at h
    · cases h
      exact ⟨rfl, rfl, rfl⟩
    · cases h
  | acquire i =>
    simp only [Verifiers.step] at h
    split at h
    · cases h
      exact ⟨rfl, rfl, rfl⟩
    · cases h
  | giveUp i =>
    simp only [Verifiers.step] at h
    split at h
    · cases h
      exact ⟨rfl, rfl, rfl⟩
    · cases h
  | workerDone i =>
    simp only [Verifiers.step] at h
    split at h
    · cases h
      exact ⟨rfl, rfl, rfl⟩
    · cases h
      exact ⟨rfl, rfl, rfl⟩
    · cases h
      exact ⟨rfl, rfl, rfl⟩
    · cases h
  | join i =>
    simp only [Verifiers.step] at h
    split at h
    · cases h
      exact ⟨rfl, rfl, rfl⟩
    · cases h
  | joinDone i =>
    simp only [Verifiers.step] at h
    split at h
    · cases h
      exact ⟨rfl, rfl, rfl⟩
    · cases h
      exact ⟨rfl, rfl, rfl⟩
    · cases h
  | release i =>
    simp only [Verifiers.step] at h
    split at h
    · cases h
      exact ⟨rfl, rfl, rfl⟩
    · cases h

theorem Verifiers_step_invariant (s s' : Verifiers) (a : VerifierStep)
    (hinv : s.invariant) (h : s.step a = some s') : s'.invariant := by
  have hinv0 := hinv
  obtain ⟨hcount, hle, hw, hheld, hkeys, hret, horph⟩ := hinv
  cases a with
  | cancel i e =>
    simp only [Verifiers.step] at h
    split at h
    · next hnone =>
      cases h
      refine ⟨hcount, hle, hw, hheld, hkeys, ?_, ?_⟩
      · intro j r worker hj hns
        obtain ⟨h1, h2, h3⟩ := hret j r worker hj hns
        refine ⟨h1, h2, ?_⟩
        show Function.update s.ctxErr i (some e) j = r
        have hne : j ≠ i := by
          intro hji
          subst hji
          rw [hnone] at h3
          exact h2 h3.symm
        rw [Function.update_noteq hne]
        exact h3
      · intro j r hj
        obtain ⟨h2, h3⟩ := horph j r hj
        refine ⟨h2, ?_⟩
        show Function.update s.ctxErr i (some e) j = r
        have hne : j ≠ i := by
          intro hji
          subst hji
          rw [hnone] at h3
          exact h2 h3.symm
        rw [Function.update_noteq hne]
        exact h3
    · cases h
  | acquire i =>
    simp only [Verifiers.step] at h
    split at h
    · next hg =>
      cases h
      cases hk : s.chain.senderKeys (s.request i).round (s.request i).bvts with
      | error err =>
        simp only []
        refine Verifiers_set_invariant s i .waiting _ _ _ hinv0 hg.1 ?_ (by omega)
          (fun j hj => List.mem_append_left _ hj) ?_ (fun h => nomatch h)
          (fun _ => List.mem_append_right _ (List.mem_singleton_self i))
          (fun h => nomatch h) (fun _ _ h => nomatch h) ?_
        · simp [VerifierCall.holdsSlot]
        · intro j hj
          rcases List.mem_append.1 hj with h | h
          · exact Or.inl h
          · exact Or.inr (List.mem_singleton.1 h)
        · intro r hr
          rcases hr with hr | hr
          · cases hr
          · cases hr
      | ok pks =>
        simp only []
        refine Verifiers_set_invariant s i .waiting _ _ _ hinv0 hg.1 ?_ (by omega)
          (fun j hj => List.mem_append_left _ hj) ?_ (fun h => nomatch h)
          (fun _ => List.mem_append_right _ (List.mem_singleton_self i))
          (fun _ => ⟨pks, hk⟩) (fun _ _ h => nomatch h) ?_
        · simp [VerifierCall.holdsSlot]
        · intro j hj
          rcases List.mem_append.1 hj with h | h
          · exact Or.inl h
          · exact Or.inr (List.mem_singleton.1 h)
        · intro r hr
          rcases hr with hr | hr
          · cases hr
          · cases hr
    · cases h
  | giveUp i =>
    simp only [Verifiers.step] at h
    split at h
    · next e hwt hctx =>
      cases h
      have hout : s.outcome i ⟨some e, none⟩ = some e := rfl
      rw [hout]
      refine Verifiers_set_invariant s i .waiting _ s.ticketsVerifyRequestC s.started hinv0 hwt
        ?_ hle (fun _ h => h) (fun _ h => Or.inl h) (fun h => nomatch h) (fun h => nomatch h)
        (fun h => nomatch h) ?_ ?_
      · simp [VerifierCall.holdsSlot]
      · intro r worker hr _
        cases hr
        exact ⟨rfl, (fun h => nomatch h), hctx⟩
      · intro r hr
        rcases hr with hr | hr
        · cases hr
        · cases hr
    · cases h
  | workerDone i =>
    simp only [Verifiers.step] at h
    split at h
    · next hv =>
      cases h
      refine Verifiers_set_invariant s i .verifying _ s.ticketsVerifyRequestC s.started hinv0 hv
        ?_ hle (fun _ h => h) (fun _ h => Or.inl h) (fun h => nomatch h)
        (fun _ => hheld i _ hv rfl) (fun _ => hkeys i _ hv rfl) (fun _ _ h => nomatch h) ?_
      · simp [VerifierCall.holdsSlot]
      · intro r hr
        rcases hr with hr | hr
        · cases hr
        · cases hr
    · next r hv =>
      cases h
      refine Verifiers_set_invariant s i (.releasing r true) _ s.ticketsVerifyRequestC s.started
        hinv0 hv ?_ hle (fun _ h => h) (fun _ h => Or.inl h) (fun h => nomatch h)
        (fun _ => hheld i _ hv rfl) (fun h => nomatch h) (fun _ _ h => nomatch h) ?_
      · simp [VerifierCall.holdsSlot]
      · intro r hr
        rcases hr with hr | hr
        · cases hr
        · cases hr
    · next r hv =>
      cases h
      refine Verifiers_set_invariant s i (.returned r true) _ s.ticketsVerifyRequestC s.started
        hinv0 hv ?_ hle (fun _ h => h) (fun _ h => Or.inl h) (fun h => nomatch h)
        (fun h => nomatch h) (fun h => nomatch h) ?_ ?_
      · simp [VerifierCall.holdsSlot]
      · intro r2 worker hr hns
        cases hr
        exact ⟨rfl, (hret i r true hv hns).2⟩
      · intro r hr
        rcases hr with hr | hr
        · cases hr
        · cases hr
    · cases h
  | join i =>
    simp only [Verifiers.step] at h
    split at h
    · next hv =>
      cases h
      refine Verifiers_set_invariant s i .settled _ s.ticketsVerifyRequestC s.started hinv0 hv
        ?_ hle (fun _ h => h) (fun _ h => Or.inl h) (fun h => nomatch h)
        (fun _ => hheld i _ hv rfl) (fun h => nomatch h) (fun _ _ h => nomatch h) ?_
      · simp [VerifierCall.holdsSlot]
      · intro r hr
        rcases hr with hr | hr
        · cases hr
        · cases hr
    · cases h
  | joinDone i =>
    simp only [Verifiers.step] at h
    split at h
    · next e hv hctx =>
      cases h
      obtain ⟨pks, hk⟩ := hkeys i _ hv rfl
      have hout : s.outcome i ⟨none, some e⟩ = some e :=
        verifyTicketsResult_joinDone _ e _ _ _ pks hk
      rw [hout]
      refine Verifiers_set_invariant s i .verifying _ s.ticketsVerifyRequestC s.started hinv0 hv
        ?_ hle (fun _ h => h) (fun _ h => Or.inl h) (fun h => nomatch h)
        (fun _ => hheld i _ hv rfl) (fun h => nomatch h) (fun _ _ h => nomatch h) ?_
      · simp [VerifierCall.holdsSlot]
      · intro r hr
        rcases hr with hr | hr
        · cases hr
          exact ⟨(fun h => nomatch h), hctx⟩
        · cases hr
    · next e hv hctx =>
      cases h
      refine Verifiers_set_invariant s i .settled _ s.ticketsVerifyRequestC s.started hinv0 hv
        ?_ hle (fun _ h => h) (fun _ h => Or.inl h) (fun h => nomatch h)
        (fun _ => hheld i _ hv rfl) (fun h => nomatch h) (fun _ _ h => nomatch h) ?_
      · simp [VerifierCall.holdsSlot]
      · intro r hr
        rcases hr with hr | hr
        · cases hr
        · cases hr
    · cases h
  | release i =>
    simp only [Verifiers.step] at h
    split at h
    · next r worker hv =>
      cases h
      have hin : i ∈ s.started := hheld i _ hv rfl
      have hpos : 0 < s.ticketsVerifyRequestC := by
        rw [hcount]
        exact List.countP_pos_iff.2 ⟨_, List.getElem?_mem hv, rfl⟩
      refine Verifiers_set_invariant s i (.releasing r worker) _ _ s.started hinv0 hv
        ?_ (by omega) (fun _ h => h) (fun _ h => Or.inl h) (fun h => nomatch h)
        (fun h => nomatch h) (fun h => nomatch h) (fun _ _ _ hns => absurd hin hns) ?_
      · simp only [VerifierCall.holdsSlot, if_true, Bool.false_eq_true, if_false]
        omega
      · intro r2 hr
        rcases hr with hr | hr
        · cases hr
        · cases hr
          exact horph i r (Or.inl hv)
    · cases h

theorem Verifiers_run_invariant (sched : List VerifierStep) :
    ∀ s s' : Verifiers, s.invariant → s.run sched = some s' →
      s'.invariant ∧ s'.slots = s.slots := by
  induction sched with
  | nil =>
    intro s s' hinv h
    simp only [Verifiers.run, Option.some.injEq] at h
    subst h
    exact ⟨hinv, rfl⟩
  | cons a rest ih =>
    intro s s' hinv h
    unfold Verifiers.run at h
    split at h
    · cases h
    · next s1 hs1 =>
      obtain ⟨h1, h2⟩ := ih s1 s' (Verifiers_step_invariant s s1 a hinv hs1) h
      exact ⟨h1, h2.trans (Verifiers_step_frame s s1 a hs1).1⟩

theorem countP_isRunning_le (l : List VerifierCall) :
    l.countP VerifierCall.isRunning ≤ l.countP VerifierCall.holdsSlot := by
  induction l with
  | nil => simp
  | cons c rest ih =>
    simp only [List.countP_cons]
    cases c <;> simp [VerifierCall.isRunning, VerifierCall.holdsSlot] <;> omega
/-- Claim C24, amended. From a state in which the channel is empty and every
call stands at the `select` of `ticketsVerifier`, after any schedule of
steps: at most `slots` calls are running `f`, and the channel holds at most
`slots` values; a call that has returned without `f` having been invoked in
it has returned the error of its context, which is not nil, and has started
no worker; a call at the `select` whose context is done while no slot is
free cannot take a slot: its one step is to return the error of its context,
which is what `ticketsVerifier` returns for that case whatever `f` is, and
`f` is not invoked in it and no further verification starts. The worker
goroutines are bounded less: a worker that verifies while its call has no
slot belongs to a call that returned the error of its context, so at most
`slots` workers verify as long as no context is done. -/
theorem ticketsVerifier_bounded (s0 : Verifiers) (hfree : s0.ticketsVerifyRequestC = 0)
    (hwait : ∀ c ∈ s0.calls, c = .waiting) (hnone : s0.started = [])
    (sched : List VerifierStep) (s : Verifiers) (hrun : s0.run sched = some s) :
    s.runningCount ≤ s0.slots ∧
    s.ticketsVerifyRequestC ≤ s0.slots ∧
    (∀ i r worker, s.calls[i]? = some (.returned r worker) → i ∉ s.started →
      worker = false ∧ r ≠ none ∧ s.ctxErr i = r) ∧
    (∀ i e, s.calls[i]? = some .waiting → s.ctxErr i = some e →
      s.ticketsVerifyRequestC = s.slots →
      s.step (.acquire i) = none ∧ s.step (.workerDone i) = none ∧ s.step (.join i) = none ∧
      s.step (.joinDone i) = none ∧ s.step (.release i) = none ∧
      (∀ ctx f, ctx.doneAtAcquire = some e → Chain.ticketsVerifier ctx f = some e) ∧
      ∃ s', s.step (.giveUp i) = some s' ∧ s'.calls[i]? = some (.returned (some e) false) ∧
        i ∉ s'.started ∧ s'.runningCount = s.runningCount ∧
        s'.workerCount = s.workerCount) ∧
    (∀ i c, s.calls[i]? = some c → c.workerRuns = true → c.holdsSlot = false →
      ∃ e, s.ctxErr i = some e ∧ c = .returned (some e) true) ∧
    ((∀ i, s.ctxErr i = none) → s.workerCount ≤ s0.slots) := by
  have hcount0 : s0.calls.countP VerifierCall.holdsSlot = 0 := by
    rw [List.countP_eq_zero]
    intro c hc
    rw [hwait c hc]
    simp [VerifierCall.holdsSlot]
  have hinv0 : s0.invariant := by
    refine ⟨by rw [hfree, hcount0], by rw [hfree]; exact Nat.zero_le _, ?_, ?_, ?_, ?_, ?_⟩
    · intro i _
      rw [hnone]
      exact List.not_mem_nil i
    · intro i c hi hc
      have hmem : c ∈ s0.calls := List.getElem?_mem hi
      rw [hwait c hmem] at hc
      cases hc
    · intro i c hi hc
      have hmem : c ∈ s0.calls := List.getElem?_mem hi
      rw [hwait c hmem] at hc
      cases hc
    · intro i r worker hi _
      have hmem : VerifierCall.returned r worker ∈ s0.calls := List.getElem?_mem hi
      cases hwait _ hmem
    · intro i r hi
      rcases hi with hi | hi
      · cases hwait _ (List.getElem?_mem hi)
      · cases hwait _ (List.getElem?_mem hi)
  obtain ⟨⟨hcount, hle, hw, hheld, hkeys, hret, horph⟩, hslots⟩ :=
    Verifiers_run_invariant sched s0 s hinv0 hrun
  have horphan : ∀ i c, s.calls[i]? = some c → c.workerRuns = true → c.holdsSlot = false →
      ∃ e, s.ctxErr i = some e ∧ c = .returned (some e) true := by
    intro i c hi hwr hns
    cases c with
    | waiting => cases hwr
    | verifying => cases hns
    | settled => cases hns
    | releasing r worker => cases hns
    | returned r worker =>
      simp only [VerifierCall.workerRuns] at hwr
      subst hwr
      obtain ⟨h1, h2⟩ := horph i r (Or.inr hi)
      cases r with
      | none => exact absurd rfl h1
      | some e => exact ⟨e, h2, rfl⟩
  refine ⟨?_, ?_, hret, ?_, horphan, ?_⟩
  · unfold Verifiers.runningCount
    have := countP_isRunning_le s.calls
    omega
  · omega
  · intro i e hi hctx hfull
    have hlt : i < s.calls.length := by
      rcases Nat.lt_or_ge i s.calls.length with h1 | h1
      · exact h1
      · rw [List.getElem?_eq_none h1] at hi
        cases hi
    refine ⟨?_, ?_, ?_, ?_, ?_, ?_, ?_⟩
    · simp only [Verifiers.step, hi, true_and]
      rw [if_neg (by omega)]
    · simp only [Verifiers.step, hi]
    · simp only [Verifiers.step, hi]
      rw [if_neg (by simp)]
    · simp only [Verifiers.step, hi]
    · simp only [Verifiers.step, hi]
    · intro ctx f hdone
      simp only [Chain.ticketsVerifier, hdone]
    · refine ⟨{ s with calls := s.calls.set i (.returned (some e) false) }, ?_, ?_, hw i hi,
        ?_, ?_⟩
      · simp only [Verifiers.step, hi, hctx]
        rfl
      · exact List.getElem?_set_self hlt
      · have hc := countP_set_of VerifierCall.isRunning s.calls i (.returned (some e) false)
          .waiting hi
        simp only [VerifierCall.isRunning, Bool.false_eq_true, if_false] at hc
        unfold Verifiers.runningCount
        show List.countP VerifierCall.isRunning (s.calls.set i _) = _
        omega
      · have hc := countP_set_of VerifierCall.workerRuns s.calls i (.returned (some e) false)
          .waiting hi
        simp only [VerifierCall.workerRuns, Bool.false_eq_true, if_false] at hc
        unfold Verifiers.workerCount
        show List.countP VerifierCall.workerRuns (s.calls.set i _) = _
        omega
  · intro hno
    unfold Verifiers.workerCount
    have hmono : s.calls.countP VerifierCall.workerRuns ≤
        s.calls.countP VerifierCall.holdsSlot := by
      apply List.countP_mono_left
      intro c hc hwr
      obtain ⟨i, hi⟩ := List.getElem?_of_mem hc
      cases hs : c.holdsSlot with
      | true => rfl
      | false =>
        obtain ⟨e, he, _⟩ := horphan i c hi hwr hs
        rw [hno i] at he
        cases he
    omega

/-- Witness of C24: two calls on a verifier with one slot. Call `0` takes the
slot, the context of call `1` is cancelled, and call `1` returns the error of
its context; one call is running and `f` was invoked in call `0` only. -/
theorem ticketsVerifier_bounded_witness :
    ∃ s, twoCalls.run [.acquire 0, .cancel 1 ⟨"", "context canceled"⟩, .giveUp 1] = some s ∧
      s.runningCount ≤ twoCalls.slots ∧
      s.calls = [.verifying, .returned (some ⟨"", "context canceled"⟩) false] ∧
      s.started = [0] :=
  ⟨_, rfl, (ticketsVerifier_bounded twoCalls rfl (by decide) rfl
    [.acquire 0, .cancel 1 ⟨"", "context canceled"⟩, .giveUp 1] _ rfl).1, rfl, rfl⟩

/-- Counterexample to C24 as stated: two calls on a verifier with one slot.
Call `0` takes the slot and starts its worker; its context is cancelled, `f`
takes the case `<-ctx.Done()` and returns, and the deferred receive frees the
slot while the worker goes on; call `1` takes the slot and starts its worker.
Two aggregate verifications are running with one slot. -/
theorem ticketsVerifier_workers_exceed :
    ∃ s, twoCalls.run [.acquire 0, .cancel 0 ⟨"", "context canceled"⟩, .joinDone 0,
        .release 0, .acquire 1] = some s ∧
      s.slots = 1 ∧ s.ticketsVerifyRequestC = 1 ∧
      s.calls = [.returned (some ⟨"", "context canceled"⟩) true, .verifying] ∧
      s.workerCount = 2 ∧ s.runningCount = 1 :=
  ⟨_, rfl, rfl, rfl, rfl, rfl, rfl⟩

/-! ## `BlockRequests.GetByHashOrRound` -/

theorem getByHashOrRoundFrom_some (hash : String) (round : Int) (l : List stats.BlockRequest)
    (r : stats.BlockRequest) :
    stats.BlockRequests.getByHashOrRoundFrom hash round l = some r ↔
      ∃ before after, l = before ++ r :: after ∧
        stats.BlockRequests.matchesHashOrRound r hash round = true ∧
        ∀ x ∈ before, stats.BlockRequests.matchesHashOrRound x hash round = false := by
  induction l with
  | nil => simp [stats.BlockRequests.getByHashOrRoundFrom]
  | cons a rest ih =>
    unfold stats.BlockRequests.getByHashOrRoundFrom
    cases ha : stats.BlockRequests.matchesHashOrRound a hash round with
    | true =>
      simp only [if_true, Option.some.injEq]
      constructor
      · rintro rfl
        exact ⟨[], rest, rfl, ha, fun _ h => nomatch h⟩
      · rintro ⟨before, after, hl, _, hb⟩
        cases before with
        | nil =>
          simp only [List.nil_append, List.cons.injEq] at hl
          exact hl.1
        | cons b bs =>
          simp only [List.cons_append, List.cons.injEq] at hl
          have := hb b (List.mem_cons_self _ _)
          rw [← hl.1, ha] at this
          cases this
    | false =>
      simp only [Bool.false_eq_true, if_false, ih]
      constructor
      · rintro ⟨before, after, hl, hr, hb⟩
        refine ⟨a :: before, after, by rw [hl]; rfl, hr, ?_⟩
        intro x hx
        rcases List.mem_cons.1 hx with rfl | hx'
        · exact ha
        · exact hb x hx'
      · rintro ⟨before, after, hl, hr, hb⟩
        cases before with
        | nil =>
          simp only [List.nil_append, List.cons.injEq] at hl
          rw [hl.1, hr] at ha
          cases ha
        | cons b bs =>
          simp only [List.cons_append, List.cons.injEq] at hl
          exact ⟨bs, after, hl.2, hr, fun x hx => hb x (List.mem_cons_of_mem _ hx)⟩

theorem getByHashOrRoundFrom_none (hash : String) (round : Int) (l : List stats.BlockRequest) :
    stats.BlockRequests.getByHashOrRoundFrom hash round l = none ↔
      ∀ x ∈ l, stats.BlockRequests.matchesHashOrRound x hash round = false := by
  induction l with
  | nil => simp [stats.BlockRequests.getByHashOrRoundFrom]
  | cons a rest ih =>
    unfold stats.BlockRequests.getByHashOrRoundFrom
    cases ha : stats.BlockRequests.matchesHashOrRound a hash round with
    | true => simp [ha]
    | false => simp [ha, ih]

theorem matchesHashOrRound_iff (x : stats.BlockRequest) (hash : String) (round : Int) :
    stats.BlockRequests.matchesHashOrRound x hash round = true ↔
      (x.Hash = hash ∧ x.Round = 0) ∨ (x.Round = round ∧ x.Hash = "") ∨
        (x.Hash = hash ∧ x.Round = round) := by
  simp [stats.BlockRequests.matchesHashOrRound, or_assoc]

/-- Claim C27, amended. A recorded request matches `(hash, round)` when it has
the hash and its round is 0, or it has the round and its hash is empty, or it
has both the hash and the round. `GetByHashOrRound(hash, round)` returns the
first recorded request that matches, which has the given hash or the given
round, and returns nil if and only if no recorded request matches. -/
theorem GetByHashOrRound_spec (bi : stats.BlockRequests) (hash : String) (round : Int) :
    (∀ r, bi.GetByHashOrRound hash round = some r ↔
      ∃ before after, bi.list = before ++ r :: after ∧
        ((r.Hash = hash ∧ r.Round = 0) ∨ (r.Round = round ∧ r.Hash = "") ∨
          (r.Hash = hash ∧ r.Round = round)) ∧
        ∀ x ∈ before, ¬ ((x.Hash = hash ∧ x.Round = 0) ∨ (x.Round = round ∧ x.Hash = "") ∨
          (x.Hash = hash ∧ x.Round = round))) ∧
    (∀ r, bi.GetByHashOrRound hash round = some r →
      r ∈ bi.list ∧ (r.Hash = hash ∨ r.Round = round)) ∧
    (bi.GetByHashOrRound hash round = none ↔
      ∀ x ∈ bi.list, ¬ ((x.Hash = hash ∧ x.Round = 0) ∨ (x.Round = round ∧ x.Hash = "") ∨
        (x.Hash = hash ∧ x.Round = round))) := by
  have h1 : ∀ r, bi.GetByHashOrRound hash round = some r ↔
      ∃ before after, bi.list = before ++ r :: after ∧
        ((r.Hash = hash ∧ r.Round = 0) ∨ (r.Round = round ∧ r.Hash = "") ∨
          (r.Hash = hash ∧ r.Round = round)) ∧
        ∀ x ∈ before, ¬ ((x.Hash = hash ∧ x.Round = 0) ∨ (x.Round = round ∧ x.Hash = "") ∨
          (x.Hash = hash ∧ x.Round = round)) := by
    intro r
    unfold stats.BlockRequests.GetByHashOrRound
    rw [getByHashOrRoundFrom_some]
    constructor
    · rintro ⟨before, after, hl, hr, hb⟩
      refine ⟨before, after, hl, (matchesHashOrRound_iff r hash round).1 hr, ?_⟩
      intro x hx hm
      have := hb x hx
      rw [(matchesHashOrRound_iff x hash round).2 hm] at this
      cases this
    · rintro ⟨before, after, hl, hr, hb⟩
      refine ⟨before, after, hl, (matchesHashOrRound_iff r hash round).2 hr, ?_⟩
      intro x hx
      cases hm : stats.BlockRequests.matchesHashOrRound x hash round with
      | false => rfl
      | true => exact absurd ((matchesHashOrRound_iff x hash round).1 hm) (hb x hx)
  refine ⟨h1, ?_, ?_⟩
  · intro r hr
    obtain ⟨before, after, hl, hm, _⟩ := (h1 r).1 hr
    refine ⟨by rw [hl]; simp, ?_⟩
    rcases hm with h | h | h
    · exact Or.inl h.1
    · exact Or.inr h.1
    · exact Or.inl h.1
  · unfold stats.BlockRequests.GetByHashOrRound
    rw [getByHashOrRoundFrom_none]
    constructor
    · intro h x hx hm
      have := h x hx
      rw [(matchesHashOrRound_iff x hash round).2 hm] at this
      cases this
    · intro h x hx
      cases hm : stats.BlockRequests.matchesHashOrRound x hash round with
      | false => rfl
      | true => exact absurd ((matchesHashOrRound_iff x hash round).1 hm) (h x hx)

/-- Witness of C27: the request of hash `h` and round 5 is found for the hash
`h` and the round 5, and it is in the list. -/
theorem GetByHashOrRound_spec_witness :
    recordedRequest ∈ (⟨[recordedRequest]⟩ : stats.BlockRequests).list ∧
    (recordedRequest.Hash = "h" ∨ recordedRequest.Round = 5) :=
  (GetByHashOrRound_spec ⟨[recordedRequest]⟩ "h" 5).2.1 recordedRequest (by decide)

/-- Counterexample to C27 as stated: the list holds a request of hash `h` and
round 5; `GetByHashOrRound("h", 7)` returns nil although the request has the
given hash, and `GetByHashOrRound("x", 5)` returns nil although it has the
given round. -/
theorem GetByHashOrRound_misses_hash :
    recordedRequest ∈ (⟨[recordedRequest]⟩ : stats.BlockRequests).list ∧
    recordedRequest.Hash = "h" ∧ recordedRequest.Round = 5 ∧
    (⟨[recordedRequest]⟩ : stats.BlockRequests).GetByHashOrRound "h" 7 = none ∧
    (⟨[recordedRequest]⟩ : stats.BlockRequests).GetByHashOrRound "x" 5 = none := by
  refine ⟨by simp, rfl, rfl, by decide, by decide⟩

/-! ## `updateAllocationRequest.validate` -/

/-- Claim C26. `validate` returns an error for every request that changes
nothing (zero size and expiration change, no blobber to add, no name, no
third-party flag that is not yet set, no file options that differ, same
owner); for every request whose resulting size `alloc.Size + uar.Size`,
computed as an `int64`, is below `conf.MinAllocSize`; and for every allocation
without blobbers. It returns nil for a size increase with no blobber to add or
remove, a non-negative expiration change and `FileOptions <= 63`, on an
allocation with at least one blobber, when the resulting size is at least
`MinAllocSize`. -/
theorem validate_spec (uar : storagesc.updateAllocationRequest) (conf : storagesc.Config)
    (alloc : storagesc.StorageAllocation) :
    (uar.Size = 0 → uar.Expiration = 0 → uar.AddBlobberId = "" → uar.Name = "" →
      (uar.SetThirdPartyExtendable = true → alloc.ThirdPartyExtendable = true) →
      (uar.FileOptionsChanged = true → uar.FileOptions = alloc.FileOptions) →
      alloc.Owner = uar.OwnerID →
      uar.validate conf alloc = some ⟨"", "update allocation changes nothing"⟩) ∧
    (wrapInt64 (alloc.Size + uar.Size) < conf.MinAllocSize → uar.validate conf alloc ≠ none) ∧
    (-9223372036854775808 ≤ alloc.Size + uar.Size →
      alloc.Size + uar.Size < 9223372036854775808 →
      alloc.Size + uar.Size < conf.MinAllocSize → uar.validate conf alloc ≠ none) ∧
    (alloc.BlobberAllocs = [] → uar.validate conf alloc ≠ none) ∧
    (0 < uar.Size → uar.AddBlobberId = "" → uar.RemoveBlobberId = "" → 0 ≤ uar.Expiration →
      uar.FileOptions ≤ 63 → alloc.BlobberAllocs ≠ [] →
      conf.MinAllocSize ≤ wrapInt64 (alloc.Size + uar.Size) →
      uar.validate conf alloc = none) := by
  have hsmall : wrapInt64 (alloc.Size + uar.Size) < conf.MinAllocSize →
      uar.validate conf alloc ≠ none := by
    intro h
    unfold storagesc.updateAllocationRequest.validate
    split_ifs <;> exact fun h => nomatch h
  refine ⟨?_, hsmall, ?_, ?_, ?_⟩
  · intro h1 h2 h3 h4 h5 h6 h7
    have hc : uar.changesNothing alloc = true := by
      unfold storagesc.updateAllocationRequest.changesNothing
      cases hs : uar.SetThirdPartyExtendable <;> cases hf : uar.FileOptionsChanged <;>
        simp_all
    unfold storagesc.updateAllocationRequest.validate
    rw [if_pos hc]
  · intro h1 h2 h3
    apply hsmall
    rw [wrapInt64_of_inRange _ h1 h2]
    exact h3
  · intro h
    have hlen : alloc.BlobberAllocs.length = 0 := by rw [h]; rfl
    unfold storagesc.updateAllocationRequest.validate
    split_ifs <;> exact fun h => nomatch h
  · intro h1 h2 h3 h4 h5 h6 h7
    have hc : uar.changesNothing alloc = false := by
      unfold storagesc.updateAllocationRequest.changesNothing
      have : ¬ uar.Size = 0 := by omega
      simp [this]
    have hlen : ¬ alloc.BlobberAllocs.length = 0 := fun h => h6 (List.length_eq_zero.1 h)
    unfold storagesc.updateAllocationRequest.validate
    rw [hc]
    simp only [Bool.false_eq_true, if_false, not_lt.2 h7, not_lt.2 h4, hlen, h2, h3, ne_eq,
      not_true_eq_false, false_and, and_false, not_lt.2 h5, gt_iff_lt]

/-- Witness of C26: on the sample allocation of 10 GB with a minimal size of
1 GB, a size increase of 1 GB is valid. -/
theorem validate_spec_witness :
    (sizeRequest GB).validate ⟨GB⟩ sampleAllocation = none :=
  (validate_spec (sizeRequest GB) ⟨GB⟩ sampleAllocation).2.2.2.2 (by decide) rfl rfl
    (by decide) (by decide) (by decide) (by decide)

/-! ## Limits of the faucet -/

theorem validPourRequest_ok (un : faucetsc.UserNode) (t : faucetsc.Transaction)
    (balances : faucetsc.StateContext) (gn : faucetsc.GlobalNode)
    (h : (un.validPourRequest t balances gn).1 = true) :
    ∃ bal, balances.GetClientBalance gn.ID = .balance bal ∧ gn.PourAmount ≤ bal ∧
      wrapUint64 (gn.PourAmount + un.Used) ≤ gn.PeriodicLimit ∧
      wrapUint64 (gn.PourAmount + gn.Used) ≤ gn.GlobalLimit := by
  unfold faucetsc.UserNode.validPourRequest at h
  cases hb : balances.GetClientBalance gn.ID with
  | valueNotPresent =>
    rw [hb] at h
    cases h
  | failed e =>
    rw [hb] at h
    cases h
  | balance bal =>
    rw [hb] at h
    simp only at h
    by_cases h1 : gn.PourAmount > bal
    · simp only [h1, if_true, Bool.false_eq_true] at h
    by_cases h2 : wrapUint64 (gn.PourAmount + un.Used) > gn.PeriodicLimit
    · simp only [h1, h2, if_true, if_false, Bool.false_eq_true] at h
    by_cases h3 : wrapUint64 (gn.PourAmount + gn.Used) > gn.GlobalLimit
    · simp only [h1, h2, h3, if_true, if_false, Bool.false_eq_true] at h
    exact ⟨bal, rfl, Nat.le_of_not_lt h1, Nat.le_of_not_lt h2, Nat.le_of_not_lt h3⟩

theorem validPourRequest_err (un : faucetsc.UserNode) (t : faucetsc.Transaction)
    (balances : faucetsc.StateContext) (gn : faucetsc.GlobalNode)
    (h : (un.validPourRequest t balances gn).1 = false) :
    (un.validPourRequest t balances gn).2 ≠ none := by
  unfold faucetsc.UserNode.validPourRequest at h ⊢
  cases hb : balances.GetClientBalance gn.ID with
  | valueNotPresent => exact fun h => nomatch h
  | failed e => exact fun h => nomatch h
  | balance bal =>
    rw [hb] at h
    simp only at h ⊢
    by_cases h1 : gn.PourAmount > bal
    · simp only [h1, if_true]
      exact fun h => nomatch h
    by_cases h2 : wrapUint64 (gn.PourAmount + un.Used) > gn.PeriodicLimit
    · simp only [h1, h2, if_true, if_false]
      exact fun h => nomatch h
    by_cases h3 : wrapUint64 (gn.PourAmount + gn.Used) > gn.GlobalLimit
    · simp only [h1, h2, h3, if_true, if_false]
      exact fun h => nomatch h
    simp only [h1, h2, h3, if_false, Bool.true_eq_false] at h

theorem pour_succeeds_inv (t : faucetsc.Transaction) (balances : faucetsc.StateContext)
    (gn : faucetsc.GlobalNode) (h : (faucetsc.pour t balances gn).err = none) :
    ((faucetsc.getUserVariables t gn balances).validPourRequest t balances gn).1 = true ∧
    ∃ amount,
      amount = (if t.ValueZCN > 0 ∧ t.ValueZCN < wrapInt64 gn.MaxPourAmount then
        wrapUint64 t.ValueZCN.toNat else gn.PourAmount) ∧
      (faucetsc.pour t balances gn).transfer =
        some (faucetsc.NewTransfer t.ToClientID t.ClientID amount) ∧
      (faucetsc.pour t balances gn).balances.transfers =
        balances.transfers ++ [faucetsc.NewTransfer t.ToClientID t.ClientID amount] ∧
      (faucetsc.pour t balances gn).user.Used =
        wrapUint64 ((faucetsc.getUserVariables t gn balances).Used + amount) ∧
      (faucetsc.pour t balances gn).gn.Used = wrapUint64 (gn.Used + amount) := by
  cases hok : ((faucetsc.getUserVariables t gn balances).validPourRequest t balances gn).1 with
  | false =>
    have herr := validPourRequest_err _ t balances gn hok
    have hp : (faucetsc.pour t balances gn).err =
        ((faucetsc.getUserVariables t gn balances).validPourRequest t balances gn).2 := by
      unfold faucetsc.pour
      simp only [hok, Bool.false_eq_true, if_false]
    rw [hp] at h
    exact absurd h herr
  | true =>
    refine ⟨rfl, _, rfl, ?_⟩
    unfold faucetsc.pour at h ⊢
    simp only [hok, if_true] at h ⊢
    generalize (if t.ValueZCN > 0 ∧ t.ValueZCN < wrapInt64 gn.MaxPourAmount then
        wrapUint64 t.ValueZCN.toNat else gn.PourAmount) = amount at h ⊢
    generalize faucetsc.getUserVariables t gn balances = user at h ⊢
    cases ha : balances.AddTransfer (faucetsc.NewTransfer t.ToClientID t.ClientID amount) with
    | some e => simp [ha] at h
    | none =>
      simp only [ha] at h ⊢
      split at h
      · simp at h
      · split at h
        · simp at h
        · exact ⟨rfl, rfl, rfl, rfl⟩

theorem wrapUint64_toNat (v : Int) (h0 : 0 < v) (h1 : v < 9223372036854775808) :
    ((wrapUint64 v.toNat : Nat) : Int) = v := by
  have h2 : v.toNat < 18446744073709551616 := by omega
  unfold wrapUint64
  rw [Nat.mod_eq_of_lt h2]
  omega

/-- Claim C30, what the code does. A pour that succeeds has passed the three
tests of `validPourRequest`, which compare the default amount `PourAmount`
with the balance of the faucet and with the two limits. When the transaction
asks for no custom amount, the transfer is of `PourAmount` and the balance,
the periodic limit and the global limit are respected. When it asks for a
custom amount `0 < ValueZCN < MaxPourAmount`, the transfer is of `ValueZCN`
and the two `Used` amounts grow by `ValueZCN`, an amount that no test has
compared with the balance or with a limit. -/
theorem pour_limits (t : faucetsc.Transaction) (balances : faucetsc.StateContext)
    (gn : faucetsc.GlobalNode) (h : (faucetsc.pour t balances gn).err = none) :
    ∃ transfer bal, (faucetsc.pour t balances gn).transfer = some transfer ∧
      balances.GetClientBalance gn.ID = .balance bal ∧
      (faucetsc.pour t balances gn).balances.transfers = balances.transfers ++ [transfer] ∧
      (faucetsc.pour t balances gn).user.Used =
        wrapUint64 ((faucetsc.getUserVariables t gn balances).Used + transfer.Amount) ∧
      (faucetsc.pour t balances gn).gn.Used = wrapUint64 (gn.Used + transfer.Amount) ∧
      gn.PourAmount ≤ bal ∧
      (¬ (0 < t.ValueZCN ∧ t.ValueZCN < wrapInt64 gn.MaxPourAmount) →
        transfer.Amount = gn.PourAmount ∧ transfer.Amount ≤ bal ∧
        (faucetsc.pour t balances gn).user.Used ≤ gn.PeriodicLimit ∧
        (faucetsc.pour t balances gn).gn.Used ≤ gn.GlobalLimit) ∧
      (0 < t.ValueZCN → t.ValueZCN < wrapInt64 gn.MaxPourAmount →
        (transfer.Amount : Int) = t.ValueZCN) := by
  obtain ⟨hok, amount, hamount, htr, hts, hu, hg⟩ := pour_succeeds_inv t balances gn h
  obtain ⟨bal, hb, h1, h2, h3⟩ := validPourRequest_ok _ t balances gn hok
  refine ⟨_, bal, htr, hb, hts, hu, hg, h1, ?_, ?_⟩
  · intro hdef
    have ha : amount = gn.PourAmount := by
      rw [hamount, if_neg (fun hc => hdef ⟨hc.1, hc.2⟩)]
    have hamt : (faucetsc.NewTransfer t.ToClientID t.ClientID amount).Amount = gn.PourAmount := ha
    refine ⟨hamt, by rw [hamt]; exact h1, ?_, ?_⟩
    · rw [hu, ha, Nat.add_comm]
      exact h2
    · rw [hg, ha, Nat.add_comm]
      exact h3
  · intro hpos hmax
    have hr := wrapInt64_range gn.MaxPourAmount
    have ha : amount = wrapUint64 t.ValueZCN.toNat := by rw [hamount, if_pos ⟨hpos, hmax⟩]
    have hlt : t.ValueZCN < 9223372036854775808 := lt_trans hmax hr.2
    show ((amount : Nat) : Int) = t.ValueZCN
    rw [ha]
    exact wrapUint64_toNat t.ValueZCN hpos hlt


/-- Witness of C30, the failing input: the faucet holds 3 tokens, pours 1 by
default and at most 10 on request, and both limits are 5. A transaction that
asks for 9 tokens succeeds: 9 tokens are transferred, above the balance, and
both `Used` amounts become 9, above their limits. -/
theorem pour_limits_witness :
    (faucetsc.pour (pourRequest 9) (faucetContext 3) smallFaucet).err = none ∧
    (∃ transfer, (faucetsc.pour (pourRequest 9) (faucetContext 3) smallFaucet).transfer =
        some transfer ∧ (transfer.Amount : Int) = 9) ∧
    (faucetContext 3).GetClientBalance smallFaucet.ID = .balance 3 ∧
    (faucetsc.pour (pourRequest 9) (faucetContext 3) smallFaucet).user.Used = 9 ∧
    smallFaucet.PeriodicLimit = 5 ∧
    (faucetsc.pour (pourRequest 9) (faucetContext 3) smallFaucet).gn.Used = 9 ∧
    smallFaucet.GlobalLimit = 5 :=
  ⟨rfl,
    (let ⟨transfer, _, htr, _, _, _, _, _, _, hcustom⟩ :=
      pour_limits (pourRequest 9) (faucetContext 3) smallFaucet rfl
     ⟨transfer, htr, hcustom (by decide) (by decide)⟩),
    rfl, rfl, rfl, rfl, rfl⟩

/-! ## `updateAllocationRequest.getBlobbersSizeDiff` -/

theorem upShift_spec (n d : Nat) :
    ∀ fuel k, 2 ^ 52 * d ≤ n * 2 ^ (k + fuel) →
      2 ^ 52 * d ≤ n * 2 ^ (storagesc.Float64.upShift fuel n d k) := by
  intro fuel
  induction fuel with
  | zero =>
    intro k h
    simpa [storagesc.Float64.upShift] using h
  | succ f ih =>
    intro k h
    unfold storagesc.Float64.upShift
    split_ifs with hk
    · exact hk
    · apply ih (k + 1)
      have : k + 1 + f = k + (f + 1) := by omega
      rw [this]
      exact h

theorem roundDiv_bounds (N b P : Nat) (hb : 0 < b) (h2 : b < 2 * P) :
    N / b * P ≤ storagesc.Float64.roundDiv (N * P) b ∧
    storagesc.Float64.roundDiv (N * P) b < N / b * P + P ∧
    (N % b = 0 → storagesc.Float64.roundDiv (N * P) b = N / b * P) ∧
    (0 < N % b → N / b * P < storagesc.Float64.roundDiv (N * P) b) := by
  have hN : b * (N / b) + N % b = N := Nat.div_add_mod N b
  have hR : N % b < b := Nat.mod_lt N hb
  generalize N / b = Q at hN ⊢
  generalize N % b = R at hN hR ⊢
  have hy : b * (R * P / b) + R * P % b = R * P := Nat.div_add_mod (R * P) b
  have hz : R * P % b < b := Nat.mod_lt _ hb
  have hq : N * P / b = Q * P + R * P / b ∧ N * P % b = R * P % b := by
    rw [Nat.div_mod_unique hb]
    refine ⟨?_, hz⟩
    rw [← hN, Nat.add_mul, Nat.mul_add, Nat.mul_assoc]
    omega
  generalize R * P / b = y at hy hq
  generalize R * P % b = z at hy hz hq
  have hRP : R * P + P ≤ b * P := by
    have : (R + 1) * P ≤ b * P := Nat.mul_le_mul_right P hR
    rw [Nat.add_mul, Nat.one_mul] at this
    exact this
  have hstar : b * y + z + P ≤ b * P := by omega
  have hyP : y < P := by
    have : b * y < b * P := by omega
    exact Nat.lt_of_mul_lt_mul_left this
  have hup : b ≤ 2 * z → y + 1 < P := by
    intro hz2
    have : b * (y + 1) < b * P := by
      rw [Nat.mul_add, Nat.mul_one]
      omega
    exact Nat.lt_of_mul_lt_mul_left this
  have hzero : R = 0 → y = 0 ∧ z = 0 := by
    intro h0
    rw [h0, Nat.zero_mul] at hy
    have hby : b * y = 0 := by omega
    rcases Nat.mul_eq_zero.1 hby with h | h
    · omega
    · exact ⟨h, by omega⟩
  have hpos : 0 < R → y = 0 → b < 2 * z := by
    intro hRpos hy0
    rw [hy0, Nat.mul_zero, Nat.zero_add] at hy
    have : 1 * P ≤ R * P := Nat.mul_le_mul_right P hRpos
    omega
  unfold storagesc.Float64.roundDiv
  simp only [hq.1, hq.2]
  refine ⟨?_, ?_, ?_, ?_⟩
  · split_ifs <;> omega
  · split_ifs with h
    · have := hup (by omega)
      omega
    · omega
  · intro h0
    obtain ⟨hy0, hz0⟩ := hzero h0
    rw [if_neg (by omega)]
    omega
  · intro hRpos
    split_ifs with h
    · omega
    · by_cases hy0 : y = 0
      · exact absurd (Or.inl (hpos hRpos hy0)) h
      · omega

theorem ceilDiv_eq (x c P : Int) (hP : 0 < P) (h1 : (c - 1) * P < x) (h2 : x ≤ c * P) :
    -((-x) / P) = c := by
  have h : (-x) / P = -c := by
    apply le_antisymm
    · have := Int.ediv_lt_of_lt_mul hP (show -x < (-c + 1) * P by linarith)
      omega
    · exact Int.le_ediv_of_mul_le hP (show -c * P ≤ -x by linarith)
  rw [h, neg_neg]

theorem ceilDiv_bounds (x P : Int) (hP : 0 < P) :
    (-((-x) / P) - 1) * P < x ∧ x ≤ -((-x) / P) * P := by
  have h1 := Int.ediv_mul_le (-x) (ne_of_gt hP)
  have h2 := Int.lt_ediv_add_one_mul_self (-x) hP
  constructor <;> linarith

theorem ceil_roundDiv (a b : Int) (k : Nat) (hb : 0 < b) (ha : a.natAbs < 2 ^ 53)
    (hk : 2 ^ 52 * b.natAbs ≤ a.natAbs * 2 ^ k) :
    -((-(a.sign * (storagesc.Float64.roundDiv (a.natAbs * 2 ^ k) b.natAbs : Nat))) /
      ((2 ^ k : Nat) : Int)) = -((-a) / b) := by
  have hPpos : 0 < 2 ^ k := Nat.pow_pos (by decide)
  have hbn : 0 < b.natAbs := Int.natAbs_pos.2 (ne_of_gt hb)
  have hbcast : (b.natAbs : Int) = b := Int.natAbs_of_nonneg (le_of_lt hb)
  have h2 : b.natAbs < 2 * 2 ^ k := by
    have : a.natAbs * 2 ^ k < 2 ^ 53 * 2 ^ k := Nat.mul_lt_mul_of_pos_right ha hPpos
    omega
  obtain ⟨hlo, hhi, hzero, hpos⟩ := roundDiv_bounds a.natAbs b.natAbs (2 ^ k) hbn h2
  have hN : b.natAbs * (a.natAbs / b.natAbs) + a.natAbs % b.natAbs = a.natAbs :=
    Nat.div_add_mod _ _
  have hR : a.natAbs % b.natAbs < b.natAbs := Nat.mod_lt _ hbn
  obtain ⟨hc1, hc2⟩ := ceilDiv_bounds a b hb
  generalize -((-a) / b) = c at hc1 hc2 ⊢
  generalize storagesc.Float64.roundDiv (a.natAbs * 2 ^ k) b.natAbs = m at hlo hhi hzero hpos
  generalize a.natAbs / b.natAbs = Q at hN hlo hhi hzero hpos
  generalize a.natAbs % b.natAbs = R at hN hR hzero hpos
  generalize 2 ^ k = P at hPpos h2 hlo hhi hzero hpos
  have hNi : (b : Int) * Q + R = a.natAbs := by
    rw [← hbcast]
    exact_mod_cast hN
  have hRi : (R : Int) < b := by
    rw [← hbcast]
    exact_mod_cast hR
  have hloi : (Q : Int) * P ≤ m := by exact_mod_cast hlo
  have hhii : (m : Int) < Q * P + P := by exact_mod_cast hhi
  have hPi : (0 : Int) < P := by exact_mod_cast hPpos
  apply ceilDiv_eq _ _ _ hPi
  · rcases lt_trichotomy a 0 with hneg | hz | hposa
    · have hs : a.sign = -1 := Int.sign_eq_neg_one_of_neg hneg
      have habs : (a.natAbs : Int) = -a := by omega
      rw [hs]
      have hcQ : c = -(Q : Int) := by
        have e1 : (-c) * b ≤ b * Q + R := by rw [hNi, habs]; linarith
        have e2 : b * Q + R < (-c + 1) * b := by rw [hNi, habs]; linarith
        have e3 : -c < Q + 1 := by
          by_contra hcon
          have : (Q + 1) * b ≤ (-c) * b :=
            Int.mul_le_mul_of_nonneg_right (by omega) (le_of_lt hb)
          linarith
        have e4 : (Q : Int) < -c + 1 := by
          by_contra hcon
          have : (-c + 1) * b ≤ Q * b :=
            Int.mul_le_mul_of_nonneg_right (by omega) (le_of_lt hb)
          linarith
        omega
      rw [hcQ]
      linarith
    · subst hz
      simp only [Int.sign_zero, zero_mul]
      have : c - 1 < 0 := by
        by_contra hcon
        have : 0 * b ≤ (c - 1) * b := Int.mul_le_mul_of_nonneg_right (by omega) (le_of_lt hb)
        linarith
      have := Int.mul_neg_of_neg_of_pos this hPi
      linarith
    · have hs : a.sign = 1 := Int.sign_eq_one_of_pos hposa
      have habs : (a.natAbs : Int) = a := by omega
      rw [hs, one_mul]
      have e1 : (c - 1) * b < b * Q + R := by rw [hNi, habs]; exact hc1
      have e3 : c - 1 < Q + 1 := by
        by_contra hcon
        have : (Q + 1) * b ≤ (c - 1) * b :=
          Int.mul_le_mul_of_nonneg_right (by omega) (le_of_lt hb)
        linarith
      by_cases hR0 : R = 0
      · subst hR0
        have hm := hzero rfl
        have hcQ : c - 1 < Q := by
          by_contra hcon
          have : Q * b ≤ (c - 1) * b :=
            Int.mul_le_mul_of_nonneg_right (by omega) (le_of_lt hb)
          simp only [Nat.cast_zero, add_zero] at e1
          linarith
        have : (c - 1) * P ≤ (Q - 1) * P :=
          Int.mul_le_mul_of_nonneg_right (by omega) (le_of_lt hPi)
        linarith
      · have hm := hpos (Nat.pos_of_ne_zero hR0)
        have hmi : (Q : Int) * P < m := by exact_mod_cast hm
        have : (c - 1) * P ≤ Q * P :=
          Int.mul_le_mul_of_nonneg_right (by omega) (le_of_lt hPi)
        linarith
  · rcases lt_trichotomy a 0 with hneg | hz | hposa
    · have hs : a.sign = -1 := Int.sign_eq_neg_one_of_neg hneg
      have habs : (a.natAbs : Int) = -a := by omega
      rw [hs]
      have e1 : (-c) * b ≤ b * Q + R := by rw [hNi, habs]; linarith
      have e3 : -c < Q + 1 := by
        by_contra hcon
        have : (Q + 1) * b ≤ (-c) * b :=
          Int.mul_le_mul_of_nonneg_right (by omega) (le_of_lt hb)
        linarith
      have : (-c) * P ≤ Q * P := Int.mul_le_mul_of_nonneg_right (by omega) (le_of_lt hPi)
      linarith
    · subst hz
      simp only [Int.sign_zero, zero_mul]
      have : 0 ≤ c := by
        by_contra hcon
        have : c * b ≤ (-1) * b := Int.mul_le_mul_of_nonneg_right (by omega) (le_of_lt hb)
        linarith
      have := Int.mul_nonneg this (le_of_lt hPi)
      linarith
    · have hs : a.sign = 1 := Int.sign_eq_one_of_pos hposa
      have habs : (a.natAbs : Int) = a := by omega
      rw [hs, one_mul]
      have e2 : b * Q + R ≤ c * b := by rw [hNi, habs]; exact hc2
      by_cases hR0 : R = 0
      · subst hR0
        have hm := hzero rfl
        have hmi : (m : Int) = Q * P := by exact_mod_cast hm
        have hQc : (Q : Int) ≤ c := by
          by_contra hcon
          have : (c + 1) * b ≤ Q * b :=
            Int.mul_le_mul_of_nonneg_right (by omega) (le_of_lt hb)
          simp only [Nat.cast_zero, add_zero] at e2
          linarith
        have : (Q : Int) * P ≤ c * P := Int.mul_le_mul_of_nonneg_right hQc (le_of_lt hPi)
        linarith
      · have hRpos : (0 : Int) < R := by
          have := Nat.pos_of_ne_zero hR0
          exact_mod_cast this
        have hQc : (Q : Int) + 1 ≤ c := by
          by_contra hcon
          have : c * b ≤ Q * b := Int.mul_le_mul_of_nonneg_right (by omega) (le_of_lt hb)
          linarith
        have : ((Q : Int) + 1) * P ≤ c * P :=
          Int.mul_le_mul_of_nonneg_right hQc (le_of_lt hPi)
        linarith

theorem ceilDiv_range (a b : Int) (hb : 0 < b) (h1 : -9007199254740992 < a)
    (h2 : a < 9007199254740992) :
    -9223372036854775808 ≤ -((-a) / b) ∧ -((-a) / b) < 9223372036854775808 := by
  obtain ⟨hc1, hc2⟩ := ceilDiv_bounds a b hb
  generalize -((-a) / b) = c at hc1 hc2 ⊢
  constructor
  · by_contra hcon
    have h3 : c * b ≤ (-9007199254740992) * b :=
      Int.mul_le_mul_of_nonneg_right (by omega) (le_of_lt hb)
    have h4 : (-9007199254740992) * b ≤ (-9007199254740992) * 1 :=
      Int.mul_le_mul_of_nonpos_left (by omega) (by omega)
    linarith
  · by_contra hcon
    have h3 : 9007199254740992 * b ≤ (c - 1) * b :=
      Int.mul_le_mul_of_nonneg_right (by omega) (le_of_lt hb)
    have h4 : (9007199254740992 : Int) * 1 ≤ 9007199254740992 * b :=
      Int.mul_le_mul_of_nonneg_left (by omega) (by omega)
    linarith

theorem getBlobbersSizeDiff_eq (uar : storagesc.updateAllocationRequest)
    (alloc : storagesc.StorageAllocation) (hd : 0 < alloc.DataShards)
    (hd2 : alloc.DataShards < 9007199254740992) (hs1 : -9007199254740992 < uar.Size)
    (hs2 : uar.Size < 9007199254740992) :
    uar.getBlobbersSizeDiff alloc = some (-((-uar.Size) / alloc.DataShards)) := by
  have hsa : uar.Size.natAbs < 2 ^ 53 := by omega
  have hda : alloc.DataShards.natAbs < 2 ^ 53 := by omega
  have hne : alloc.DataShards ≠ 0 := ne_of_gt hd
  have hrange := ceilDiv_range uar.Size alloc.DataShards hd hs1 hs2
  unfold storagesc.updateAllocationRequest.getBlobbersSizeDiff storagesc.Float64.ofInt
    storagesc.Float64.div
  simp only [hsa, hda, if_true, hne, if_false]
  by_cases h0 : uar.Size = 0
  · simp [h0, storagesc.Float64.ceil, storagesc.Float64.toInt64]
  · simp only [h0, if_false]
    have hcond : ¬ 2 ^ 53 * alloc.DataShards.natAbs ≤ uar.Size.natAbs := by omega
    have hk := upShift_spec uar.Size.natAbs alloc.DataShards.natAbs 128 0 (by
      have hpos : 1 ≤ uar.Size.natAbs := Int.natAbs_pos.2 h0
      have : 1 * 2 ^ (0 + 128) ≤ uar.Size.natAbs * 2 ^ (0 + 128) := Nat.mul_le_mul_right _ hpos
      omega)
    have hceil := ceil_roundDiv uar.Size alloc.DataShards _ hd hsa hk
    unfold storagesc.Float64.round
    simp only [hcond, if_false]
    generalize storagesc.Float64.upShift 128 uar.Size.natAbs alloc.DataShards.natAbs 0 = k
      at hceil ⊢
    have hsign : alloc.DataShards.sign = 1 := Int.sign_eq_one_of_pos hd
    have hval : storagesc.Float64.ceil
        ⟨uar.Size.sign * alloc.DataShards.sign *
          (storagesc.Float64.roundDiv (uar.Size.natAbs * 2 ^ k) alloc.DataShards.natAbs : Nat),
         0 - 0 + -(k : Int)⟩ = -((-uar.Size) / alloc.DataShards) := by
      rw [← hceil, hsign, mul_one]
      unfold storagesc.Float64.ceil
      simp only [sub_self, zero_add]
      by_cases hk0 : k = 0
      · subst hk0
        simp
      · have hneg : ¬ (0 : Int) ≤ -(k : Int) := by omega
        simp only [hneg, if_false, neg_neg, Int.toNat_ofNat, Nat.cast_pow, Nat.cast_ofNat]
    rw [hval]
    unfold storagesc.Float64.toInt64
    rw [if_pos hrange]

/-- Claim C25, what the code computes. `getBlobbersSizeDiff` divides the
requested size change by the number of data shards only, in `float64`, and
rounds up, where the test of the repository (`allocation_test.go`, lines 545
to 549) expects the change divided over data and parity shards. For
`0 < DataShards < 2^53` and `|Size| < 2^53` it returns exactly the ceiling of
`Size / DataShards`, the integer `r` with `(r - 1) * DataShards < Size <=
r * DataShards`; it returns the same whatever the number of parity shards;
with no data shards the quotient is not finite and the conversion to `int64`
is implementation dependent. -/
theorem getBlobbersSizeDiff_spec (uar : storagesc.updateAllocationRequest)
    (alloc : storagesc.StorageAllocation) :
    (alloc.DataShards = 0 → uar.getBlobbersSizeDiff alloc = none) ∧
    (0 < alloc.DataShards → alloc.DataShards < 9007199254740992 →
      -9007199254740992 < uar.Size → uar.Size < 9007199254740992 →
      ∃ r, uar.getBlobbersSizeDiff alloc = some r ∧ r = -((-uar.Size) / alloc.DataShards) ∧
        (r - 1) * alloc.DataShards < uar.Size ∧ uar.Size ≤ r * alloc.DataShards ∧
        (alloc.DataShards ∣ uar.Size → r = uar.Size / alloc.DataShards)) ∧
    (∀ parity, uar.getBlobbersSizeDiff { alloc with ParityShards := parity } =
      uar.getBlobbersSizeDiff alloc) := by
  refine ⟨?_, ?_, fun _ => rfl⟩
  · intro h0
    simp [storagesc.updateAllocationRequest.getBlobbersSizeDiff, storagesc.Float64.ofInt,
      storagesc.Float64.div, h0]
  · intro hd hd2 hs1 hs2
    obtain ⟨hc1, hc2⟩ := ceilDiv_bounds uar.Size alloc.DataShards hd
    refine ⟨_, getBlobbersSizeDiff_eq uar alloc hd hd2 hs1 hs2, rfl, hc1, hc2, ?_⟩
    intro hdvd
    rw [Int.neg_ediv_of_dvd hdvd, neg_neg]

/-- Witness of C25: on the allocation with two data and two parity shards a
change of 1 GB gives the ceiling of `GB / 2`. -/
theorem getBlobbersSizeDiff_spec_witness :
    ∃ r, (sizeRequest GB).getBlobbersSizeDiff sampleAllocation = some r ∧
      r = -((-(sizeRequest GB).Size) / sampleAllocation.DataShards) ∧
      (r - 1) * sampleAllocation.DataShards < (sizeRequest GB).Size ∧
      (sizeRequest GB).Size ≤ r * sampleAllocation.DataShards ∧
      (sampleAllocation.DataShards ∣ (sizeRequest GB).Size →
        r = (sizeRequest GB).Size / sampleAllocation.DataShards) :=
  (getBlobbersSizeDiff_spec (sizeRequest GB) sampleAllocation).2.1
    (by decide) (by decide) (by decide) (by decide)


/-- The input of `Test_updateAllocationRequest_getBlobbersSizeDiff`: on the
allocation with two data and two parity shards a change of +1 GB gives +512 MB
and a change of -1 GB gives -512 MB, where the test asserts 256 MB and
-256 MB: the code divides the change by the number of data shards. -/
theorem getBlobbersSizeDiff_by_data_shards :
    sampleAllocation.DataShards = 2 ∧ sampleAllocation.ParityShards = 2 ∧
    (sizeRequest GB).getBlobbersSizeDiff sampleAllocation = some (512 * MB) ∧
    (sizeRequest (-GB)).getBlobbersSizeDiff sampleAllocation = some (-(512 * MB)) ∧
    (sizeRequest 0).getBlobbersSizeDiff sampleAllocation = some 0 ∧
    (512 * MB ≠ 256 * MB) :=
  ⟨rfl, rfl, by decide, by decide, by decide, by decide⟩

end ZeroChain
